import Mathlib

/-!
A shallow embedding of the dictionary engines of the repository
(AVL tree, red-black tree, separate-chaining hash table, open-addressing
hash table) together with proofs about them.

Modelling conventions:
* C++ machine integers (size_t, int, long long) are modelled as Nat / Int;
  none of the verified properties depends on wrap-around behaviour.
* The float fields (load factors) are modelled as rationals; the float
  comparisons in the source agree with the exact rational comparisons at
  every value exercised here.
* The float expression i <= sqrt(x) in the trial-division loop is modelled
  as i * i <= x, its exact value.
* While-loops that are not structurally recursive carry an explicit fuel
  argument chosen large enough that it is never exhausted (the nesting
  depth of rehashing is bounded by the element count, and the prime search
  terminates within x + 2 steps by the Bertrand postulate).
* C++ exceptions are modelled with Except / Option result types.
-/

set_option maxHeartbeats 1000000

/-- Shared prime-sizing utility: the inner for-loop of get_next_prime.
Trial-divides x by the odd candidates i, i+2, i+4, ... while i * i ≤ x
(the exact meaning of the *i <= sqrt(x)* float test in the source);
returns true as soon as a divisor is found.  The fuel argument bounds the
number of iterations and is never exhausted when it starts at x + 2. -/
def trial_division (x : Nat) : Nat → Nat → Bool
  | 0, _ => false
  | fuel + 1, i =>
    if i * i ≤ x then
      (if x % i = 0 then true else trial_division x fuel (i + 2))
    else false

/-- Shared prime-sizing utility: the outer while-loop of get_next_prime.
Tests the current odd candidate x; on failure moves to x + 2.  The source
runs without fuel; a fuel of x + 2 is always sufficient. -/
def prime_search : Nat → Nat → Nat
  | x, 0 => x
  | x, fuel + 1 => if trial_division x (x + 2) 3 then prime_search (x + 2) fuel else x

/-- ChainedHashTable::get_next_prime / OpenHashTable::get_next_prime
(the two member functions have identical bodies): for x ≤ 2 return 3,
otherwise round x up to an odd number and search odd candidates upward. -/
def get_next_prime (x : Nat) : Nat :=
  if x ≤ 2 then 3
  else prime_search (if x % 2 = 0 then x + 1 else x) (x + 2)

namespace AVL

/-- Node of the AVL tree (dictionary/avl_tree/Node.hpp): key-value pair,
cached height (a freshly constructed node has height 1), owned children. -/
inductive Tree (K V : Type) where
  | leaf : Tree K V
  | node (key : K × V) (height : Nat) (left right : Tree K V) : Tree K V
deriving DecidableEq

variable {K V : Type} [LinearOrder K] [Inhabited K] [Inhabited V]

/-- AVLTree::height: 0 for an absent child, else the cached height field. -/
def height : Tree K V → Nat
  | .leaf => 0
  | .node _ h _ _ => h

/-- Left child of a node (p->left); leaf for the leaf (null dereference in C++). -/
def left : Tree K V → Tree K V
  | .leaf => .leaf
  | .node _ _ l _ => l

/-- Right child of a node (p->right). -/
def right : Tree K V → Tree K V
  | .leaf => .leaf
  | .node _ _ _ r => r

/-- AVLTree::balance: height(node->right) - height(node->left). -/
def balance (t : Tree K V) : Int :=
  (height (right t) : Int) - height (left t)

/-- AVLTree::rightRotation: promotes the left child, reparenting its right
subtree; recomputes the two affected cached heights (updateHeight). -/
def rightRotation (p : Tree K V) : Tree K V :=
  match p with
  | .node pkv _ (.node lkv _ ll lr) r =>
      let p2 : Tree K V := .node pkv (1 + max (height lr) (height r)) lr r
      .node lkv (1 + max (height ll) (height p2)) ll p2
  | t => t

/-- AVLTree::leftRotation: mirror image of rightRotation. -/
def leftRotation (p : Tree K V) : Tree K V :=
  match p with
  | .node pkv _ l (.node rkv _ rl rr) =>
      let p2 : Tree K V := .node pkv (1 + max (height l) (height rl)) l rl
      .node rkv (1 + max (height p2) (height rr)) p2 rr
  | t => t

/-- AVLTree::fixup_node: recompute the cached height, then rotate according
to the balance factor, comparing the heights of the grandchildren.
The second component counts the rotations performed (each C++ rotation
call increments the rotation counter once). -/
def fixup_node (p : Tree K V) : Tree K V × Nat :=
  match p with
  | .leaf => (.leaf, 0)
  | .node pkv _ l r =>
      let p1 : Tree K V := .node pkv (1 + max (height l) (height r)) l r
      let bal : Int := (height r : Int) - height l
      if bal = -2 ∧ height (left l) > height (right l) then (rightRotation p1, 1)
      else if bal = -2 ∧ height (left l) < height (right l) then
        (rightRotation (.node pkv (1 + max (height l) (height r)) (leftRotation l) r), 2)
      else if bal = 2 ∧ height (right r) > height (left r) then (leftRotation p1, 1)
      else if bal = 2 ∧ height (right r) < height (left r) then
        (leftRotation (.node pkv (1 + max (height l) (height r)) l (rightRotation r)), 2)
      else (p1, 0)

/-- Result of a mutating tree walk: the new tree plus the deltas applied to
size_m, the comparison counter and the rotation counter (all counter
updates in the source are additive increments). -/
structure Step (K V : Type) where
  tree : Tree K V
  dsize : Nat
  dcomp : Nat
  drot : Nat

/-- AVLTree::insert (private recursive helper): standard BST descent,
duplicate key is a no-op; after the recursive call the node is rebalanced
with fixup_node.  Once the two first components are known to differ, the
std::pair lexicographic comparison *key < p->key* of the source reduces to
a comparison of the key components. -/
def insertT : Tree K V → K × V → Step K V
  | .leaf, kv => ⟨.node kv 1 .leaf .leaf, 1, 0, 0⟩
  | .node pkv h l r, kv =>
      if kv.1 = pkv.1 then ⟨.node pkv h l r, 0, 1, 0⟩
      else if kv.1 < pkv.1 then
        let q := insertT l kv
        let f := fixup_node (.node pkv h q.tree r)
        ⟨f.1, q.dsize, q.dcomp + 2, q.drot + f.2⟩
      else
        let q := insertT r kv
        let f := fixup_node (.node pkv h l q.tree)
        ⟨f.1, q.dsize, q.dcomp + 2, q.drot + f.2⟩

/-- AVLTree::fixup_deletion: rebalances using the sign of the child balance
factor; when no rotation applies, the cached height is recomputed. -/
def fixup_deletion (p : Tree K V) : Tree K V × Nat :=
  match p with
  | .leaf => (.leaf, 0)
  | .node pkv h l r =>
      let bal : Int := (height r : Int) - height l
      if bal = 2 ∧ balance r ≥ 0 then (leftRotation (.node pkv h l r), 1)
      else if bal = 2 ∧ balance r < 0 then
        (leftRotation (.node pkv h l (rightRotation r)), 2)
      else if bal = -2 ∧ balance l ≤ 0 then (rightRotation (.node pkv h l r), 1)
      else if bal = -2 ∧ balance l > 0 then
        (rightRotation (.node pkv h (leftRotation l) r), 2)
      else (.node pkv (1 + max (height l) (height r)) l r, 0)

/-- AVLTree::remove_successor: walks to the leftmost node of the given
subtree, copies its pair into the node being removed (returned as the
first component), splices it out, and rebalances the spine on the way
back with fixup_deletion.  The third component counts rotations. -/
def remove_successor : Tree K V → ((K × V) × Tree K V × Nat)
  | .leaf => ((default, default), .leaf, 0)
  | .node nkv h l r =>
    match l with
    | .leaf => (nkv, r, 0)
    | .node lkv lh ll lr =>
        let q := remove_successor (Tree.node lkv lh ll lr)
        let f := fixup_deletion (.node nkv h q.2.1 r)
        (q.1, f.1, q.2.2 + f.2)

/-- AVLTree::m_remove: BST descent; a node with no right child is spliced
out directly, otherwise its pair is replaced by the in-order successor,
which is removed from the right subtree; fixup_deletion on the way up. -/
def m_remove : Tree K V → K → Step K V
  | .leaf, _ => ⟨.leaf, 0, 0, 0⟩
  | .node pkv h l r, k =>
      if k < pkv.1 then
        let q := m_remove l k
        let f := fixup_deletion (.node pkv h q.tree r)
        ⟨f.1, q.dsize, q.dcomp + 1, q.drot + f.2⟩
      else if pkv.1 < k then
        let q := m_remove r k
        let f := fixup_deletion (.node pkv h l q.tree)
        ⟨f.1, q.dsize, q.dcomp + 2, q.drot + f.2⟩
      else
        match r with
        | .leaf => ⟨l, 1, 3, 0⟩
        | .node rkv rh rl rr =>
            let q := remove_successor (Tree.node rkv rh rl rr)
            let f := fixup_deletion (.node q.1 h l q.2.1)
            ⟨f.1, 1, 1, q.2.2 + f.2⟩

/-- AVLTree::at (private recursive helper): descent by key comparison,
returning the stored value, plus the number of comparisons counted. -/
def atT : Tree K V → K → Option V × Nat
  | .leaf, _ => (none, 0)
  | .node pkv _ l r, k =>
      if k = pkv.1 then (some pkv.2, 1)
      else if k < pkv.1 then
        let q := atT l k
        (q.1, q.2 + 2)
      else
        let q := atT r k
        (q.1, q.2 + 2)

/-- AVLTree::contains (private recursive helper). -/
def containsT : Tree K V → K → Bool
  | .leaf, _ => false
  | .node pkv _ l r, k =>
      if k = pkv.1 then true
      else if k < pkv.1 then containsT l k
      else containsT r k

/-- AVLTree::update (private recursive helper): updates the value of an
existing key in place, fixup_node on the way back up; an absent key is an
out_of_range error.  Results: new tree, comparison delta, rotation delta. -/
def updateT : Tree K V → K × V → Except Unit (Tree K V × Nat × Nat)
  | .leaf, _ => .error ()
  | .node pkv h l r, kv =>
      if kv.1 = pkv.1 then .ok (.node (pkv.1, kv.2) h l r, 1, 0)
      else if kv.1 < pkv.1 then
        match updateT l kv with
        | .error e => .error e
        | .ok q =>
            let f := fixup_node (.node pkv h q.1 r)
            .ok (f.1, q.2.1 + 2, q.2.2 + f.2)
      else
        match updateT r kv with
        | .error e => .error e
        | .ok q =>
            let f := fixup_node (.node pkv h l q.1)
            .ok (f.1, q.2.1 + 3, q.2.2 + f.2)

/-- The AVLTree object: root pointer, element count and the two
instrumentation counters. -/
structure Dict (K V : Type) where
  root : Tree K V
  size_m : Nat
  comparisons : Int
  rotations : Int
deriving DecidableEq

/-- A default-constructed AVLTree. -/
def emptyDict : Dict K V := ⟨.leaf, 0, 0, 0⟩

/-- AVLTree::insert (public): root = insert(root, key). -/
def insertDict (d : Dict K V) (kv : K × V) : Dict K V :=
  let s := insertT d.root kv
  ⟨s.tree, d.size_m + s.dsize, d.comparisons + s.dcomp, d.rotations + s.drot⟩

/-- AVLTree::remove (public): root = m_remove(root, key). -/
def removeDict (d : Dict K V) (k : K) : Dict K V :=
  let s := m_remove d.root k
  ⟨s.tree, d.size_m - s.dsize, d.comparisons + s.dcomp, d.rotations + s.drot⟩

/-- AVLTree::at (public). -/
def atDict (d : Dict K V) (k : K) : Option V :=
  (atT d.root k).1

/-- AVLTree::contains (public). -/
def containsDict (d : Dict K V) (k : K) : Bool :=
  containsT d.root k

/-- AVLTree::update (public): root = update(root, key); an absent key
makes the whole call fail with out_of_range. -/
def updateDict (d : Dict K V) (kv : K × V) : Except Unit (Dict K V) :=
  match updateT d.root kv with
  | .error e => .error e
  | .ok q => .ok ⟨q.1, d.size_m, d.comparisons + q.2.1, d.rotations + q.2.2⟩

/-- AVLTree::operator[]: iterative search (counting comparisons exactly
like at); on a miss the key is inserted with a default-constructed value
and looked up again with at.  Returns the value read plus the new state. -/
def indexDict (d : Dict K V) (k : K) : V × Dict K V :=
  let q := atT d.root k
  match q.1 with
  | some v => (v, { d with comparisons := d.comparisons + q.2 })
  | none =>
      let s := insertT d.root (k, (default : V))
      let d2 : Dict K V :=
        ⟨s.tree, d.size_m + s.dsize, d.comparisons + q.2 + s.dcomp, d.rotations + s.drot⟩
      let q2 := atT d2.root k
      ((q2.1).getD default, { d2 with comparisons := d2.comparisons + q2.2 })

/-- AVLTree::clear: deletes every node (root becomes null, size 0); the
instrumentation counters are not touched. -/
def clearDict (d : Dict K V) : Dict K V :=
  ⟨.leaf, 0, d.comparisons, d.rotations⟩

/-- Real (recomputed) height of a tree, with 0 for an absent child. -/
def realHeight : Tree K V → Nat
  | .leaf => 0
  | .node _ _ l r => 1 + max (realHeight l) (realHeight r)

/-- Every cached height field equals 1 + max of the children heights. -/
def HeightsOk : Tree K V → Prop
  | .leaf => True
  | .node _ h l r => h = 1 + max (realHeight l) (realHeight r) ∧ HeightsOk l ∧ HeightsOk r

/-- Every node satisfies the AVL balance condition
|height(left) - height(right)| ≤ 1. -/
def BalancedT : Tree K V → Prop
  | .leaf => True
  | .node _ _ l r =>
      ((realHeight l : Int) - realHeight r ≤ 1 ∧ (realHeight r : Int) - realHeight l ≤ 1) ∧
        BalancedT l ∧ BalancedT r

/-- The full AVL structural invariant. -/
def WF (t : Tree K V) : Prop := HeightsOk t ∧ BalancedT t

/-- Balance factor over recomputed heights:
realHeight(right) - realHeight(left). -/
def realBal (t : Tree K V) : Int :=
  (realHeight (right t) : Int) - realHeight (left t)

/-- One mutating dictionary operation, as exercised by the invariant claim. -/
inductive Op (K V : Type) where
  | ins (kv : K × V)
  | del (k : K)

/-- Apply one operation to an AVLTree object. -/
def applyOp (d : Dict K V) : Op K V → Dict K V
  | .ins kv => insertDict d kv
  | .del k => removeDict d k

/-- Run a sequence of insert / remove operations from the empty tree. -/
def runOps (ops : List (Op K V)) : Dict K V :=
  ops.foldl applyOp emptyDict

end AVL

namespace RB

/-- Node of the red-black tree (RB_Tree/node/NodeRB.hpp): key-value pair,
colour (true = RED, false = BLACK), owned children.  The sentinel nil node
is the nil constructor; the parent back-pointer of the source is
represented by the zipper used during the insertion fixup. -/
inductive Tree (K V : Type) where
  | nil : Tree K V
  | node (key : K × V) (color : Bool) (left right : Tree K V) : Tree K V
deriving DecidableEq

variable {K V : Type} [LinearOrder K]

/-- Colour test: the sentinel nil is always BLACK. -/
def isRed : Tree K V → Bool
  | .nil => false
  | .node _ c _ _ => c

/-- One step of the root-to-node path: whether the focus hangs as the left
child, the parent entry and colour, and the sibling subtree. -/
structure Crumb (K V : Type) where
  isLeft : Bool
  pkv : K × V
  pcolor : Bool
  sib : Tree K V

/-- Rebuild the full tree from a focus subtree and its path (head of the
list is the immediate parent). -/
def plug : Tree K V → List (Crumb K V) → Tree K V
  | t, [] => t
  | t, c :: rest =>
      if c.isLeft then plug (.node c.pkv c.pcolor t c.sib) rest
      else plug (.node c.pkv c.pcolor c.sib t) rest

/-- The descending while-loop of RedBlackTree::insert: walks down comparing
keys and recording the path; returns none if the key is found (the insert
returns with no structural change), together with the comparison count
(one per visited node, plus one more when the second else-if test runs). -/
def descendLoop : Tree K V → K × V → List (Crumb K V) → Option (List (Crumb K V)) × Nat
  | .nil, _, path => (some path, 0)
  | .node pkv c l r, kv, path =>
      if kv.1 < pkv.1 then
        let q := descendLoop l kv (⟨true, pkv, c, r⟩ :: path)
        (q.1, q.2 + 1)
      else if pkv.1 < kv.1 then
        let q := descendLoop r kv (⟨false, pkv, c, l⟩ :: path)
        (q.1, q.2 + 2)
      else (none, 1)

/-- RedBlackTree::fixup_node, transcribed on the zipper.  The focus x plays
the C++ role of p; the loop runs while the parent exists and is RED.
Uncle RED: recolor parent and uncle BLACK, grandparent RED, continue from
the grandparent.  Uncle BLACK: an inner grandchild is first rotated to the
outside, then the parent is recoloured BLACK, the grandparent RED, and the
grandparent is rotated; the loop then stops (the new parent is BLACK).
The second component is the rotation-counter delta: fixup_node increments
it once before each rotation call and the rotation functions increment it
again, so each performed rotation counts twice. -/
def fixupZ : Tree K V → List (Crumb K V) → Tree K V × Nat
  | x, [] => (x, 0)
  | x, cp :: rest =>
      if cp.pcolor = false then (plug x (cp :: rest), 0)
      else
        match rest with
        | [] => (plug x [cp], 0)
        | cg :: rest2 =>
            if cg.isLeft then
              match cg.sib with
              | .node ukv true ul ur =>
                  let parentNode : Tree K V :=
                    if cp.isLeft then .node cp.pkv false x cp.sib
                    else .node cp.pkv false cp.sib x
                  let grand : Tree K V :=
                    .node cg.pkv true parentNode (.node ukv false ul ur)
                  let q := fixupZ grand rest2
                  (q.1, q.2)
              | _ =>
                  if cp.isLeft then
                    let res : Tree K V :=
                      .node cp.pkv false x (.node cg.pkv true cp.sib cg.sib)
                    (plug res rest2, 2)
                  else
                    match x with
                    | .node xkv _ xl xr =>
                        let res : Tree K V :=
                          .node xkv false (.node cp.pkv true cp.sib xl)
                            (.node cg.pkv true xr cg.sib)
                        (plug res rest2, 4)
                    | .nil => (plug x (cp :: cg :: rest2), 0)
            else
              match cg.sib with
              | .node ukv true ul ur =>
                  let parentNode : Tree K V :=
                    if cp.isLeft then .node cp.pkv false x cp.sib
                    else .node cp.pkv false cp.sib x
                  let grand : Tree K V :=
                    .node cg.pkv true (.node ukv false ul ur) parentNode
                  let q := fixupZ grand rest2
                  (q.1, q.2)
              | _ =>
                  if ¬cp.isLeft then
                    let res : Tree K V :=
                      .node cp.pkv false (.node cg.pkv true cg.sib cp.sib) x
                    (plug res rest2, 2)
                  else
                    match x with
                    | .node xkv _ xl xr =>
                        let res : Tree K V :=
                          .node xkv false (.node cg.pkv true cg.sib xl)
                            (.node cp.pkv true xr cp.sib)
                        (plug res rest2, 4)
                    | .nil => (plug x (cp :: cg :: rest2), 0)

/-- Force the root BLACK (root->color = BLACK, done unconditionally at the
end of the insertion fixup). -/
def blacken : Tree K V → Tree K V
  | .nil => .nil
  | .node kv _ l r => .node kv false l r

/-- RedBlackTree::at (private recursive helper). -/
def atT : Tree K V → K → Option V × Nat
  | .nil, _ => (none, 0)
  | .node pkv _ l r, k =>
      if k = pkv.1 then (some pkv.2, 1)
      else if k < pkv.1 then
        let q := atT l k
        (q.1, q.2 + 2)
      else
        let q := atT r k
        (q.1, q.2 + 2)

/-- RedBlackTree::contains (private recursive helper). -/
def containsT : Tree K V → K → Bool
  | .nil, _ => false
  | .node pkv _ l r, k =>
      if k = pkv.1 then true
      else if k < pkv.1 then containsT l k
      else containsT r k

/-- The RedBlackTree object: root, element count, counters (the nil
sentinel is implicit in the Tree representation). -/
structure Dict (K V : Type) where
  root : Tree K V
  size_m : Nat
  comparisons : Int
  rotations : Int
deriving DecidableEq

/-- A default-constructed RedBlackTree: root = nil, size 0. -/
def emptyDict : Dict K V := ⟨.nil, 0, 0, 0⟩

/-- RedBlackTree::insert (public + private): allocate a RED node, descend
from the root; if the key is found the tree is returned unchanged (only
the comparison counter advanced); otherwise the node is attached at the
recorded null position (one extra comparison for the parent == nil test,
plus one or two for the direction tests), fixup_node runs, and the root is
forced BLACK; size_m is incremented. -/
def insertDict (d : Dict K V) (kv : K × V) : Dict K V :=
  let q := descendLoop d.root kv []
  match q.1 with
  | none => { d with comparisons := d.comparisons + q.2 }
  | some path =>
      let attachComps : Nat :=
        match path with
        | [] => 1
        | c :: _ => if c.isLeft then 2 else 3
      let f := fixupZ (.node kv true .nil .nil) path
      ⟨blacken f.1, d.size_m + 1,
        d.comparisons + q.2 + attachComps, d.rotations + f.2⟩

/-- RedBlackTree::at (public). -/
def atDict (d : Dict K V) (k : K) : Option V :=
  (atT d.root k).1

/-- RedBlackTree::contains (public). -/
def containsDict (d : Dict K V) (k : K) : Bool :=
  containsT d.root k

/-- RedBlackTree::clear: post-order deletion of all nodes, root = nil,
size_m = 0; the counters are not touched. -/
def clearDict (d : Dict K V) : Dict K V :=
  ⟨.nil, 0, d.comparisons, d.rotations⟩

end RB

namespace Chained

/-- The ChainedHashTable object: element count, table size, max load
factor (a float in the source, modelled as a rational), the bucket array,
and the comparison counter. -/
structure Table (K V : Type) where
  m_number_of_elements : Nat
  m_table_size : Nat
  m_max_load_factor : ℚ
  m_table : List (List (K × V))
  comparisons : Int
deriving DecidableEq

variable {K V : Type} [DecidableEq K] [Inhabited V]

/-- ChainedHashTable::ChainedHashTable(tableSize, load_factor): the table
gets exactly tableSize buckets; a non-positive load factor is silently
replaced by the default 1.0 — the constructor never fails. -/
def ctor (tableSize : Nat) (load_factor : ℚ) : Table K V :=
  ⟨0, tableSize, if load_factor ≤ 0 then 1 else load_factor,
    List.replicate tableSize [], 0⟩

/-- ChainedHashTable::hash_code: hash(k) mod table size. -/
def hash_code (hashF : K → Nat) (s : Table K V) (k : K) : Nat :=
  hashF k % s.m_table_size

/-- ChainedHashTable::load_factor: elements / buckets, exactly
(mkRat n t is the rational n / t). -/
def load_factor (s : Table K V) : ℚ :=
  mkRat s.m_number_of_elements s.m_table_size

/-- The bucket with index i (m_table[i]). -/
def bucketAt (s : Table K V) (i : Nat) : List (K × V) :=
  (s.m_table.get? i).getD []

/-- Linear scan of one chain, as in insert / at / contains: the value of
the first entry with the given key, plus the number of comparisons made
(one per visited entry). -/
def chainFind : List (K × V) → K → Option V × Nat
  | [], _ => (none, 0)
  | p :: rest, k =>
      if p.1 = k then (some p.2, 1)
      else
        let q := chainFind rest k
        (q.1, q.2 + 1)

/-- The scan of ChainedHashTable::update: replaces the value of the first
entry with the matching key; reports whether a match was found and the
comparison count.  No match means no change at all. -/
def chainUpdate : List (K × V) → K × V → List (K × V) × Bool × Nat
  | [], _ => ([], false, 0)
  | p :: rest, kv =>
      if p.1 = kv.1 then ((p.1, kv.2) :: rest, true, 1)
      else
        let q := chainUpdate rest kv
        (p :: q.1, q.2.1, q.2.2 + 1)

/-- The scan of ChainedHashTable::remove: erases the first entry with the
matching key; reports how many entries were erased (0 or 1) and the
comparison count. -/
def chainErase : List (K × V) → K → List (K × V) × Nat × Nat
  | [], _ => ([], 0, 0)
  | p :: rest, k =>
      if p.1 = k then (rest, 1, 1)
      else
        let q := chainErase rest k
        (p :: q.1, q.2.1, q.2.2 + 1)

/-- The body of ChainedHashTable::insert after the load-factor check:
scan the target chain; a duplicate key is a no-op, otherwise the pair is
appended to the chain and the element count grows. -/
def insertCore (hashF : K → Nat) (doRehash : Table K V → Table K V)
    (s : Table K V) (kv : K × V) : Table K V :=
  let s1 := if s.m_max_load_factor ≤ load_factor s then doRehash s else s
  let i := hash_code hashF s1 kv.1
  let q := chainFind (bucketAt s1 i) kv.1
  match q.1 with
  | some _ => { s1 with comparisons := s1.comparisons + q.2 }
  | none =>
      { s1 with
        m_table := s1.m_table.set i (bucketAt s1 i ++ [kv]),
        m_number_of_elements := s1.m_number_of_elements + 1,
        comparisons := s1.comparisons + q.2 }

/-- ChainedHashTable::rehash(m), parameterised by the insert used to
refill the table: grow-only; builds a table of get_next_prime m empty
buckets and reinserts every entry in bucket order. -/
def rehashGo (ins : Table K V → K × V → Table K V) (s : Table K V) (m : Nat) :
    Table K V :=
  let nt := get_next_prime m
  if s.m_table_size < nt then
    s.m_table.foldl (fun acc bucket => bucket.foldl ins acc)
      ⟨0, nt, s.m_max_load_factor, List.replicate nt [], s.comparisons⟩
  else s

/-- ChainedHashTable::insert: when the load factor has reached the
maximum, rehash to twice the table size first (recursively through the
reinsertion, with a fuel that bounds the nesting depth and is never
exhausted when it starts at the element count + 2). -/
def insertFuel (hashF : K → Nat) : Nat → Table K V → K × V → Table K V
  | 0 => fun s kv => insertCore hashF (fun s1 => s1) s kv
  | f + 1 => fun s kv =>
      insertCore hashF
        (fun s1 => rehashGo (insertFuel hashF f) s1 (s1.m_table_size * 2)) s kv

/-- ChainedHashTable::insert (public entry). -/
def insertDict (hashF : K → Nat) (s : Table K V) (kv : K × V) : Table K V :=
  insertFuel hashF (s.m_number_of_elements + 2) s kv

/-- ChainedHashTable::rehash (public entry, used by reserve). -/
def rehashDict (hashF : K → Nat) (s : Table K V) (m : Nat) : Table K V :=
  rehashGo (insertFuel hashF (s.m_number_of_elements + 2)) s m

/-- ChainedHashTable::update: scan the target chain and overwrite the
value on a match; an absent key is a silent no-op (the function returns
without signalling anything). -/
def updateDict (hashF : K → Nat) (s : Table K V) (kv : K × V) : Table K V :=
  let i := hash_code hashF s kv.1
  let q := chainUpdate (bucketAt s i) kv
  { s with
    m_table := s.m_table.set i q.1,
    comparisons := s.comparisons + q.2.2 }

/-- ChainedHashTable::at: value of the key, out_of_range on a miss. -/
def atDict (hashF : K → Nat) (s : Table K V) (k : K) : Option V :=
  (chainFind (bucketAt s (hash_code hashF s k)) k).1

/-- ChainedHashTable::contains. -/
def containsDict (hashF : K → Nat) (s : Table K V) (k : K) : Bool :=
  (chainFind (bucketAt s (hash_code hashF s k)) k).1.isSome

/-- ChainedHashTable::remove: erase the matching entry of the target
chain if present, else no-op. -/
def removeDict (hashF : K → Nat) (s : Table K V) (k : K) : Table K V :=
  let i := hash_code hashF s k
  let q := chainErase (bucketAt s i) k
  { s with
    m_table := s.m_table.set i q.1,
    m_number_of_elements := s.m_number_of_elements - q.2.1,
    comparisons := s.comparisons + q.2.2 }

/-- ChainedHashTable::operator[]: computes the bucket index against the
current table size, scans it, and on a miss inserts a default value and
returns m_table[slot].back() — with the slot index computed BEFORE the
insert, which may have rehashed the table.  The first component is the
value the returned reference denotes (none models back() on an empty
list, undefined behaviour in the source). -/
def indexDict (hashF : K → Nat) (s : Table K V) (k : K) : Option V × Table K V :=
  let slot := hash_code hashF s k
  let q := chainFind (bucketAt s slot) k
  match q.1 with
  | some v => (some v, { s with comparisons := s.comparisons + q.2 })
  | none =>
      let s2 := insertDict hashF { s with comparisons := s.comparisons + q.2 }
        (k, (default : V))
      ((bucketAt s2 slot).getLast?.map (fun p => p.2), s2)

/-- ChainedHashTable::clear: empties every bucket and zeroes the element
count; table size, max load factor and the comparison counter are kept. -/
def clearDict (s : Table K V) : Table K V :=
  { s with
    m_table := s.m_table.map (fun _ => []),
    m_number_of_elements := 0 }

/-- ChainedHashTable::reserve: rehash only when n exceeds
bucket_count() * max_load_factor(); the rehash target n / max_load_factor
is a float expression truncated to size_t. -/
def reserveDict (hashF : K → Nat) (s : Table K V) (n : Nat) : Table K V :=
  if (s.m_table_size : ℚ) * s.m_max_load_factor < (n : ℚ) then
    rehashDict hashF s (Nat.floor ((n : ℚ) / s.m_max_load_factor))
  else s

/-- ChainedHashTable::set_max_load_factor: a non-positive value is an
out_of_range error; otherwise the factor is stored and the table is
reserved if the current load factor now exceeds it. -/
def set_max_load_factor (hashF : K → Nat) (s : Table K V) (lf : ℚ) :
    Except Unit (Table K V) :=
  if lf ≤ 0 then .error ()
  else
    let s1 := { s with m_max_load_factor := lf }
    if s1.m_max_load_factor < load_factor s1 then
      .ok (reserveDict hashF s1 s1.m_number_of_elements)
    else .ok s1

end Chained

/-- Slot status of the open-addressing table
(dictionary/hash_table_o/Slot.hpp). -/
inductive HashTableStatus where
  | EMPTY : HashTableStatus
  | ACTIVE : HashTableStatus
  | DELETED : HashTableStatus
deriving DecidableEq

namespace OpenHT

/-- One slot of the open-addressing table: a key-value pair and a status
(a default-constructed slot is EMPTY with a default-constructed pair). -/
structure Slot (K V : Type) where
  data : K × V
  status : HashTableStatus
deriving DecidableEq

/-- The OpenHashTable object: element count, table size, max load factor
(float in the source, modelled as a rational), the slot array, and the
two instrumentation counters. -/
structure Table (K V : Type) where
  m_number_of_elements : Nat
  m_table_size : Nat
  m_max_load_factor : ℚ
  m_table : List (Slot K V)
  comparisons : Int
  collisions : Int
deriving DecidableEq

variable {K V : Type} [DecidableEq K] [Inhabited K] [Inhabited V]

/-- A default-constructed (EMPTY) slot. -/
def emptySlot : Slot K V := ⟨default, .EMPTY⟩

/-- OpenHashTable::OpenHashTable(tableSize, load_factor): the table gets
exactly tableSize slots; a non-positive load factor is silently replaced
by the default 0.5 — the constructor never fails. -/
def ctor (tableSize : Nat) (load_factor : ℚ) : Table K V :=
  ⟨0, tableSize, if load_factor ≤ 0 then mkRat 1 2 else load_factor,
    List.replicate tableSize emptySlot, 0, 0⟩

/-- OpenHashTable::hash_code: (hash(k) + try_count²) mod table size. -/
def hash_code (hashF : K → Nat) (s : Table K V) (k : K) (tryCount : Nat) : Nat :=
  (hashF k + tryCount * tryCount) % s.m_table_size

/-- OpenHashTable::load_factor (mkRat n t is the rational n / t). -/
def load_factor (s : Table K V) : ℚ :=
  mkRat s.m_number_of_elements s.m_table_size

/-- The slot with index i (m_table[i]). -/
def slotAt (s : Table K V) (i : Nat) : Slot K V :=
  (s.m_table.get? i).getD emptySlot

/-- Outcome of the probing for-loop of OpenHashTable::insert. -/
structure ProbeOut where
  found : Bool
  hashIndex : Option Nat
  firstDeleted : Option Nat
  dcomp : Nat
  dcoll : Nat

/-- The probing for-loop of OpenHashTable::insert, for probe attempts
i, i+1, ..., with the remaining iteration count as second argument
(started at table_size): stop with hashIndex at the first EMPTY slot;
on an ACTIVE slot count a comparison, return found on a key match, else
count a collision and continue; on a DELETED slot remember the first such
index and continue. -/
def probeLoop (hashF : K → Nat) (s : Table K V) (k : K) :
    Nat → Nat → Option Nat → ProbeOut
  | _, 0, fd => ⟨false, none, fd, 0, 0⟩
  | i, rem + 1, fd =>
      let idx := hash_code hashF s k i
      let sl := slotAt s idx
      match sl.status with
      | .EMPTY => ⟨false, some idx, fd, 0, 0⟩
      | .ACTIVE =>
          if sl.data.1 = k then ⟨true, none, fd, 1, 0⟩
          else
            let q := probeLoop hashF s k (i + 1) rem fd
            ⟨q.found, q.hashIndex, q.firstDeleted, q.dcomp + 1, q.dcoll + 1⟩
      | .DELETED =>
          let fd2 := match fd with
            | none => some idx
            | some j => some j
          probeLoop hashF s k (i + 1) rem fd2

/-- The body of OpenHashTable::insert after the load-factor check: run the
probe loop; an existing key is a no-op; otherwise the remembered first
DELETED index — when there is one — replaces the index of the EMPTY slot
found by the loop; with no index at all the table is full and the insert
fails; otherwise the pair is stored with status ACTIVE. -/
def insertCore (hashF : K → Nat) (doRehash : Table K V → Except Unit (Table K V))
    (s : Table K V) (kv : K × V) : Except Unit (Table K V) :=
  match (if s.m_max_load_factor ≤ load_factor s then doRehash s else .ok s) with
  | .error e => .error e
  | .ok s1 =>
      let q := probeLoop hashF s1 kv.1 0 s1.m_table_size none
      if q.found then
        .ok { s1 with
          comparisons := s1.comparisons + q.dcomp,
          collisions := s1.collisions + q.dcoll }
      else
        (q.firstDeleted.elim q.hashIndex some).elim (Except.error ())
          (fun idx =>
            .ok { s1 with
              m_table := s1.m_table.set idx ⟨kv, .ACTIVE⟩,
              m_number_of_elements := s1.m_number_of_elements + 1,
              comparisons := s1.comparisons + q.dcomp,
              collisions := s1.collisions + q.dcoll })

/-- One step of the reinsertion loop of OpenHashTable::rehash: an earlier
exception propagates, an ACTIVE slot is reinserted, anything else is
skipped. -/
def rehashStep (ins : Table K V → K × V → Except Unit (Table K V))
    (acc : Except Unit (Table K V)) (sl : Slot K V) : Except Unit (Table K V) :=
  match acc with
  | .error e => .error e
  | .ok t => if sl.status = .ACTIVE then ins t sl.data else .ok t

/-- OpenHashTable::rehash(m), parameterised by the insert used to refill:
grow-only; builds a table of get_next_prime m EMPTY slots and reinserts
every ACTIVE entry (tombstones are dropped); an exception from an inner
insert propagates. -/
def rehashGo (ins : Table K V → K × V → Except Unit (Table K V))
    (s : Table K V) (m : Nat) : Except Unit (Table K V) :=
  let nt := get_next_prime m
  if s.m_table_size < nt then
    s.m_table.foldl (rehashStep ins)
      (.ok ⟨0, nt, s.m_max_load_factor, List.replicate nt emptySlot,
        s.comparisons, s.collisions⟩)
  else .ok s

/-- OpenHashTable::insert with the rehash recursion unrolled on a fuel
that bounds the nesting depth (never exhausted from the public entry). -/
def insertFuel (hashF : K → Nat) : Nat → Table K V → K × V → Except Unit (Table K V)
  | 0 => fun s kv => insertCore hashF (fun s1 => .ok s1) s kv
  | f + 1 => fun s kv =>
      insertCore hashF
        (fun s1 => rehashGo (insertFuel hashF f) s1 (s1.m_table_size * 2)) s kv

/-- OpenHashTable::insert (public entry). -/
def insertDict (hashF : K → Nat) (s : Table K V) (kv : K × V) :
    Except Unit (Table K V) :=
  insertFuel hashF (s.m_number_of_elements + 2) s kv

/-- OpenHashTable::rehash (public entry, used by reserve). -/
def rehashDict (hashF : K → Nat) (s : Table K V) (m : Nat) :
    Except Unit (Table K V) :=
  rehashGo (insertFuel hashF (s.m_number_of_elements + 2)) s m

/-- The loop of OpenHashTable::findIndex: probe until an EMPTY slot (miss)
or an ACTIVE slot with the key; every non-EMPTY slot visited counts one
comparison.  Returns the slot index found and the comparison count. -/
def findIndexLoop (hashF : K → Nat) (s : Table K V) (k : K) :
    Nat → Nat → Option Nat × Nat
  | _, 0 => (none, 0)
  | i, rem + 1 =>
      let idx := hash_code hashF s k i
      let sl := slotAt s idx
      match sl.status with
      | .EMPTY => (none, 0)
      | .ACTIVE =>
          if sl.data.1 = k then (some idx, 1)
          else
            let q := findIndexLoop hashF s k (i + 1) rem
            (q.1, q.2 + 1)
      | .DELETED =>
          let q := findIndexLoop hashF s k (i + 1) rem
          (q.1, q.2 + 1)

/-- OpenHashTable::findIndex. -/
def findIndex (hashF : K → Nat) (s : Table K V) (k : K) : Option Nat × Nat :=
  findIndexLoop hashF s k 0 s.m_table_size

/-- OpenHashTable::at: value at the found slot, out_of_range on a miss. -/
def atDict (hashF : K → Nat) (s : Table K V) (k : K) : Option V :=
  ((findIndex hashF s k).1).map (fun idx => (slotAt s idx).data.2)

/-- OpenHashTable::contains: findIndex(k) != -1. -/
def containsDict (hashF : K → Nat) (s : Table K V) (k : K) : Bool :=
  ((findIndex hashF s k).1).isSome

/-- OpenHashTable::update: overwrite the value at the found slot; an
absent key is an out_of_range error. -/
def updateDict (hashF : K → Nat) (s : Table K V) (kv : K × V) :
    Except Unit (Table K V) :=
  let q := findIndex hashF s kv.1
  match q.1 with
  | some idx =>
      .ok { s with
        m_table := s.m_table.set idx ⟨((slotAt s idx).data.1, kv.2), .ACTIVE⟩,
        comparisons := s.comparisons + q.2 }
  | none => .error ()

/-- OpenHashTable::remove: mark the found slot DELETED and decrement the
element count; absent key is a no-op. -/
def removeDict (hashF : K → Nat) (s : Table K V) (k : K) : Table K V :=
  let q := findIndex hashF s k
  match q.1 with
  | some idx =>
      { s with
        m_table := s.m_table.set idx ⟨(slotAt s idx).data, .DELETED⟩,
        m_number_of_elements := s.m_number_of_elements - 1,
        comparisons := s.comparisons + q.2 }
  | none => { s with comparisons := s.comparisons + q.2 }

/-- OpenHashTable::operator[] (non-const): return the found value, else
insert a default-constructed value and return the value now found (the
source reads m_table[findIndex(k)] again after the insert).  A propagated
table-full exception from the insert is an error. -/
def indexDict (hashF : K → Nat) (s : Table K V) (k : K) :
    Except Unit (Option V × Table K V) :=
  let q := findIndex hashF s k
  match q.1 with
  | some idx =>
      .ok (some (slotAt s idx).data.2, { s with comparisons := s.comparisons + q.2 })
  | none =>
      match insertDict hashF { s with comparisons := s.comparisons + q.2 }
        (k, (default : V)) with
      | .error e => .error e
      | .ok s2 =>
          .ok (((findIndex hashF s2 k).1).map (fun idx => (slotAt s2 idx).data.2),
            { s2 with comparisons := s2.comparisons + (findIndex hashF s2 k).2 })

/-- OpenHashTable::clear: reset the slot array to table_size EMPTY slots
and zero the element count; table size, max load factor and both counters
are kept. -/
def clearDict (s : Table K V) : Table K V :=
  { s with
    m_table := List.replicate s.m_table_size emptySlot,
    m_number_of_elements := 0 }

/-- OpenHashTable::reserve. -/
def reserveDict (hashF : K → Nat) (s : Table K V) (n : Nat) :
    Except Unit (Table K V) :=
  if (s.m_table_size : ℚ) * s.m_max_load_factor < (n : ℚ) then
    rehashDict hashF s (Nat.floor ((n : ℚ) / s.m_max_load_factor))
  else .ok s

/-- OpenHashTable::set_max_load_factor: a non-positive value is an
out_of_range error; otherwise store it and reserve if needed. -/
def set_max_load_factor (hashF : K → Nat) (s : Table K V) (lf : ℚ) :
    Except Unit (Table K V) :=
  if lf ≤ 0 then .error ()
  else
    let s1 := { s with m_max_load_factor := lf }
    if s1.m_max_load_factor < load_factor s1 then
      reserveDict hashF s1 s1.m_number_of_elements
    else .ok s1

end OpenHT

/-- The four concrete engines behind the Dictionary interface, as built by
the factory. -/
inductive Engine (K V : Type) where
  | avl (d : AVL.Dict K V)
  | rb (d : RB.Dict K V)
  | chained (t : Chained.Table K V)
  | ohash (t : OpenHT.Table K V)

/-- create_dictionary (dictionary/DictionaryFactory.hpp): switch on the
runtime value of the DictionaryType tag (its uint8 representation, so any
Nat can arrive here, as in the DictionaryType(i) casts of the driver);
the four known tags default-construct the engines, anything else throws
std::invalid_argument. -/
def create_dictionary (K V : Type) [DecidableEq K] [Inhabited K] [Inhabited V]
    (tag : Nat) : Except Unit (Engine K V) :=
  match tag with
  | 0 => .ok (.avl ⟨.leaf, 0, 0, 0⟩)
  | 1 => .ok (.rb ⟨.nil, 0, 0, 0⟩)
  | 2 => .ok (.chained (Chained.ctor 19 1))
  | 3 => .ok (.ohash (OpenHT.ctor 19 (mkRat 1 2)))
  | _ => .error ()

/-- First index i in [start, start+count) satisfying p, scanning upward
(the *first in probe order* notion used by the specification text). -/
def firstIdx (p : Nat → Bool) : Nat → Nat → Option Nat
  | _, 0 => none
  | i, rem + 1 => if p i then some i else firstIdx p (i + 1) rem

namespace OpenHT

variable {K V : Type} [DecidableEq K] [Inhabited K] [Inhabited V]

/-- Probe attempt i hits an EMPTY slot. -/
def probeEmpty (hashF : K → Nat) (s : Table K V) (k : K) (i : Nat) : Bool :=
  (slotAt s (hash_code hashF s k i)).status = .EMPTY

/-- Probe attempt i hits a DELETED slot. -/
def probeDeleted (hashF : K → Nat) (s : Table K V) (k : K) (i : Nat) : Bool :=
  (slotAt s (hash_code hashF s k i)).status = .DELETED

/-- Probe attempt i hits an ACTIVE slot holding the key. -/
def probeMatch (hashF : K → Nat) (s : Table K V) (k : K) (i : Nat) : Bool :=
  (slotAt s (hash_code hashF s k i)).status = .ACTIVE ∧
    (slotAt s (hash_code hashF s k i)).data.1 = k

/-- Modelled from the spec (§4.5 Insert): the first probe attempt that
reaches an EMPTY slot, over the full probe sequence i = 0 .. table_size-1. -/
def specFirstEmpty (hashF : K → Nat) (s : Table K V) (k : K) : Option Nat :=
  firstIdx (probeEmpty hashF s k) 0 s.m_table_size

/-- Modelled from the spec: the prefix of the probe sequence that the
probe scan covers — everything before the first EMPTY slot, or the whole
sequence when there is none. -/
def specStop (hashF : K → Nat) (s : Table K V) (k : K) : Nat :=
  (specFirstEmpty hashF s k).getD s.m_table_size

/-- Modelled from the spec: the first DELETED (tombstone) probe attempt
within the scanned prefix. -/
def specFirstDeleted (hashF : K → Nat) (s : Table K V) (k : K) : Option Nat :=
  firstIdx (probeDeleted hashF s k) 0 (specStop hashF s k)

/-- Modelled from the spec: the first matching ACTIVE probe attempt
within the scanned prefix (the key-exists no-op case). -/
def specMatch (hashF : K → Nat) (s : Table K V) (k : K) : Option Nat :=
  firstIdx (probeMatch hashF s k) 0 (specStop hashF s k)

/-- Structural well-formedness of an open-addressing table: the slot array
has the recorded size, every ACTIVE slot is reachable by probing its own
key (some probe attempt lands on it with no EMPTY slot at any earlier
attempt), ACTIVE keys are unique, and the element count is the number of
ACTIVE slots. -/
def WF (hashF : K → Nat) (s : Table K V) : Prop :=
  s.m_table.length = s.m_table_size ∧
  0 < s.m_table_size ∧
  (∀ j, j < s.m_table_size → (slotAt s j).status = .ACTIVE →
    ∃ i, i < s.m_table_size ∧ hash_code hashF s (slotAt s j).data.1 i = j ∧
      ∀ i2, i2 < i → ¬ probeEmpty hashF s (slotAt s j).data.1 i2) ∧
  (∀ j1 j2, j1 < s.m_table_size → j2 < s.m_table_size →
    (slotAt s j1).status = .ACTIVE → (slotAt s j2).status = .ACTIVE →
    (slotAt s j1).data.1 = (slotAt s j2).data.1 → j1 = j2) ∧
  s.m_number_of_elements =
    ((List.range s.m_table_size).filter
      (fun j => (slotAt s j).status = .ACTIVE)).length

end OpenHT

namespace Chained

variable {K V : Type} [DecidableEq K] [Inhabited V]

/-- Structural well-formedness of a chained table: the bucket array has
the recorded size, every entry sits in the bucket its key hashes to, keys
are unique within a bucket, and the element count is the total number of
entries. -/
def WF (hashF : K → Nat) (s : Table K V) : Prop :=
  s.m_table.length = s.m_table_size ∧
  0 < s.m_table_size ∧
  (∀ i, i < s.m_table_size → ∀ p ∈ bucketAt s i, hash_code hashF s p.1 = i) ∧
  (∀ i, i < s.m_table_size → ((bucketAt s i).map Prod.fst).Nodup) ∧
  s.m_number_of_elements = (s.m_table.map List.length).sum

end Chained

namespace OpenHT

variable {K V : Type} [DecidableEq K] [Inhabited K] [Inhabited V]

/-- Run an insert, keeping the old state when the insert throws
(scenario-building helper; the runs below never throw). -/
def insertOr (hashF : K → Nat) (s : Table K V) (kv : K × V) : Table K V :=
  match insertDict hashF s kv with
  | .ok t => t
  | .error _ => s

end OpenHT

/-- std::hash of an unsigned integer in the reference implementation is
the identity. -/
def natHash : Nat → Nat := fun n => n

/-- Scenario for C2: ten inserts of the keys 0..9 into a
default-constructed OpenHashTable (19 slots, max load factor 0.5). -/
def ohTenInserts : OpenHT.Table Nat Nat :=
  (List.range 10).foldl (fun s k => OpenHT.insertOr natHash s (k, k))
    (OpenHT.ctor 19 (mkRat 1 2))

/-- Scenario for C3, before the decisive insert: OpenHashTable(5, 0.75);
insert key 0, insert key 5 (collides, placed by probe attempt 1 at slot
1), remove key 0 (slot 0 becomes a tombstone). -/
def ohTombstonePre : OpenHT.Table Nat Nat :=
  OpenHT.removeDict natHash
    (OpenHT.insertOr natHash
      (OpenHT.insertOr natHash (OpenHT.ctor 5 (mkRat 3 4)) (0, 100)) (5, 200)) 0

/-- Scenario for C3, after inserting key 10 into ohTombstonePre. -/
def ohTombstoneRun : OpenHT.Table Nat Nat :=
  OpenHT.insertOr natHash ohTombstonePre (10, 300)

/-- Scenario for C4: ChainedHashTable(2, 0.75) holding the keys 0 and 1,
so that the next insert pushes the load factor to 1 and rehashes. -/
def chStaleBucketPre : Chained.Table Nat Nat :=
  Chained.insertDict natHash
    (Chained.insertDict natHash (Chained.ctor 2 (mkRat 3 4)) (0, 10)) (1, 11)

/-- Scenario for C1 (the failing input of the Update test in
tests/Tests.cpp): a default-constructed ChainedHashTable holding the
single pair (1, 10). -/
def chUpdatePre : Chained.Table Nat Nat :=
  Chained.insertDict natHash (Chained.ctor 19 1) (1, 10)

/-- Observable effect of one ChainedHashTable::insert call on a well-formed
table: the result is well-formed; a present key leaves the element count
alone, an absent key increments it; lookups see the new pair exactly when
the key was absent, and every other key is unaffected. -/
def Chained.InsSpec {K V : Type} [DecidableEq K] [Inhabited V] (hashF : K → Nat)
    (s s2 : Chained.Table K V) (kv : K × V) : Prop :=
  Chained.WF hashF s2 ∧
  s2.m_number_of_elements = s.m_number_of_elements +
    (if (Chained.atDict hashF s kv.1).isSome then 0 else 1) ∧
  ∀ k2, Chained.atDict hashF s2 k2 =
    if k2 = kv.1 ∧ (Chained.atDict hashF s kv.1).isNone then some kv.2
    else Chained.atDict hashF s k2

/-- Observable effect of one successful OpenHashTable::insert call on a
well-formed table, in the same sense. -/
def OpenHT.InsSpec {K V : Type} [DecidableEq K] [Inhabited K] [Inhabited V]
    (hashF : K → Nat) (s s2 : OpenHT.Table K V) (kv : K × V) : Prop :=
  OpenHT.WF hashF s2 ∧
  s2.m_number_of_elements = s.m_number_of_elements +
    (if (OpenHT.atDict hashF s kv.1).isSome then 0 else 1) ∧
  ∀ k2, OpenHT.atDict hashF s2 k2 =
    if k2 = kv.1 ∧ (OpenHT.atDict hashF s kv.1).isNone then some kv.2
    else OpenHT.atDict hashF s k2

section Theorems

/-- A cleared chained table has only empty buckets. -/
theorem chained_bucketAt_clear {K V : Type} [DecidableEq K] [Inhabited V]
    (s : Chained.Table K V) (i : Nat) :
    Chained.bucketAt (Chained.clearDict s) i = [] := by
  simp only [Chained.bucketAt, Chained.clearDict, List.get?_eq_getElem?, List.getElem?_map]
  cases s.m_table[i]? <;> rfl

/-- A cleared open-addressing table has only EMPTY slots. -/
theorem open_slotAt_clear {K V : Type} [DecidableEq K] [Inhabited K] [Inhabited V]
    (s : OpenHT.Table K V) (i : Nat) :
    OpenHT.slotAt (OpenHT.clearDict s) i = OpenHT.emptySlot := by
  simp only [OpenHT.slotAt, OpenHT.clearDict]
  rcases Nat.lt_or_ge i s.m_table_size with h | h
  · rw [List.get?_eq_get (by simpa using h)]
    simp [List.getElem_replicate]
  · rw [List.get?_eq_none.2 (by simpa using h)]
    rfl

/-- The findIndex loop of the open table misses on an all-EMPTY table. -/
theorem open_findIndexLoop_clear {K V : Type} [DecidableEq K] [Inhabited K]
    [Inhabited V] (hashF : K → Nat) (s : OpenHT.Table K V) (k : K)
    (i rem : Nat) :
    OpenHT.findIndexLoop hashF (OpenHT.clearDict s) k i rem = (none, 0) := by
  cases rem with
  | zero => rfl
  | succ m =>
      simp only [OpenHT.findIndexLoop, open_slotAt_clear]
      rfl

/-- C10.  For every engine, clear() empties the entry set and sets size()
to 0, leaves the instrumentation counters unchanged, and for both hash
engines leaves the bucket count and the max load factor unchanged. -/
theorem C10_clear_frame :
    (∀ {K V : Type} [LinearOrder K] (d : AVL.Dict K V),
      (AVL.clearDict d).size_m = 0 ∧
      (AVL.clearDict d).comparisons = d.comparisons ∧
      (AVL.clearDict d).rotations = d.rotations ∧
      ∀ k, AVL.containsDict (AVL.clearDict d) k = false) ∧
    (∀ {K V : Type} [LinearOrder K] (d : RB.Dict K V),
      (RB.clearDict d).size_m = 0 ∧
      (RB.clearDict d).comparisons = d.comparisons ∧
      (RB.clearDict d).rotations = d.rotations ∧
      ∀ k, RB.containsDict (RB.clearDict d) k = false) ∧
    (∀ {K V : Type} [DecidableEq K] [Inhabited V] (hashF : K → Nat)
      (s : Chained.Table K V),
      (Chained.clearDict s).m_number_of_elements = 0 ∧
      (Chained.clearDict s).m_table_size = s.m_table_size ∧
      (Chained.clearDict s).m_max_load_factor = s.m_max_load_factor ∧
      (Chained.clearDict s).comparisons = s.comparisons ∧
      ∀ k, Chained.containsDict hashF (Chained.clearDict s) k = false) ∧
    (∀ {K V : Type} [DecidableEq K] [Inhabited K] [Inhabited V]
      (hashF : K → Nat) (s : OpenHT.Table K V),
      (OpenHT.clearDict s).m_number_of_elements = 0 ∧
      (OpenHT.clearDict s).m_table_size = s.m_table_size ∧
      (OpenHT.clearDict s).m_max_load_factor = s.m_max_load_factor ∧
      (OpenHT.clearDict s).comparisons = s.comparisons ∧
      (OpenHT.clearDict s).collisions = s.collisions ∧
      ∀ k, OpenHT.containsDict hashF (OpenHT.clearDict s) k = false) := by
  refine ⟨fun d => ⟨rfl, rfl, rfl, fun k => rfl⟩,
    fun d => ⟨rfl, rfl, rfl, fun k => rfl⟩,
    fun hashF s => ⟨rfl, rfl, rfl, rfl, fun k => ?_⟩,
    fun hashF s => ⟨rfl, rfl, rfl, rfl, rfl, fun k => ?_⟩⟩
  · simp [Chained.containsDict, chained_bucketAt_clear, Chained.chainFind]
  · simp [OpenHT.containsDict, OpenHT.findIndex, open_findIndexLoop_clear]

/-- C1.  At the failing input of the Update test of tests/Tests.cpp (a
chained table holding only the key 1), updating the absent key 2 returns
with the table bit-for-bit unchanged — no error is signalled, contrary to
the claimed KeyNotFound failure; the key is also not inserted. -/
theorem C1_chained_update_silently_ignores_absent_key :
    Chained.atDict natHash chUpdatePre 2 = none ∧
    Chained.updateDict natHash chUpdatePre (2, 20) = chUpdatePre ∧
    Chained.atDict natHash (Chained.updateDict natHash chUpdatePre (2, 20)) 2 = none := by
  refine ⟨by decide, by decide, by decide⟩

/-- C4.  At the stale-bucket input (chained table of size 2 holding keys
0 and 1), operator[](2) triggers a rehash inside its insert and then
reads back m_table[2 mod 2].back(): the reference it returns denotes the
value 10 stored under key 0, while at(2) sees the freshly inserted
default value 0. -/
theorem C4_chained_index_returns_wrong_reference :
    Chained.atDict natHash chStaleBucketPre 2 = none ∧
    (Chained.indexDict natHash chStaleBucketPre 2).1 = some 10 ∧
    Chained.atDict natHash (Chained.indexDict natHash chStaleBucketPre 2).2 2 = some 0 ∧
    Chained.atDict natHash (Chained.indexDict natHash chStaleBucketPre 2).2 0 = some 10 := by
  refine ⟨by decide, by decide, by decide, by decide⟩

/-- C2 counterexample.  Ten inserts into a default-constructed
OpenHashTable (19 slots, max load factor 0.5) all return normally, yet
immediately after the tenth insert the load factor is 10/19 > 0.5. -/
theorem C2_counterexample_load_factor_exceeds_max :
    ohTenInserts.m_number_of_elements = 10 ∧
    ohTenInserts.m_table_size = 19 ∧
    ohTenInserts.m_max_load_factor = mkRat 1 2 ∧
    OpenHT.insertDict natHash
      ((List.range 9).foldl (fun s k => OpenHT.insertOr natHash s (k, k))
        (OpenHT.ctor 19 (mkRat 1 2))) (9, 9) = .ok ohTenInserts ∧
    ohTenInserts.m_max_load_factor < OpenHT.load_factor ohTenInserts := by
  refine ⟨by decide, by decide, by decide, by rfl, by decide⟩

/-- C3 counterexample.  In ohTombstonePre the probe sequence of the
absent key 10 hits a tombstone at attempt 0 and its first EMPTY slot at
attempt 2 (slot 4), so the probe sequence is not exhausted; the insert
nevertheless places the entry in the tombstone slot 0 and leaves slot 4
EMPTY — the remembered tombstone overrides the EMPTY slot found. -/
theorem C3_counterexample_tombstone_overrides_empty :
    OpenHT.atDict natHash ohTombstonePre 10 = none ∧
    OpenHT.probeDeleted natHash ohTombstonePre 10 0 = true ∧
    OpenHT.specFirstEmpty natHash ohTombstonePre 10 = some 2 ∧
    OpenHT.insertDict natHash ohTombstonePre (10, 300) = .ok ohTombstoneRun ∧
    OpenHT.slotAt ohTombstoneRun (OpenHT.hash_code natHash ohTombstonePre 10 0) =
      ⟨(10, 300), .ACTIVE⟩ ∧
    (OpenHT.slotAt ohTombstoneRun (OpenHT.hash_code natHash ohTombstonePre 10 2)).status =
      .EMPTY := by
  refine ⟨by decide, by decide, by decide, by rfl, by decide, by decide⟩

/-- C8 counterexample.  Constructing either hash engine with a
non-positive max load factor completes normally: the bad value is
silently replaced by the engine default (1.0 chained, 0.5 open); no
InvalidArgument failure is surfaced at the construction call. -/
theorem C8_counterexample_ctor_accepts_nonpositive_load_factor :
    (Chained.ctor 19 0 : Chained.Table Nat Nat).m_max_load_factor = 1 ∧
    (OpenHT.ctor 19 0 : OpenHT.Table Nat Nat).m_max_load_factor = mkRat 1 2 ∧
    (Chained.ctor 19 (-1) : Chained.Table Nat Nat).m_max_load_factor = 1 ∧
    (OpenHT.ctor 19 (-1) : OpenHT.Table Nat Nat).m_max_load_factor = mkRat 1 2 := by
  refine ⟨by decide, by decide, by decide, by decide⟩

/-- C8 amended.  The factory rejects exactly the unknown tags with an
InvalidArgument failure; set_max_load_factor rejects every non-positive
value immediately; but the hash-table constructors never fail — they
substitute the engine default for a non-positive max load factor. -/
theorem C8_amended_invalid_argument_paths :
    (∀ tag : Nat, create_dictionary Nat Nat tag = .error () ↔ 4 ≤ tag) ∧
    (∀ lf : ℚ, lf ≤ 0 → ∀ (hashF : Nat → Nat) (s : Chained.Table Nat Nat),
      Chained.set_max_load_factor hashF s lf = .error ()) ∧
    (∀ lf : ℚ, lf ≤ 0 → ∀ (hashF : Nat → Nat) (s : OpenHT.Table Nat Nat),
      OpenHT.set_max_load_factor hashF s lf = .error ()) ∧
    (∀ lf : ℚ, lf ≤ 0 → ∀ t : Nat,
      (Chained.ctor t lf : Chained.Table Nat Nat).m_max_load_factor = 1 ∧
      (OpenHT.ctor t lf : OpenHT.Table Nat Nat).m_max_load_factor = mkRat 1 2) := by
  refine ⟨fun tag => ?_, fun lf hlf hashF s => ?_, fun lf hlf hashF s => ?_,
    fun lf hlf t => ⟨?_, ?_⟩⟩
  · match tag with
    | 0 => simp [create_dictionary]
    | 1 => simp [create_dictionary]
    | 2 => simp [create_dictionary]
    | 3 => simp [create_dictionary]
    | n + 4 => simp [create_dictionary]
  · simp [Chained.set_max_load_factor, hlf]
  · simp [OpenHT.set_max_load_factor, hlf]
  · simp [Chained.ctor, hlf]
  · simp [OpenHT.ctor, hlf]

/-- Witness for C8 amended: tag 7 is rejected, setting the factor 0 is
rejected on a concrete table, and the constructor called with 0 defaults. -/
theorem C8_amended_witness :
    create_dictionary Nat Nat 7 = .error () ∧
    Chained.set_max_load_factor natHash (Chained.ctor 19 1 : Chained.Table Nat Nat) 0 = .error () ∧
    OpenHT.set_max_load_factor natHash (OpenHT.ctor 19 (mkRat 1 2) : OpenHT.Table Nat Nat) 0 = .error () ∧
    (Chained.ctor 3 0 : Chained.Table Nat Nat).m_max_load_factor = 1 := by
  refine ⟨(C8_amended_invalid_argument_paths.1 7).mpr (by norm_num),
    C8_amended_invalid_argument_paths.2.1 0 (by norm_num) natHash _,
    C8_amended_invalid_argument_paths.2.2.1 0 (by norm_num) natHash _,
    ((C8_amended_invalid_argument_paths.2.2.2 0 (by norm_num) 3).1)⟩

/-- mkRat of naturals is plain division of casts. -/
theorem mkRat_nat_eq_div (n d : Nat) : mkRat (n : Int) d = (n : ℚ) / d := by
  rw [Rat.mkRat_eq_divInt, Rat.divInt_eq_div]
  norm_num

/-- Adding one element to n of t raises the exact load factor by at most
1/t over any bound the old load factor was below. -/
theorem mkRat_step_le (n t : Nat) (m : ℚ) (h : mkRat (n : Int) t < m) :
    mkRat ((n : Int) + 1) t ≤ m + mkRat 1 t := by
  have e1 : mkRat ((n : Int) + 1) t = ((n : ℚ) + 1) / t := by
    rw [Rat.mkRat_eq_divInt, Rat.divInt_eq_div]
    norm_num
  have e2 : mkRat (1 : Int) t = 1 / (t : ℚ) := by
    rw [Rat.mkRat_eq_divInt, Rat.divInt_eq_div]
    norm_num
  rcases Nat.eq_zero_or_pos t with ht | ht
  · subst ht
    rw [mkRat_nat_eq_div] at h
    rw [e1, e2]
    norm_num at h ⊢
    linarith
  · have htq : (0 : ℚ) < t := by exact_mod_cast ht
    rw [mkRat_nat_eq_div] at h
    rw [e1, e2, add_div]
    have h2 := add_le_add_right (le_of_lt h) (1 / (t : ℚ))
    linarith

/-- The element count after the no-rehash body of ChainedHashTable::insert
grows by at most one, and table size and maximum are unchanged. -/
theorem ch_insertCore_noRehash_size {K V : Type} [DecidableEq K] [Inhabited V]
    (hashF : K → Nat) (doRehash : Chained.Table K V → Chained.Table K V)
    (s : Chained.Table K V) (kv : K × V)
    (hg : ¬ s.m_max_load_factor ≤ Chained.load_factor s) :
    (Chained.insertCore hashF doRehash s kv).m_table_size = s.m_table_size ∧
    (Chained.insertCore hashF doRehash s kv).m_max_load_factor = s.m_max_load_factor ∧
    ((Chained.insertCore hashF doRehash s kv).m_number_of_elements =
        s.m_number_of_elements ∨
      (Chained.insertCore hashF doRehash s kv).m_number_of_elements =
        s.m_number_of_elements + 1) := by
  simp only [Chained.insertCore, if_neg hg]
  split
  · exact ⟨rfl, rfl, Or.inl rfl⟩
  · exact ⟨rfl, rfl, Or.inr rfl⟩

/-- The element count after the no-rehash body of OpenHashTable::insert
grows by at most one, and table size and maximum are unchanged. -/
theorem oh_insertCore_noRehash_size {K V : Type} [DecidableEq K] [Inhabited K]
    [Inhabited V] (hashF : K → Nat) (doRehash : OpenHT.Table K V → Except Unit (OpenHT.Table K V))
    (s s2 : OpenHT.Table K V) (kv : K × V)
    (hg : ¬ s.m_max_load_factor ≤ OpenHT.load_factor s)
    (hok : OpenHT.insertCore hashF doRehash s kv = .ok s2) :
    s2.m_table_size = s.m_table_size ∧
    s2.m_max_load_factor = s.m_max_load_factor ∧
    (s2.m_number_of_elements = s.m_number_of_elements ∨
      s2.m_number_of_elements = s.m_number_of_elements + 1) := by
  simp only [OpenHT.insertCore, if_neg hg] at hok
  split at hok
  · have h2 := (Except.ok.injEq _ _).mp hok
    subst h2
    exact ⟨rfl, rfl, Or.inl rfl⟩
  · rcases hsc : ((OpenHT.probeLoop hashF s kv.1 0 s.m_table_size
        none).firstDeleted.elim
        (OpenHT.probeLoop hashF s kv.1 0 s.m_table_size none).hashIndex some)
        with _ | idx
    · rw [hsc] at hok
      simp [Option.elim] at hok
    · rw [hsc] at hok
      simp only [Option.elim] at hok
      have h2 := (Except.ok.injEq _ _).mp hok
      subst h2
      exact ⟨rfl, rfl, Or.inr rfl⟩

/-- C2 amended.  For both hash engines, an insert performed when the load
factor is still below the maximum does not rehash; immediately after it
the table size and the maximum are unchanged and the load factor is at
most max_load_factor() + 1/bucket_count().  (The ten-insert run of
C2_counterexample_load_factor_exceeds_max shows that the unqualified
bound load_factor() ≤ max_load_factor() claimed by the spec fails.) -/
theorem C2_amended_post_insert_load_factor_bound :
    (∀ {K V : Type} [DecidableEq K] [Inhabited V] (hashF : K → Nat)
      (s : Chained.Table K V) (kv : K × V),
      Chained.load_factor s < s.m_max_load_factor →
      (Chained.insertDict hashF s kv).m_table_size = s.m_table_size ∧
      (Chained.insertDict hashF s kv).m_max_load_factor = s.m_max_load_factor ∧
      Chained.load_factor (Chained.insertDict hashF s kv) ≤
        s.m_max_load_factor + mkRat 1 s.m_table_size) ∧
    (∀ {K V : Type} [DecidableEq K] [Inhabited K] [Inhabited V] (hashF : K → Nat)
      (s s2 : OpenHT.Table K V) (kv : K × V),
      OpenHT.load_factor s < s.m_max_load_factor →
      OpenHT.insertDict hashF s kv = .ok s2 →
      s2.m_table_size = s.m_table_size ∧
      s2.m_max_load_factor = s.m_max_load_factor ∧
      OpenHT.load_factor s2 ≤ s.m_max_load_factor + mkRat 1 s.m_table_size) := by
  constructor
  · intro K V _ _ hashF s kv hlf
    have hg : ¬ s.m_max_load_factor ≤ Chained.load_factor s := not_le.mpr hlf
    have hrw : Chained.insertDict hashF s kv =
        Chained.insertCore hashF
          (fun s1 => Chained.rehashGo
            (Chained.insertFuel hashF (s.m_number_of_elements + 1)) s1
            (s1.m_table_size * 2)) s kv := rfl
    obtain ⟨h1, h2, h3⟩ := ch_insertCore_noRehash_size hashF
      (fun s1 => Chained.rehashGo
        (Chained.insertFuel hashF (s.m_number_of_elements + 1)) s1
        (s1.m_table_size * 2)) s kv hg
    rw [hrw]
    refine ⟨h1, h2, ?_⟩
    have hlcd : Chained.load_factor (Chained.insertCore hashF
        (fun s1 => Chained.rehashGo
          (Chained.insertFuel hashF (s.m_number_of_elements + 1)) s1
          (s1.m_table_size * 2)) s kv) =
        mkRat ((Chained.insertCore hashF
          (fun s1 => Chained.rehashGo
            (Chained.insertFuel hashF (s.m_number_of_elements + 1)) s1
            (s1.m_table_size * 2)) s kv).m_number_of_elements : Int)
          s.m_table_size := by
      unfold Chained.load_factor
      rw [h1]
    rw [hlcd]
    rcases h3 with h3 | h3
    · rw [h3]
      have h4 : (0 : ℚ) ≤ mkRat 1 s.m_table_size := by
        rw [Rat.mkRat_eq_divInt, Rat.divInt_eq_div]
        positivity
      have h5 : mkRat (s.m_number_of_elements : Int) s.m_table_size =
          Chained.load_factor s := rfl
      rw [h5]
      linarith
    · rw [h3]
      push_cast
      exact mkRat_step_le _ _ _ hlf
  · intro K V _ _ _ hashF s s2 kv hlf hok
    have hg : ¬ s.m_max_load_factor ≤ OpenHT.load_factor s := not_le.mpr hlf
    rw [OpenHT.insertDict, OpenHT.insertFuel] at hok
    obtain ⟨h1, h2, h3⟩ := oh_insertCore_noRehash_size hashF _ s s2 kv hg hok
    refine ⟨h1, h2, ?_⟩
    rcases h3 with h3 | h3
    · have h4 : (0 : ℚ) ≤ mkRat 1 s.m_table_size := by
        rw [Rat.mkRat_eq_divInt, Rat.divInt_eq_div]
        positivity
      have h5 : OpenHT.load_factor s2 = OpenHT.load_factor s := by
        unfold OpenHT.load_factor
        rw [h1, h3]
      rw [h5]
      linarith
    · have h5 : OpenHT.load_factor s2 =
        mkRat ((s.m_number_of_elements : Int) + 1) s.m_table_size := by
        unfold OpenHT.load_factor
        rw [h1, h3]
        push_cast
        rfl
      rw [h5]
      exact mkRat_step_le _ _ _ hlf

/-- Witness for C2 amended: a concrete insert below the threshold obeys
the corrected bound. -/
theorem C2_amended_witness :
    Chained.load_factor (Chained.ctor 19 1 : Chained.Table Nat Nat) <
      (Chained.ctor 19 1 : Chained.Table Nat Nat).m_max_load_factor ∧
    Chained.load_factor
        (Chained.insertDict natHash (Chained.ctor 19 1) (1, 10)) ≤
      (Chained.ctor 19 1 : Chained.Table Nat Nat).m_max_load_factor + mkRat 1 19 := by
  refine ⟨by decide, ?_⟩
  have h := (C2_amended_post_insert_load_factor_bound.1 natHash
    (Chained.ctor 19 1 : Chained.Table Nat Nat) (1, 10) (by decide)).2.2
  exact h

/-- If the trial-division loop reports no divisor and has enough fuel,
then no candidate d ≥ i of the same parity with d * d ≤ x divides x. -/
theorem trial_division_false_no_divisor (x : Nat) :
    ∀ fuel i, trial_division x fuel i = false → x + 2 ≤ i + fuel →
    ∀ d, i ≤ d → (d - i) % 2 = 0 → d * d ≤ x → x % d ≠ 0 := by
  intro fuel
  induction fuel with
  | zero =>
      intro i _ hfu d hid _ hdd _
      have h1 : d ≤ d * d := Nat.le_mul_of_pos_left d (by omega)
      omega
  | succ f ih =>
      intro i h hfu d hid hpar hdd hdvd
      rw [trial_division] at h
      by_cases hii : i * i ≤ x
      · rw [if_pos hii] at h
        by_cases hmod : x % i = 0
        · rw [if_pos hmod] at h
          exact absurd h (by simp)
        · rw [if_neg hmod] at h
          rcases Nat.eq_or_lt_of_le hid with rfl | hlt
          · exact hmod hdvd
          · have hd2 : i + 2 ≤ d := by omega
            exact ih (i + 2) h (by omega) d hd2 (by omega) hdd hdvd
      · have h2 : i * i ≤ d * d := Nat.mul_le_mul hid hid
        omega

/-- If the trial-division loop reports a divisor, there is one: some
d ≥ i of the same parity with d * d ≤ x divides x. -/
theorem trial_division_true_divisor (x : Nat) :
    ∀ fuel i, trial_division x fuel i = true →
    ∃ d, i ≤ d ∧ (d - i) % 2 = 0 ∧ d * d ≤ x ∧ x % d = 0 := by
  intro fuel
  induction fuel with
  | zero => intro i h; exact absurd h (by simp [trial_division])
  | succ f ih =>
      intro i h
      rw [trial_division] at h
      by_cases hii : i * i ≤ x
      · rw [if_pos hii] at h
        by_cases hmod : x % i = 0
        · exact ⟨i, le_refl i, by omega, hii, hmod⟩
        · rw [if_neg hmod] at h
          obtain ⟨d, hd1, hd2, hd3, hd4⟩ := ih (i + 2) h
          exact ⟨d, by omega, by omega, hd3, hd4⟩
      · rw [if_neg hii] at h
        exact absurd h (by simp)

/-- For an odd candidate x ≥ 3, the trial-division loop started at 3 with
fuel x + 2 decides primality exactly. -/
theorem trial_division_prime_iff (x : Nat) (hx : 3 ≤ x) (hodd : x % 2 = 1) :
    trial_division x (x + 2) 3 = false ↔ Nat.Prime x := by
  constructor
  · intro h
    by_contra hnp
    have hm_dvd : x.minFac ∣ x := Nat.minFac_dvd x
    have hm_prime : Nat.Prime x.minFac := Nat.minFac_prime (by omega)
    have hm_sq : x.minFac ^ 2 ≤ x := Nat.minFac_sq_le_self (by omega) hnp
    have hm2 : 2 ≤ x.minFac := hm_prime.two_le
    have hmne2 : x.minFac ≠ 2 := by
      intro h2
      have : (2 : Nat) ∣ x := h2 ▸ hm_dvd
      omega
    have hmodd : x.minFac % 2 = 1 := by
      rcases Nat.even_or_odd x.minFac with he | ho
      · exact absurd (hm_prime.even_iff.mp he) hmne2
      · exact Nat.odd_iff.mp ho
    have hmod0 : x % x.minFac = 0 := Nat.mod_eq_zero_of_dvd hm_dvd
    refine trial_division_false_no_divisor x (x + 2) 3 h (by omega) x.minFac
      (by omega) (by omega) (by nlinarith [hm_sq, sq_nonneg x.minFac]) hmod0
  · intro hp
    by_contra h
    have h2 : trial_division x (x + 2) 3 = true := by
      cases h3 : trial_division x (x + 2) 3
      · exact absurd h3 h
      · rfl
    obtain ⟨d, hd3, _, hdd, hdvd⟩ := trial_division_true_divisor x (x + 2) 3 h2
    have hddvd : d ∣ x := Nat.dvd_of_mod_eq_zero hdvd
    rcases (Nat.Prime.eq_one_or_self_of_dvd hp d hddvd) with h1 | h1
    · omega
    · subst h1
      have : 3 * d ≤ d * d := by nlinarith
      omega

/-- The outer prime-search loop: given enough fuel to reach a prime, it
returns the least prime ≥ x (for odd x ≥ 3). -/
theorem prime_search_finds :
    ∀ fuel x, x % 2 = 1 → 3 ≤ x →
    (∃ p, Nat.Prime p ∧ x ≤ p ∧ p ≤ x + 2 * fuel) →
    Nat.Prime (prime_search x fuel) ∧ x ≤ prime_search x fuel ∧
    ∀ q, Nat.Prime q → x ≤ q → prime_search x fuel ≤ q := by
  intro fuel
  induction fuel with
  | zero =>
      intro x hodd hx3 ⟨p, hp, hxp, hpb⟩
      have hpx : p = x := by omega
      subst hpx
      exact ⟨hp, le_refl _, fun q _ hq => hq⟩
  | succ f ih =>
      intro x hodd hx3 ⟨p, hp, hxp, hpb⟩
      rw [prime_search]
      cases htd : trial_division x (x + 2) 3 with
      | false =>
          have hxprime : Nat.Prime x := (trial_division_prime_iff x hx3 hodd).mp htd
          simp only [Bool.false_eq_true, if_false]
          exact ⟨hxprime, le_refl _, fun q _ hq => hq⟩
      | true =>
          have hxnp : ¬ Nat.Prime x := fun hpr =>
            by rw [(trial_division_prime_iff x hx3 hodd).mpr hpr] at htd; exact absurd htd (by simp)
          simp only [if_true]
          have hpx : x ≠ p := fun he => hxnp (he ▸ hp)
          have hpx1 : p ≠ x + 1 := by
            intro he
            have heven : Even p := by
              rw [Nat.even_iff]
              omega
            have := hp.even_iff.mp heven
            omega
          have hrec := ih (x + 2) (by omega) (by omega)
            ⟨p, hp, by omega, by omega⟩
          refine ⟨hrec.1, by omega, fun q hq hxq => ?_⟩
          have hqx : q ≠ x := fun he => hxnp (he ▸ hq)
          have hqx1 : q ≠ x + 1 := by
            intro he
            have heven : Even q := by
              rw [Nat.even_iff]
              omega
            have := hq.even_iff.mp heven
            omega
          exact hrec.2.2 q hq (by omega)

/-- C7.  get_next_prime(x) returns 3 for x ≤ 2, and otherwise the
smallest prime ≥ x. -/
theorem C7_get_next_prime_least_prime (x : Nat) :
    (x ≤ 2 → get_next_prime x = 3) ∧
    (3 ≤ x → Nat.Prime (get_next_prime x) ∧ x ≤ get_next_prime x ∧
      ∀ q, Nat.Prime q → x ≤ q → get_next_prime x ≤ q) := by
  constructor
  · intro h
    simp [get_next_prime, h]
  · intro hx
    have hne : ¬ x ≤ 2 := by omega
    obtain ⟨p, hp, hxp, hp2⟩ := Nat.exists_prime_lt_and_le_two_mul x (by omega)
    by_cases hev : x % 2 = 0
    · have hgx : get_next_prime x = prime_search (x + 1) (x + 2) := by
        simp [get_next_prime, hne, hev]
      have hfind := prime_search_finds (x + 2) (x + 1) (by omega) (by omega)
        ⟨p, hp, by omega, by omega⟩
      rw [hgx]
      refine ⟨hfind.1, by omega, fun q hq hxq => ?_⟩
      have hqx : q ≠ x := by
        intro he
        have heven : Even q := by
          rw [Nat.even_iff]
          omega
        have := hq.even_iff.mp heven
        omega
      exact hfind.2.2 q hq (by omega)
    · have hgx : get_next_prime x = prime_search x (x + 2) := by
        simp [get_next_prime, hne, hev]
      have hfind := prime_search_finds (x + 2) x (by omega) hx
        ⟨p, hp, by omega, by omega⟩
      rw [hgx]
      exact ⟨hfind.1, hfind.2.1, fun q hq hxq => hfind.2.2 q hq hxq⟩

/-- Witness for C7: both branches at concrete inputs (1 ≤ 2 gives 3; the
least prime ≥ 8 is at most 11, at least 8 and prime — it is 11). -/
theorem C7_get_next_prime_witness :
    get_next_prime 1 = 3 ∧ Nat.Prime (get_next_prime 8) ∧
    8 ≤ get_next_prime 8 ∧ get_next_prime 8 ≤ 11 := by
  refine ⟨(C7_get_next_prime_least_prime 1).1 (by norm_num),
    ((C7_get_next_prime_least_prime 8).2 (by norm_num)).1,
    ((C7_get_next_prime_least_prime 8).2 (by norm_num)).2.1,
    ((C7_get_next_prime_least_prime 8).2 (by norm_num)).2.2 11 (by norm_num) (by norm_num)⟩

end Theorems

/-- With correct cached heights, the cached and recomputed heights agree. -/
theorem avl_height_eq_real {K V : Type} [LinearOrder K] {t : AVL.Tree K V}
    (h : AVL.HeightsOk t) : AVL.height t = AVL.realHeight t := by
  cases t with
  | leaf => rfl
  | node kv hh l r =>
      simp only [AVL.height, AVL.realHeight]
      exact h.1

/-- On a well-formed node, fixup_node recomputes the same height and
performs no rotation. -/
theorem avl_fixup_node_id {K V : Type} [LinearOrder K] (pkv : K × V) (h0 : Nat)
    (l r : AVL.Tree K V) (hW : AVL.HeightsOk (AVL.Tree.node pkv h0 l r))
    (hB : AVL.BalancedT (AVL.Tree.node pkv h0 l r)) :
    AVL.fixup_node (AVL.Tree.node pkv h0 l r) = (AVL.Tree.node pkv h0 l r, 0) := by
  obtain ⟨hh, hwl, hwr⟩ := hW
  obtain ⟨⟨hb1, hb2⟩, hbl, hbr⟩ := hB
  have el : AVL.height l = AVL.realHeight l := avl_height_eq_real hwl
  have er : AVL.height r = AVL.realHeight r := avl_height_eq_real hwr
  simp only [AVL.fixup_node, el, er]
  rw [if_neg (by omega), if_neg (by omega), if_neg (by omega), if_neg (by omega)]
  rw [← hh]

/-- If at finds the key, insert is a structural no-op: the tree is
returned unchanged and no node is added. -/
theorem avl_insertT_found {K V : Type} [LinearOrder K] (t : AVL.Tree K V)
    (k : K) (v1 v2 : V) (hW : AVL.HeightsOk t) (hB : AVL.BalancedT t)
    (hfound : (AVL.atT t k).1 = some v1) :
    (AVL.insertT t (k, v2)).tree = t ∧ (AVL.insertT t (k, v2)).dsize = 0 := by
  induction t with
  | leaf => simp [AVL.atT] at hfound
  | node pkv h0 l r ihl ihr =>
      by_cases hk : k = pkv.1
      · constructor <;> simp [AVL.insertT, hk]
      · by_cases hlt : k < pkv.1
        · have hfl : (AVL.atT l k).1 = some v1 := by
            simpa [AVL.atT, hk, hlt] using hfound
          obtain ⟨ih1, ih2⟩ := ihl hW.2.1 hB.2.1 hfl
          simp only [AVL.insertT, if_neg hk, if_pos hlt, ih1, ih2]
          rw [avl_fixup_node_id pkv h0 l r hW hB]
          exact ⟨rfl, trivial⟩
        · have hgt : pkv.1 < k := lt_of_le_of_ne (not_lt.mp hlt) (Ne.symm hk)
          have hfr : (AVL.atT r k).1 = some v1 := by
            simpa [AVL.atT, hk, hlt] using hfound
          obtain ⟨ih1, ih2⟩ := ihr hW.2.2 hB.2.2 hfr
          simp only [AVL.insertT, if_neg hk, if_neg (not_lt.mpr (le_of_lt hgt)), ih1, ih2]
          rw [avl_fixup_node_id pkv h0 l r hW hB]
          exact ⟨rfl, trivial⟩

/-- Cached height of an explicit node. -/
theorem avl_height_node {K V : Type} [LinearOrder K] (kv : K × V) (h : Nat)
    (l r : AVL.Tree K V) : AVL.height (AVL.Tree.node kv h l r) = h := rfl

/-- Recomputed height of an explicit node. -/
theorem avl_realHeight_node {K V : Type} [LinearOrder K] (kv : K × V) (h : Nat)
    (l r : AVL.Tree K V) :
    AVL.realHeight (AVL.Tree.node kv h l r) =
      1 + max (AVL.realHeight l) (AVL.realHeight r) := rfl

/-- HeightsOk unfolded at a node. -/
theorem avl_HeightsOk_node {K V : Type} [LinearOrder K] (kv : K × V) (h : Nat)
    (l r : AVL.Tree K V) :
    AVL.HeightsOk (AVL.Tree.node kv h l r) ↔
      (h = 1 + max (AVL.realHeight l) (AVL.realHeight r) ∧
        AVL.HeightsOk l ∧ AVL.HeightsOk r) := Iff.rfl

/-- BalancedT unfolded at a node. -/
theorem avl_BalancedT_node {K V : Type} [LinearOrder K] (kv : K × V) (h : Nat)
    (l r : AVL.Tree K V) :
    AVL.BalancedT (AVL.Tree.node kv h l r) ↔
      (((AVL.realHeight l : Int) - AVL.realHeight r ≤ 1 ∧
        (AVL.realHeight r : Int) - AVL.realHeight l ≤ 1) ∧
        AVL.BalancedT l ∧ AVL.BalancedT r) := Iff.rfl

/-- Insertion fixup at a node whose left subtree is two levels taller and
leaning (nonzero balance): a single or double rotation restores the AVL
shape, and the resulting height equals the left subtree height. -/
theorem avl_fixup_node_leftHeavy {K V : Type} [LinearOrder K] (pkv : K × V)
    (h0 : Nat) (l r : AVL.Tree K V)
    (hwl : AVL.HeightsOk l) (hbl : AVL.BalancedT l)
    (hwr : AVL.HeightsOk r) (hbr : AVL.BalancedT r)
    (hd : AVL.realHeight l = AVL.realHeight r + 2)
    (hbal : AVL.realBal l ≠ 0) :
    AVL.HeightsOk (AVL.fixup_node (.node pkv h0 l r)).1 ∧
    AVL.BalancedT (AVL.fixup_node (.node pkv h0 l r)).1 ∧
    AVL.realHeight (AVL.fixup_node (.node pkv h0 l r)).1 = AVL.realHeight l := by
  cases l with
  | leaf =>
      exfalso
      simp only [AVL.realHeight] at hd
      omega
  | node lkv lh ll lr =>
      obtain ⟨hlh, hwll, hwlr⟩ := hwl
      obtain ⟨⟨hb1, hb2⟩, hbll, hblr⟩ := hbl
      have ell : AVL.height ll = AVL.realHeight ll := avl_height_eq_real hwll
      have elr : AVL.height lr = AVL.realHeight lr := avl_height_eq_real hwlr
      have er : AVL.height r = AVL.realHeight r := avl_height_eq_real hwr
      rw [avl_realHeight_node] at hd
      have hbal2 : (AVL.realHeight lr : Int) ≠ AVL.realHeight ll := by
        intro he
        exact hbal (by simp only [AVL.realBal, AVL.left, AVL.right, he, sub_self])
      rcases lt_trichotomy (AVL.realHeight ll) (AVL.realHeight lr) with hc | hc | hc
      · -- inner (left-right) case: double rotation
        cases lr with
        | leaf =>
            exfalso
            simp only [AVL.realHeight] at hc
            omega
        | node zkv zh zl zr =>
            obtain ⟨hzh, hwzl, hwzr⟩ := hwlr
            obtain ⟨⟨hz1, hz2⟩, hbzl, hbzr⟩ := hblr
            have ezl : AVL.height zl = AVL.realHeight zl := avl_height_eq_real hwzl
            have ezr : AVL.height zr = AVL.realHeight zr := avl_height_eq_real hwzr
            rw [avl_realHeight_node] at hd hc
            rw [avl_realHeight_node] at hb1 hb2
            simp only [AVL.fixup_node, AVL.left, AVL.right, avl_height_node, er, ell]
            rw [if_neg ?hneg1]
            case hneg1 =>
              rw [hzh, hlh, avl_realHeight_node]
              push_cast
              omega
            rw [if_pos ?hpos1]
            case hpos1 =>
              refine ⟨?_, ?_⟩
              · rw [hlh, avl_realHeight_node]
                push_cast
                omega
              · rw [hzh]
                omega
            simp only [AVL.leftRotation, AVL.rightRotation, avl_height_node, ell, ezl,
              ezr, er]
            refine ⟨?_, ?_, ?_⟩
            · rw [avl_HeightsOk_node]
              refine ⟨?_, ⟨?_, hwll, hwzl⟩, ⟨?_, hwzr, hwr⟩⟩ <;>
                (try simp only [avl_realHeight_node]) <;> omega
            · rw [avl_BalancedT_node]
              refine ⟨⟨?_, ?_⟩, ⟨⟨?_, ?_⟩, hbll, hbzl⟩, ⟨⟨?_, ?_⟩, hbzr, hbr⟩⟩ <;>
                (try simp only [avl_realHeight_node]) <;> (try push_cast) <;> omega
            · (try simp only [avl_realHeight_node])
              omega
      · exfalso
        exact hbal2 (by omega)
      · -- outer (left-left) case: single right rotation
        simp only [AVL.fixup_node, AVL.left, AVL.right, avl_height_node, er, ell, elr]
        rw [if_pos ?hpos2]
        case hpos2 =>
          refine ⟨?_, ?_⟩
          · rw [hlh]
            push_cast
            omega
          · omega
        simp only [AVL.rightRotation, avl_height_node, ell, elr, er]
        refine ⟨?_, ?_, ?_⟩
        · rw [avl_HeightsOk_node]
          refine ⟨?_, hwll, ⟨?_, hwlr, hwr⟩⟩ <;>
            (try simp only [avl_realHeight_node]) <;> omega
        · rw [avl_BalancedT_node]
          refine ⟨⟨?_, ?_⟩, hbll, ⟨⟨?_, ?_⟩, hblr, hbr⟩⟩ <;>
            (try simp only [avl_realHeight_node]) <;> (try push_cast) <;> omega
        · (try simp only [avl_realHeight_node])
          omega

/-- Mirror image of avl_fixup_node_leftHeavy: right subtree two levels
taller and leaning. -/
theorem avl_fixup_node_rightHeavy {K V : Type} [LinearOrder K] (pkv : K × V)
    (h0 : Nat) (l r : AVL.Tree K V)
    (hwl : AVL.HeightsOk l) (hbl : AVL.BalancedT l)
    (hwr : AVL.HeightsOk r) (hbr : AVL.BalancedT r)
    (hd : AVL.realHeight r = AVL.realHeight l + 2)
    (hbal : AVL.realBal r ≠ 0) :
    AVL.HeightsOk (AVL.fixup_node (.node pkv h0 l r)).1 ∧
    AVL.BalancedT (AVL.fixup_node (.node pkv h0 l r)).1 ∧
    AVL.realHeight (AVL.fixup_node (.node pkv h0 l r)).1 = AVL.realHeight r := by
  cases r with
  | leaf =>
      exfalso
      simp only [AVL.realHeight] at hd
      omega
  | node rkv rh0 rl rr =>
      obtain ⟨hrh, hwrl, hwrr⟩ := hwr
      obtain ⟨⟨hb1, hb2⟩, hbrl, hbrr⟩ := hbr
      have erl : AVL.height rl = AVL.realHeight rl := avl_height_eq_real hwrl
      have err : AVL.height rr = AVL.realHeight rr := avl_height_eq_real hwrr
      have el : AVL.height l = AVL.realHeight l := avl_height_eq_real hwl
      rw [avl_realHeight_node] at hd
      have hbal2 : (AVL.realHeight rr : Int) ≠ AVL.realHeight rl := by
        intro he
        exact hbal (by simp only [AVL.realBal, AVL.left, AVL.right, he, sub_self])
      rcases lt_trichotomy (AVL.realHeight rr) (AVL.realHeight rl) with hc | hc | hc
      · -- inner (right-left) case: double rotation
        cases rl with
        | leaf =>
            exfalso
            simp only [AVL.realHeight] at hc
            omega
        | node zkv zh zl zr =>
            obtain ⟨hzh, hwzl, hwzr⟩ := hwrl
            obtain ⟨⟨hz1, hz2⟩, hbzl, hbzr⟩ := hbrl
            have ezl : AVL.height zl = AVL.realHeight zl := avl_height_eq_real hwzl
            have ezr : AVL.height zr = AVL.realHeight zr := avl_height_eq_real hwzr
            rw [avl_realHeight_node] at hd hc
            rw [avl_realHeight_node] at hb1 hb2
            simp only [AVL.fixup_node, AVL.left, AVL.right, avl_height_node, el, err]
            rw [if_neg ?hneg1]
            case hneg1 =>
              rw [hrh, avl_realHeight_node]
              push_cast
              omega
            rw [if_neg ?hneg2]
            case hneg2 =>
              rw [hrh, avl_realHeight_node]
              push_cast
              omega
            rw [if_neg ?hneg3]
            case hneg3 =>
              rw [hzh]
              omega
            rw [if_pos ?hpos1]
            case hpos1 =>
              refine ⟨?_, ?_⟩
              · rw [hrh, avl_realHeight_node]
                push_cast
                omega
              · rw [hzh]
                omega
            simp only [AVL.leftRotation, AVL.rightRotation, avl_height_node, el, ezl,
              ezr, err]
            refine ⟨?_, ?_, ?_⟩
            · rw [avl_HeightsOk_node]
              refine ⟨?_, ⟨?_, hwl, hwzl⟩, ⟨?_, hwzr, hwrr⟩⟩ <;>
                (try simp only [avl_realHeight_node]) <;> omega
            · rw [avl_BalancedT_node]
              refine ⟨⟨?_, ?_⟩, ⟨⟨?_, ?_⟩, hbl, hbzl⟩, ⟨⟨?_, ?_⟩, hbzr, hbrr⟩⟩ <;>
                (try simp only [avl_realHeight_node]) <;> (try push_cast) <;> omega
            · (try simp only [avl_realHeight_node])
              omega
      · exfalso
        exact hbal2 (by omega)
      · -- outer (right-right) case: single left rotation
        simp only [AVL.fixup_node, AVL.left, AVL.right, avl_height_node, el, erl, err]
        rw [if_neg ?hneg4]
        case hneg4 =>
          rw [hrh]
          push_cast
          omega
        rw [if_neg ?hneg5]
        case hneg5 =>
          rw [hrh]
          push_cast
          omega
        rw [if_pos ?hpos2]
        case hpos2 =>
          refine ⟨?_, ?_⟩
          · rw [hrh]
            push_cast
            omega
          · omega
        simp only [AVL.leftRotation, avl_height_node, el, erl, err]
        refine ⟨?_, ?_, ?_⟩
        · rw [avl_HeightsOk_node]
          refine ⟨?_, ⟨?_, hwl, hwrl⟩, hwrr⟩ <;>
            (try simp only [avl_realHeight_node]) <;> omega
        · rw [avl_BalancedT_node]
          refine ⟨⟨?_, ?_⟩, ⟨⟨?_, ?_⟩, hbl, hbrl⟩, hbrr⟩ <;>
            (try simp only [avl_realHeight_node]) <;> (try push_cast) <;> omega
        · (try simp only [avl_realHeight_node])
          omega

/-- With correct cached heights, the cached balance factor is the real one. -/
theorem avl_balance_eq_real {K V : Type} [LinearOrder K] {t : AVL.Tree K V}
    (h : AVL.HeightsOk t) : AVL.balance t = AVL.realBal t := by
  cases t with
  | leaf => rfl
  | node kv hh l r =>
      simp only [AVL.balance, AVL.realBal, AVL.left, AVL.right,
        avl_height_eq_real h.2.1, avl_height_eq_real h.2.2]

/-- Insertion fixup at a node whose subtrees differ by at most one level:
only the cached height is recomputed. -/
theorem avl_fixup_node_noRot {K V : Type} [LinearOrder K] (pkv : K × V)
    (h0 : Nat) (l r : AVL.Tree K V)
    (hwl : AVL.HeightsOk l) (hwr : AVL.HeightsOk r)
    (h1 : (AVL.realHeight l : Int) - AVL.realHeight r ≤ 1)
    (h2 : (AVL.realHeight r : Int) - AVL.realHeight l ≤ 1) :
    AVL.fixup_node (.node pkv h0 l r) =
      (.node pkv (1 + max (AVL.realHeight l) (AVL.realHeight r)) l r, 0) := by
  have el : AVL.height l = AVL.realHeight l := avl_height_eq_real hwl
  have er : AVL.height r = AVL.realHeight r := avl_height_eq_real hwr
  simp only [AVL.fixup_node, AVL.left, AVL.right, el, er]
  rw [if_neg (by push_cast; omega), if_neg (by push_cast; omega),
    if_neg (by push_cast; omega), if_neg (by push_cast; omega)]

/-- Deletion fixup at a node whose subtrees differ by at most one level:
only the cached height is recomputed. -/
theorem avl_fixup_deletion_noRot {K V : Type} [LinearOrder K] (pkv : K × V)
    (h0 : Nat) (l r : AVL.Tree K V)
    (hwl : AVL.HeightsOk l) (hwr : AVL.HeightsOk r)
    (h1 : (AVL.realHeight l : Int) - AVL.realHeight r ≤ 1)
    (h2 : (AVL.realHeight r : Int) - AVL.realHeight l ≤ 1) :
    AVL.fixup_deletion (.node pkv h0 l r) =
      (.node pkv (1 + max (AVL.realHeight l) (AVL.realHeight r)) l r, 0) := by
  have el : AVL.height l = AVL.realHeight l := avl_height_eq_real hwl
  have er : AVL.height r = AVL.realHeight r := avl_height_eq_real hwr
  simp only [AVL.fixup_deletion, el, er]
  rw [if_neg (by push_cast; omega), if_neg (by push_cast; omega),
    if_neg (by push_cast; omega), if_neg (by push_cast; omega)]

/-- Deletion fixup at a node whose left subtree is two levels taller: the
rotation chosen by the sign of the left child balance restores the AVL
shape; the height is the left height or one more. -/
theorem avl_fixup_deletion_leftHeavy {K V : Type} [LinearOrder K] (pkv : K × V)
    (h0 : Nat) (l r : AVL.Tree K V)
    (hwl : AVL.HeightsOk l) (hbl : AVL.BalancedT l)
    (hwr : AVL.HeightsOk r) (hbr : AVL.BalancedT r)
    (hd : AVL.realHeight l = AVL.realHeight r + 2) :
    AVL.HeightsOk (AVL.fixup_deletion (.node pkv h0 l r)).1 ∧
    AVL.BalancedT (AVL.fixup_deletion (.node pkv h0 l r)).1 ∧
    (AVL.realHeight (AVL.fixup_deletion (.node pkv h0 l r)).1 = AVL.realHeight l + 1 ∨
      AVL.realHeight (AVL.fixup_deletion (.node pkv h0 l r)).1 = AVL.realHeight l) := by
  cases l with
  | leaf =>
      exfalso
      simp only [AVL.realHeight] at hd
      omega
  | node lkv lh ll lr =>
      obtain ⟨hlh, hwll, hwlr⟩ := hwl
      obtain ⟨⟨hb1, hb2⟩, hbll, hblr⟩ := hbl
      have ell : AVL.height ll = AVL.realHeight ll := avl_height_eq_real hwll
      have elr : AVL.height lr = AVL.realHeight lr := avl_height_eq_real hwlr
      have er : AVL.height r = AVL.realHeight r := avl_height_eq_real hwr
      rw [avl_realHeight_node] at hd
      have hbalc : AVL.balance (AVL.Tree.node lkv lh ll lr) =
          (AVL.realHeight lr : Int) - AVL.realHeight ll := by
        simp only [AVL.balance, AVL.left, AVL.right, ell, elr]
      by_cases hc : (AVL.realHeight lr : Int) - AVL.realHeight ll ≤ 0
      · -- single right rotation (left child not leaning right)
        simp only [AVL.fixup_deletion, avl_height_node, er]
        rw [if_neg ?hneg1]
        case hneg1 =>
          rw [hlh]
          rintro ⟨hcon, -⟩
          push_cast at hcon
          omega
        rw [if_neg ?hneg2]
        case hneg2 =>
          rw [hlh]
          rintro ⟨hcon, -⟩
          push_cast at hcon
          omega
        rw [if_pos ?hpos1]
        case hpos1 =>
          refine ⟨?_, ?_⟩
          · rw [hlh]
            push_cast
            omega
          · rw [hbalc]
            omega
        simp only [AVL.rightRotation, avl_height_node, ell, elr, er]
        refine ⟨?_, ?_, ?_⟩
        · rw [avl_HeightsOk_node]
          refine ⟨?_, hwll, ⟨?_, hwlr, hwr⟩⟩ <;>
            (try simp only [avl_realHeight_node]) <;> omega
        · rw [avl_BalancedT_node]
          refine ⟨⟨?_, ?_⟩, hbll, ⟨⟨?_, ?_⟩, hblr, hbr⟩⟩ <;>
            (try simp only [avl_realHeight_node]) <;> (try push_cast) <;> omega
        · (try simp only [avl_realHeight_node])
          omega
      · -- double rotation (left child leaning right)
        cases lr with
        | leaf =>
            exfalso
            simp only [AVL.realHeight] at hc
            omega
        | node zkv zh zl zr =>
            obtain ⟨hzh, hwzl, hwzr⟩ := hwlr
            obtain ⟨⟨hz1, hz2⟩, hbzl, hbzr⟩ := hblr
            have ezl : AVL.height zl = AVL.realHeight zl := avl_height_eq_real hwzl
            have ezr : AVL.height zr = AVL.realHeight zr := avl_height_eq_real hwzr
            rw [avl_realHeight_node] at hd hc
            rw [avl_realHeight_node] at hb1 hb2
            simp only [AVL.fixup_deletion, avl_height_node, er]
            rw [if_neg ?hneg3]
            case hneg3 =>
              rw [hlh, avl_realHeight_node]
              rintro ⟨hcon, -⟩
              push_cast at hcon
              omega
            rw [if_neg ?hneg4]
            case hneg4 =>
              rw [hlh, avl_realHeight_node]
              rintro ⟨hcon, -⟩
              push_cast at hcon
              omega
            rw [if_neg ?hneg5]
            case hneg5 =>
              rw [hbalc, avl_realHeight_node]
              rintro ⟨-, hcon⟩
              push_cast at hcon
              omega
            rw [if_pos ?hpos2]
            case hpos2 =>
              refine ⟨?_, ?_⟩
              · rw [hlh, avl_realHeight_node]
                push_cast
                omega
              · rw [hbalc, avl_realHeight_node]
                omega
            simp only [AVL.leftRotation, AVL.rightRotation, avl_height_node, ell, ezl,
              ezr, er]
            refine ⟨?_, ?_, ?_⟩
            · rw [avl_HeightsOk_node]
              refine ⟨?_, ⟨?_, hwll, hwzl⟩, ⟨?_, hwzr, hwr⟩⟩ <;>
                (try simp only [avl_realHeight_node]) <;> omega
            · rw [avl_BalancedT_node]
              refine ⟨⟨?_, ?_⟩, ⟨⟨?_, ?_⟩, hbll, hbzl⟩, ⟨⟨?_, ?_⟩, hbzr, hbr⟩⟩ <;>
                (try simp only [avl_realHeight_node]) <;> (try push_cast) <;> omega
            · (try simp only [avl_realHeight_node])
              omega

/-- Deletion fixup at a node whose right subtree is two levels taller: the
rotation chosen by the sign of the right child balance restores the AVL
shape; the height is the right height or one more. -/
theorem avl_fixup_deletion_rightHeavy {K V : Type} [LinearOrder K] (pkv : K × V)
    (h0 : Nat) (l r : AVL.Tree K V)
    (hwl : AVL.HeightsOk l) (hbl : AVL.BalancedT l)
    (hwr : AVL.HeightsOk r) (hbr : AVL.BalancedT r)
    (hd : AVL.realHeight r = AVL.realHeight l + 2) :
    AVL.HeightsOk (AVL.fixup_deletion (.node pkv h0 l r)).1 ∧
    AVL.BalancedT (AVL.fixup_deletion (.node pkv h0 l r)).1 ∧
    (AVL.realHeight (AVL.fixup_deletion (.node pkv h0 l r)).1 = AVL.realHeight r + 1 ∨
      AVL.realHeight (AVL.fixup_deletion (.node pkv h0 l r)).1 = AVL.realHeight r) := by
  cases r with
  | leaf =>
      exfalso
      simp only [AVL.realHeight] at hd
      omega
  | node rkv rh0 rl rr =>
      obtain ⟨hrh, hwrl, hwrr⟩ := hwr
      obtain ⟨⟨hb1, hb2⟩, hbrl, hbrr⟩ := hbr
      have erl : AVL.height rl = AVL.realHeight rl := avl_height_eq_real hwrl
      have err : AVL.height rr = AVL.realHeight rr := avl_height_eq_real hwrr
      have el : AVL.height l = AVL.realHeight l := avl_height_eq_real hwl
      rw [avl_realHeight_node] at hd
      have hbalc : AVL.balance (AVL.Tree.node rkv rh0 rl rr) =
          (AVL.realHeight rr : Int) - AVL.realHeight rl := by
        simp only [AVL.balance, AVL.left, AVL.right, erl, err]
      by_cases hc : (AVL.realHeight rl : Int) ≤ AVL.realHeight rr
      · -- single left rotation (right child not leaning left)
        simp only [AVL.fixup_deletion, avl_height_node, el]
        rw [if_pos ?hpos3]
        case hpos3 =>
          refine ⟨?_, ?_⟩
          · rw [hrh]
            push_cast
            omega
          · rw [hbalc]
            omega
        simp only [AVL.leftRotation, avl_height_node, el, erl, err]
        refine ⟨?_, ?_, ?_⟩
        · rw [avl_HeightsOk_node]
          refine ⟨?_, ⟨?_, hwl, hwrl⟩, hwrr⟩ <;>
            (try simp only [avl_realHeight_node]) <;> omega
        · rw [avl_BalancedT_node]
          refine ⟨⟨?_, ?_⟩, ⟨⟨?_, ?_⟩, hbl, hbrl⟩, hbrr⟩ <;>
            (try simp only [avl_realHeight_node]) <;> (try push_cast) <;> omega
        · (try simp only [avl_realHeight_node])
          omega
      · -- double rotation (right child leaning left)
        cases rl with
        | leaf =>
            exfalso
            simp only [AVL.realHeight] at hc
            omega
        | node zkv zh zl zr =>
            obtain ⟨hzh, hwzl, hwzr⟩ := hwrl
            obtain ⟨⟨hz1, hz2⟩, hbzl, hbzr⟩ := hbrl
            have ezl : AVL.height zl = AVL.realHeight zl := avl_height_eq_real hwzl
            have ezr : AVL.height zr = AVL.realHeight zr := avl_height_eq_real hwzr
            rw [avl_realHeight_node] at hd hc
            rw [avl_realHeight_node] at hb1 hb2
            simp only [AVL.fixup_deletion, avl_height_node, el]
            rw [if_neg ?hneg6]
            case hneg6 =>
              rw [hbalc, avl_realHeight_node]
              rintro ⟨-, hcon⟩
              push_cast at hcon
              omega
            rw [if_pos ?hpos4]
            case hpos4 =>
              refine ⟨?_, ?_⟩
              · rw [hrh, avl_realHeight_node]
                push_cast
                omega
              · rw [hbalc, avl_realHeight_node]
                push_cast
                omega
            simp only [AVL.rightRotation, AVL.leftRotation, avl_height_node, el, ezl,
              ezr, err]
            refine ⟨?_, ?_, ?_⟩
            · rw [avl_HeightsOk_node]
              refine ⟨?_, ⟨?_, hwl, hwzl⟩, ⟨?_, hwzr, hwrr⟩⟩ <;>
                (try simp only [avl_realHeight_node]) <;> omega
            · rw [avl_BalancedT_node]
              refine ⟨⟨?_, ?_⟩, ⟨⟨?_, ?_⟩, hbl, hbzl⟩, ⟨⟨?_, ?_⟩, hbzr, hbrr⟩⟩ <;>
                (try simp only [avl_realHeight_node]) <;> (try push_cast) <;> omega
            · (try simp only [avl_realHeight_node])
              omega

/-- Real balance factor of an explicit node. -/
theorem avl_realBal_node {K V : Type} [LinearOrder K] (kv : K × V) (h : Nat)
    (l r : AVL.Tree K V) :
    AVL.realBal (AVL.Tree.node kv h l r) =
      (AVL.realHeight r : Int) - AVL.realHeight l := rfl

/-- AVLTree::insert preserves correct cached heights and the AVL balance
condition, and grows the height by at most one; when it grows beyond a
singleton, the new root is unbalanced towards the inserted side. -/
theorem avl_insertT_spec {K V : Type} [LinearOrder K] (t : AVL.Tree K V)
    (kv : K × V) (hw : AVL.HeightsOk t) (hb : AVL.BalancedT t) :
    AVL.HeightsOk (AVL.insertT t kv).tree ∧ AVL.BalancedT (AVL.insertT t kv).tree ∧
    (AVL.realHeight (AVL.insertT t kv).tree = AVL.realHeight t ∨
      (AVL.realHeight (AVL.insertT t kv).tree = AVL.realHeight t + 1 ∧
        (AVL.realHeight (AVL.insertT t kv).tree ≤ 1 ∨
          AVL.realBal (AVL.insertT t kv).tree ≠ 0))) := by
  induction t with
  | leaf =>
      refine ⟨?_, ?_, .inr ⟨?_, .inl ?_⟩⟩ <;>
        simp [AVL.insertT, AVL.HeightsOk, AVL.BalancedT, AVL.realHeight]
  | node pkv h0 l r ihl ihr =>
      obtain ⟨hh, hwl, hwr⟩ := hw
      obtain ⟨⟨hb1, hb2⟩, hbl, hbr⟩ := hb
      by_cases hk : kv.1 = pkv.1
      · have hsame : (AVL.insertT (AVL.Tree.node pkv h0 l r) kv).tree =
            AVL.Tree.node pkv h0 l r := by
          simp [AVL.insertT, hk]
        rw [hsame]
        exact ⟨⟨hh, hwl, hwr⟩, ⟨⟨hb1, hb2⟩, hbl, hbr⟩, .inl rfl⟩
      · by_cases hlt : kv.1 < pkv.1
        · obtain ⟨ihw, ihb, ihh⟩ := ihl hwl hbl
          have hrw : (AVL.insertT (AVL.Tree.node pkv h0 l r) kv).tree =
              (AVL.fixup_node (.node pkv h0 (AVL.insertT l kv).tree r)).1 := by
            simp only [AVL.insertT, if_neg hk, if_pos hlt]
          rw [hrw]
          generalize hq : (AVL.insertT l kv).tree = q at ihw ihb ihh ⊢
          rcases ihh with hsame | ⟨hgrow, hcond⟩
          · rw [avl_fixup_node_noRot pkv h0 q r ihw hwr (by omega) (by omega)]
            refine ⟨?_, ?_, .inl ?_⟩
            · rw [avl_HeightsOk_node]
              exact ⟨rfl, ihw, hwr⟩
            · rw [avl_BalancedT_node]
              refine ⟨⟨?_, ?_⟩, ihb, hbr⟩ <;> omega
            · rw [avl_realHeight_node, avl_realHeight_node]
              omega
          · by_cases hheavy : AVL.realHeight q = AVL.realHeight r + 2
            · have hbalq : AVL.realBal q ≠ 0 := by
                rcases hcond with h1 | h2
                · exact absurd h1 (by omega)
                · exact h2
              obtain ⟨f1, f2, f3⟩ :=
                avl_fixup_node_leftHeavy pkv h0 q r ihw ihb hwr hbr hheavy hbalq
              refine ⟨f1, f2, .inl ?_⟩
              rw [f3, avl_realHeight_node]
              omega
            · rw [avl_fixup_node_noRot pkv h0 q r ihw hwr (by omega) (by omega)]
              refine ⟨?_, ?_, ?_⟩
              · rw [avl_HeightsOk_node]
                exact ⟨rfl, ihw, hwr⟩
              · rw [avl_BalancedT_node]
                refine ⟨⟨?_, ?_⟩, ihb, hbr⟩ <;> omega
              · rcases Nat.lt_or_ge (AVL.realHeight r) (AVL.realHeight q) with hcase | hcase
                · refine .inr ⟨?_, .inr ?_⟩
                  · rw [avl_realHeight_node, avl_realHeight_node]
                    omega
                  · rw [avl_realBal_node]
                    omega
                · refine .inl ?_
                  rw [avl_realHeight_node, avl_realHeight_node]
                  omega
        · obtain ⟨ihw, ihb, ihh⟩ := ihr hwr hbr
          have hrw : (AVL.insertT (AVL.Tree.node pkv h0 l r) kv).tree =
              (AVL.fixup_node (.node pkv h0 l (AVL.insertT r kv).tree)).1 := by
            simp only [AVL.insertT, if_neg hk, if_neg hlt]
          rw [hrw]
          generalize hq : (AVL.insertT r kv).tree = q at ihw ihb ihh ⊢
          rcases ihh with hsame | ⟨hgrow, hcond⟩
          · rw [avl_fixup_node_noRot pkv h0 l q hwl ihw (by omega) (by omega)]
            refine ⟨?_, ?_, .inl ?_⟩
            · rw [avl_HeightsOk_node]
              exact ⟨rfl, hwl, ihw⟩
            · rw [avl_BalancedT_node]
              refine ⟨⟨?_, ?_⟩, hbl, ihb⟩ <;> omega
            · rw [avl_realHeight_node, avl_realHeight_node]
              omega
          · by_cases hheavy : AVL.realHeight q = AVL.realHeight l + 2
            · have hbalq : AVL.realBal q ≠ 0 := by
                rcases hcond with h1 | h2
                · exact absurd h1 (by omega)
                · exact h2
              obtain ⟨f1, f2, f3⟩ :=
                avl_fixup_node_rightHeavy pkv h0 l q hwl hbl ihw ihb hheavy hbalq
              refine ⟨f1, f2, .inl ?_⟩
              rw [f3, avl_realHeight_node]
              omega
            · rw [avl_fixup_node_noRot pkv h0 l q hwl ihw (by omega) (by omega)]
              refine ⟨?_, ?_, ?_⟩
              · rw [avl_HeightsOk_node]
                exact ⟨rfl, hwl, ihw⟩
              · rw [avl_BalancedT_node]
                refine ⟨⟨?_, ?_⟩, hbl, ihb⟩ <;> omega
              · rcases Nat.lt_or_ge (AVL.realHeight l) (AVL.realHeight q) with hcase | hcase
                · refine .inr ⟨?_, .inr ?_⟩
                  · rw [avl_realHeight_node, avl_realHeight_node]
                    omega
                  · rw [avl_realBal_node]
                    omega
                · refine .inl ?_
                  rw [avl_realHeight_node, avl_realHeight_node]
                  omega

/-- Combined deletion fixup spec: if the two subtrees are within two levels
of each other, the fixup restores correct cached heights and the AVL shape;
the height is 1 + max of the child heights, or exactly max in a rotation
case where the children differ by two. -/
theorem avl_fixup_deletion_spec {K V : Type} [LinearOrder K] (pkv : K × V)
    (h0 : Nat) (l r : AVL.Tree K V)
    (hwl : AVL.HeightsOk l) (hbl : AVL.BalancedT l)
    (hwr : AVL.HeightsOk r) (hbr : AVL.BalancedT r)
    (hn1 : (AVL.realHeight l : Int) - AVL.realHeight r ≤ 2)
    (hn2 : (AVL.realHeight r : Int) - AVL.realHeight l ≤ 2) :
    AVL.HeightsOk (AVL.fixup_deletion (.node pkv h0 l r)).1 ∧
    AVL.BalancedT (AVL.fixup_deletion (.node pkv h0 l r)).1 ∧
    (AVL.realHeight (AVL.fixup_deletion (.node pkv h0 l r)).1 =
        1 + max (AVL.realHeight l) (AVL.realHeight r) ∨
      (AVL.realHeight (AVL.fixup_deletion (.node pkv h0 l r)).1 =
          max (AVL.realHeight l) (AVL.realHeight r) ∧
        max (AVL.realHeight l) (AVL.realHeight r) =
          min (AVL.realHeight l) (AVL.realHeight r) + 2)) := by
  by_cases h2l : AVL.realHeight l = AVL.realHeight r + 2
  · obtain ⟨f1, f2, f3⟩ :=
      avl_fixup_deletion_leftHeavy pkv h0 l r hwl hbl hwr hbr h2l
    refine ⟨f1, f2, ?_⟩
    rcases f3 with h | h
    · exact .inl (by omega)
    · exact .inr (by omega)
  · by_cases h2r : AVL.realHeight r = AVL.realHeight l + 2
    · obtain ⟨f1, f2, f3⟩ :=
        avl_fixup_deletion_rightHeavy pkv h0 l r hwl hbl hwr hbr h2r
      refine ⟨f1, f2, ?_⟩
      rcases f3 with h | h
      · exact .inl (by omega)
      · exact .inr (by omega)
    · rw [avl_fixup_deletion_noRot pkv h0 l r hwl hwr (by omega) (by omega)]
      refine ⟨?_, ?_, .inl ?_⟩
      · rw [avl_HeightsOk_node]
        exact ⟨rfl, hwl, hwr⟩
      · rw [avl_BalancedT_node]
        refine ⟨⟨?_, ?_⟩, hbl, hbr⟩ <;> omega
      · rw [avl_realHeight_node]

/-- AVLTree::remove_successor preserves the AVL invariants on a nonempty
subtree and lowers its height by at most one. -/
theorem avl_remove_successor_spec {K V : Type} [LinearOrder K] [Inhabited K]
    [Inhabited V] (t : AVL.Tree K V)
    (hw : AVL.HeightsOk t) (hb : AVL.BalancedT t) (hne : t ≠ AVL.Tree.leaf) :
    AVL.HeightsOk (AVL.remove_successor t).2.1 ∧
    AVL.BalancedT (AVL.remove_successor t).2.1 ∧
    (AVL.realHeight (AVL.remove_successor t).2.1 = AVL.realHeight t ∨
      AVL.realHeight (AVL.remove_successor t).2.1 + 1 = AVL.realHeight t) := by
  induction t with
  | leaf => exact absurd rfl hne
  | node nkv h0 l r ihl ihr =>
      obtain ⟨hh, hwl, hwr⟩ := hw
      obtain ⟨⟨hb1, hb2⟩, hbl, hbr⟩ := hb
      cases l with
      | leaf =>
          have hrw : (AVL.remove_successor (AVL.Tree.node nkv h0 .leaf r)).2.1 = r := rfl
          rw [hrw]
          refine ⟨hwr, hbr, .inr ?_⟩
          rw [avl_realHeight_node]
          simp only [AVL.realHeight] at hb1 hb2 ⊢
          omega
      | node lkv lh ll lr =>
          obtain ⟨ihw, ihb, ihh⟩ :=
            ihl hwl hbl (fun hcon => by cases hcon)
          have hrw : (AVL.remove_successor (AVL.Tree.node nkv h0
              (AVL.Tree.node lkv lh ll lr) r)).2.1 =
              (AVL.fixup_deletion (.node nkv h0
                (AVL.remove_successor (AVL.Tree.node lkv lh ll lr)).2.1 r)).1 := rfl
          rw [hrw]
          rw [hrw] at *
          generalize hq : (AVL.remove_successor (AVL.Tree.node lkv lh ll lr)).2.1 = q
            at ihw ihb ihh ⊢
          obtain ⟨f1, f2, f3⟩ :=
            avl_fixup_deletion_spec nkv h0 q r ihw ihb hwr hbr (by omega) (by omega)
          refine ⟨f1, f2, ?_⟩
          rw [avl_realHeight_node]
          rcases f3 with hcase | ⟨hcase, hgap⟩ <;> omega

/-- AVLTree::m_remove preserves the AVL invariants and lowers the height by
at most one. -/
theorem avl_m_remove_spec {K V : Type} [LinearOrder K] [Inhabited K]
    [Inhabited V] (t : AVL.Tree K V) (k : K)
    (hw : AVL.HeightsOk t) (hb : AVL.BalancedT t) :
    AVL.HeightsOk (AVL.m_remove t k).tree ∧
    AVL.BalancedT (AVL.m_remove t k).tree ∧
    (AVL.realHeight (AVL.m_remove t k).tree = AVL.realHeight t ∨
      AVL.realHeight (AVL.m_remove t k).tree + 1 = AVL.realHeight t) := by
  induction t with
  | leaf => exact ⟨trivial, trivial, .inl rfl⟩
  | node pkv h0 l r ihl ihr =>
      obtain ⟨hh, hwl, hwr⟩ := hw
      obtain ⟨⟨hb1, hb2⟩, hbl, hbr⟩ := hb
      by_cases hlt : k < pkv.1
      · obtain ⟨ihw, ihb, ihh⟩ := ihl hwl hbl
        have hrw : (AVL.m_remove (AVL.Tree.node pkv h0 l r) k).tree =
            (AVL.fixup_deletion (.node pkv h0 (AVL.m_remove l k).tree r)).1 := by
          simp only [AVL.m_remove, if_pos hlt]
        rw [hrw]
        generalize hq : (AVL.m_remove l k).tree = q at ihw ihb ihh ⊢
        obtain ⟨f1, f2, f3⟩ :=
          avl_fixup_deletion_spec pkv h0 q r ihw ihb hwr hbr (by omega) (by omega)
        refine ⟨f1, f2, ?_⟩
        rw [avl_realHeight_node]
        rcases f3 with hcase | ⟨hcase, hgap⟩ <;> omega
      · by_cases hgt : pkv.1 < k
        · obtain ⟨ihw, ihb, ihh⟩ := ihr hwr hbr
          have hrw : (AVL.m_remove (AVL.Tree.node pkv h0 l r) k).tree =
              (AVL.fixup_deletion (.node pkv h0 l (AVL.m_remove r k).tree)).1 := by
            simp only [AVL.m_remove, if_neg hlt, if_pos hgt]
          rw [hrw]
          generalize hq : (AVL.m_remove r k).tree = q at ihw ihb ihh ⊢
          obtain ⟨f1, f2, f3⟩ :=
            avl_fixup_deletion_spec pkv h0 l q hwl hbl ihw ihb (by omega) (by omega)
          refine ⟨f1, f2, ?_⟩
          rw [avl_realHeight_node]
          rcases f3 with hcase | ⟨hcase, hgap⟩ <;> omega
        · cases r with
          | leaf =>
              have hrw : (AVL.m_remove (AVL.Tree.node pkv h0 l .leaf) k).tree = l := by
                simp only [AVL.m_remove, if_neg hlt, if_neg hgt]
              rw [hrw]
              refine ⟨hwl, hbl, .inr ?_⟩
              rw [avl_realHeight_node]
              simp only [AVL.realHeight] at hb1 hb2 ⊢
              omega
          | node rkv rh0 rl rr =>
              obtain ⟨ihw, ihb, ihh⟩ :=
                avl_remove_successor_spec (AVL.Tree.node rkv rh0 rl rr) hwr hbr
                  (fun hcon => by cases hcon)
              have hrw : (AVL.m_remove (AVL.Tree.node pkv h0 l
                  (AVL.Tree.node rkv rh0 rl rr)) k).tree =
                  (AVL.fixup_deletion (.node
                    (AVL.remove_successor (AVL.Tree.node rkv rh0 rl rr)).1 h0 l
                    (AVL.remove_successor (AVL.Tree.node rkv rh0 rl rr)).2.1)).1 := by
                simp only [AVL.m_remove, if_neg hlt, if_neg hgt]
              rw [hrw]
              generalize hq : (AVL.remove_successor (AVL.Tree.node rkv rh0 rl rr)).2.1 = q
                at ihw ihb ihh ⊢
              obtain ⟨f1, f2, f3⟩ :=
                avl_fixup_deletion_spec
                  (AVL.remove_successor (AVL.Tree.node rkv rh0 rl rr)).1 h0 l q
                  hwl hbl ihw ihb (by omega) (by omega)
              refine ⟨f1, f2, ?_⟩
              rw [avl_realHeight_node]
              rcases f3 with hcase | ⟨hcase, hgap⟩ <;> omega

/-- C5: for the AVL engine, after any sequence of insert and remove
operations starting from the empty dictionary, every node of the tree
satisfies |height(left) - height(right)| ≤ 1 and every cached height field
equals 1 plus the maximum of the children's heights. -/
theorem C5_avl_balance_invariant {K V : Type} [LinearOrder K] [Inhabited K]
    [Inhabited V] (ops : List (AVL.Op K V)) :
    AVL.HeightsOk (AVL.runOps ops).root ∧ AVL.BalancedT (AVL.runOps ops).root := by
  have main : ∀ (os : List (AVL.Op K V)) (d : AVL.Dict K V),
      AVL.HeightsOk d.root → AVL.BalancedT d.root →
      AVL.HeightsOk (os.foldl AVL.applyOp d).root ∧
        AVL.BalancedT (os.foldl AVL.applyOp d).root := by
    intro os
    induction os with
    | nil => exact fun d hw hb => ⟨hw, hb⟩
    | cons o os ih =>
        intro d hw hb
        simp only [List.foldl_cons]
        apply ih
        · cases o with
          | ins kv => exact (avl_insertT_spec d.root kv hw hb).1
          | del k => exact (avl_m_remove_spec d.root k hw hb).1
        · cases o with
          | ins kv => exact (avl_insertT_spec d.root kv hw hb).2.1
          | del k => exact (avl_m_remove_spec d.root k hw hb).2.1
  exact main ops AVL.emptyDict trivial trivial

/-- The chain scan misses exactly when no entry of the chain has the key. -/
theorem ch_chainFind_eq_none {K V : Type} [DecidableEq K] (b : List (K × V))
    (k : K) : (Chained.chainFind b k).1 = none ↔ ∀ p ∈ b, p.1 ≠ k := by
  induction b with
  | nil => simp [Chained.chainFind]
  | cons p rest ih =>
      simp only [Chained.chainFind]
      by_cases h : p.1 = k
      · simp [h]
      · simp [h, ih]

/-- Appending to a chain cannot change the result for a key already found. -/
theorem ch_chainFind_append_some {K V : Type} [DecidableEq K]
    (b l : List (K × V)) (k : K) (v : V) (h : (Chained.chainFind b k).1 = some v) :
    (Chained.chainFind (b ++ l) k).1 = some v := by
  induction b with
  | nil => simp [Chained.chainFind] at h
  | cons p rest ih =>
      simp only [Chained.chainFind, List.cons_append] at h ⊢
      by_cases hp : p.1 = k
      · simpa [hp] using h
      · simp only [hp, if_false] at h ⊢
        exact ih h

/-- Scanning past a chain with no matching entry. -/
theorem ch_chainFind_append_none {K V : Type} [DecidableEq K]
    (b l : List (K × V)) (k : K) (h : (Chained.chainFind b k).1 = none) :
    (Chained.chainFind (b ++ l) k).1 = (Chained.chainFind l k).1 := by
  induction b with
  | nil => simp
  | cons p rest ih =>
      simp only [Chained.chainFind, List.cons_append] at h ⊢
      by_cases hp : p.1 = k
      · simp [hp] at h
      · simp only [hp, if_false] at h ⊢
        exact ih h

/-- When every bucket other than bucket i is free of the key, scanning the
concatenation of all buckets is scanning bucket i. -/
theorem ch_chainFind_join {K V : Type} [DecidableEq K]
    (bs : List (List (K × V))) (k : K) :
    ∀ i : Nat, (∀ j, j ≠ i → ∀ p ∈ (bs.get? j).getD [], p.1 ≠ k) →
      (Chained.chainFind bs.flatten k).1 =
        (Chained.chainFind ((bs.get? i).getD []) k).1 := by
  induction bs with
  | nil =>
      intro i h
      simp [List.flatten]
  | cons b bs ih =>
      intro i h
      rw [List.flatten_cons]
      cases i with
      | zero =>
          rcases hsome : (Chained.chainFind b k).1 with _ | v
          · rw [ch_chainFind_append_none b _ k hsome]
            have hall : ∀ j, j ≠ bs.length → ∀ p ∈ (bs.get? j).getD [], p.1 ≠ k := by
              intro j hj p hp
              by_cases hlen : j < bs.length
              · exact h (j + 1) (by omega) p (by simpa using hp)
              · rw [List.get?_eq_none.mpr (by omega)] at hp
                simp at hp
            rw [ih bs.length hall]
            rw [List.get?_eq_none.mpr (le_refl bs.length)]
            simpa using hsome.symm
          · rw [ch_chainFind_append_some b _ k v hsome]
            simpa using hsome.symm
      | succ j' =>
          have hb : ∀ p ∈ b, p.1 ≠ k := by
            have := h 0 (by omega)
            simpa using this
          rw [ch_chainFind_append_none b _ k ((ch_chainFind_eq_none b k).mpr hb)]
          have hall : ∀ j, j ≠ j' → ∀ p ∈ (bs.get? j).getD [], p.1 ≠ k := by
            intro j hj p hp
            exact h (j + 1) (by omega) p (by simpa using hp)
          rw [ih j' hall]
          simp

/-- Bucket i, for an in-range index, is the i-th list of the bucket array. -/
theorem ch_bucketAt_eq_getElem {K V : Type} [DecidableEq K] [Inhabited V]
    (s : Chained.Table K V) (j : Nat) (hj : j < s.m_table.length) :
    Chained.bucketAt s j = s.m_table[j] := by
  simp [Chained.bucketAt, List.get?_eq_getElem?, List.getElem?_eq_getElem hj]

/-- On a well-formed chained table, the per-bucket lookup agrees with a
scan of all buckets in order. -/
theorem ch_atDict_eq_flatten {K V : Type} [DecidableEq K] [Inhabited V]
    (hashF : K → Nat) (s : Chained.Table K V) (hwf : Chained.WF hashF s)
    (k : K) :
    Chained.atDict hashF s k = (Chained.chainFind s.m_table.flatten k).1 := by
  obtain ⟨hlen, hpos, hplace, hnod, hcount⟩ := hwf
  have h := ch_chainFind_join s.m_table k (Chained.hash_code hashF s k) ?H
  · exact h.symm
  · intro j hj p hp
    by_cases hlt : j < s.m_table.length
    · have hb : p ∈ Chained.bucketAt s j := by
        simpa [Chained.bucketAt] using hp
      intro hk
      have hpl := hplace j (by omega) p hb
      rw [hk] at hpl
      exact hj hpl.symm
    · rw [List.get?_eq_none.mpr (by omega)] at hp
      simp at hp

/-- On a well-formed chained table, the keys of all stored entries are
pairwise distinct. -/
theorem ch_flatten_keys_nodup {K V : Type} [DecidableEq K] [Inhabited V]
    (hashF : K → Nat) (s : Chained.Table K V) (hwf : Chained.WF hashF s) :
    (s.m_table.flatten.map Prod.fst).Nodup := by
  obtain ⟨hlen, hpos, hplace, hnod, hcount⟩ := hwf
  rw [List.map_flatten, List.nodup_join]
  constructor
  · intro l hl
    rw [List.mem_map] at hl
    obtain ⟨b, hb, rfl⟩ := hl
    rw [List.mem_iff_getElem] at hb
    obtain ⟨j, hj, rfl⟩ := hb
    have hn := hnod j (by omega)
    rwa [ch_bucketAt_eq_getElem s j hj] at hn
  · rw [List.pairwise_iff_getElem]
    intro a b ha hb hab
    simp only [List.length_map] at ha hb
    simp only [List.getElem_map]
    intro x hxa hxb
    rw [List.mem_map] at hxa hxb
    obtain ⟨p, hp, rfl⟩ := hxa
    obtain ⟨q, hq, hqx⟩ := hxb
    have h1 := hplace a (by omega) p
      (by rw [ch_bucketAt_eq_getElem s a ha]; exact hp)
    have h2 := hplace b (by omega) q
      (by rw [ch_bucketAt_eq_getElem s b hb]; exact hq)
    rw [hqx] at h2
    rw [h1] at h2
    omega

/-- Replacing one list of a list-of-lists changes the total length by the
difference of the replaced entry (stated without subtraction). -/
theorem ch_sum_length_set {A : Type} (l : List (List A)) :
    ∀ (i : Nat) (x : List A) (h : i < l.length),
      (((l.set i x).map List.length).sum + l[i].length =
        (l.map List.length).sum + x.length) := by
  induction l with
  | nil => intro i x h; simp at h
  | cons b rest ih =>
      intro i x h
      cases i with
      | zero => simp [List.set]; omega
      | succ i' =>
          simp only [List.set, List.map_cons, List.sum_cons, List.getElem_cons_succ]
          have := ih i' x (by simpa using Nat.lt_of_succ_lt_succ h)
          omega

/-- ChainedHashTable::insert meets the insert contract whenever the
rehash it may delegate to preserves well-formedness, the element count and
all lookups. -/
theorem ch_insertCore_spec {K V : Type} [DecidableEq K] [Inhabited V]
    (hashF : K → Nat) (doRehash : Chained.Table K V → Chained.Table K V)
    (s : Chained.Table K V) (kv : K × V) (hwf : Chained.WF hashF s)
    (hre : s.m_max_load_factor ≤ Chained.load_factor s →
      Chained.WF hashF (doRehash s) ∧
      (doRehash s).m_number_of_elements = s.m_number_of_elements ∧
      ∀ k2, Chained.atDict hashF (doRehash s) k2 = Chained.atDict hashF s k2) :
    Chained.InsSpec hashF s (Chained.insertCore hashF doRehash s kv) kv := by
  have hs1 : Chained.WF hashF
      (if s.m_max_load_factor ≤ Chained.load_factor s then doRehash s else s) ∧
      (if s.m_max_load_factor ≤ Chained.load_factor s then doRehash s
        else s).m_number_of_elements = s.m_number_of_elements ∧
      ∀ k2, Chained.atDict hashF
        (if s.m_max_load_factor ≤ Chained.load_factor s then doRehash s else s) k2 =
        Chained.atDict hashF s k2 := by
    by_cases hc : s.m_max_load_factor ≤ Chained.load_factor s
    · rw [if_pos hc]
      exact hre hc
    · rw [if_neg hc]
      exact ⟨hwf, rfl, fun _ => rfl⟩
  rw [Chained.InsSpec]
  simp only [Chained.insertCore]
  generalize hS : (if s.m_max_load_factor ≤ Chained.load_factor s then doRehash s
    else s) = s1 at hs1 ⊢
  obtain ⟨hwf1, hcnt1, hat1⟩ := hs1
  have hatkv : Chained.atDict hashF s kv.1 =
      (Chained.chainFind
        (Chained.bucketAt s1 (Chained.hash_code hashF s1 kv.1)) kv.1).1 :=
    (hat1 kv.1).symm
  rcases hfind : (Chained.chainFind
      (Chained.bucketAt s1 (Chained.hash_code hashF s1 kv.1)) kv.1).1 with _ | v
  · -- key absent: the pair is appended to its bucket
    rw [hfind] at hatkv
    obtain ⟨hlen1, hpos1, hplace1, hnod1, hcount1⟩ := hwf1
    have hi : Chained.hash_code hashF s1 kv.1 < s1.m_table.length := by
      rw [hlen1]
      exact Nat.mod_lt _ hpos1
    refine ⟨⟨?_, ?_, ?_, ?_, ?_⟩, ?_, ?_⟩
    · simpa [List.length_set] using hlen1
    · exact hpos1
    · intro j hj p hp
      by_cases hji : j = Chained.hash_code hashF s1 kv.1
      · subst hji
        rw [show Chained.bucketAt
            { s1 with
              m_table := s1.m_table.set (Chained.hash_code hashF s1 kv.1)
                (Chained.bucketAt s1 (Chained.hash_code hashF s1 kv.1) ++ [kv]),
              m_number_of_elements := s1.m_number_of_elements + 1,
              comparisons := s1.comparisons +
                (Chained.chainFind
                  (Chained.bucketAt s1 (Chained.hash_code hashF s1 kv.1)) kv.1).2 }
            (Chained.hash_code hashF s1 kv.1) =
            Chained.bucketAt s1 (Chained.hash_code hashF s1 kv.1) ++ [kv] from by
          simp [Chained.bucketAt, List.get?_eq_getElem?,
            List.getElem?_set_eq hi]] at hp
        rcases List.mem_append.mp hp with hold | hnew
        · exact hplace1 _ hj p hold
        · rw [List.mem_singleton.mp hnew]
          rfl
      · rw [show Chained.bucketAt
            { s1 with
              m_table := s1.m_table.set (Chained.hash_code hashF s1 kv.1)
                (Chained.bucketAt s1 (Chained.hash_code hashF s1 kv.1) ++ [kv]),
              m_number_of_elements := s1.m_number_of_elements + 1,
              comparisons := s1.comparisons +
                (Chained.chainFind
                  (Chained.bucketAt s1 (Chained.hash_code hashF s1 kv.1)) kv.1).2 }
            j = Chained.bucketAt s1 j from by
          simp [Chained.bucketAt, List.get?_eq_getElem?,
            List.getElem?_set_ne (fun h => hji h.symm)]] at hp
        exact hplace1 _ hj p hp
    · intro j hj
      by_cases hji : j = Chained.hash_code hashF s1 kv.1
      · subst hji
        rw [show Chained.bucketAt
            { s1 with
              m_table := s1.m_table.set (Chained.hash_code hashF s1 kv.1)
                (Chained.bucketAt s1 (Chained.hash_code hashF s1 kv.1) ++ [kv]),
              m_number_of_elements := s1.m_number_of_elements + 1,
              comparisons := s1.comparisons +
                (Chained.chainFind
                  (Chained.bucketAt s1 (Chained.hash_code hashF s1 kv.1)) kv.1).2 }
            (Chained.hash_code hashF s1 kv.1) =
            Chained.bucketAt s1 (Chained.hash_code hashF s1 kv.1) ++ [kv] from by
          simp [Chained.bucketAt, List.get?_eq_getElem?,
            List.getElem?_set_eq hi]]
        rw [List.map_append, List.nodup_append]
        refine ⟨hnod1 _ hj, by simp, ?_⟩
        intro a ha hb
        simp only [List.map_cons, List.map_nil, List.mem_singleton] at hb
        rw [List.mem_map] at ha
        obtain ⟨p, hp, rfl⟩ := ha
        have := (ch_chainFind_eq_none _ _).mp hfind p hp
        exact this (hb ▸ rfl)
      · rw [show Chained.bucketAt
            { s1 with
              m_table := s1.m_table.set (Chained.hash_code hashF s1 kv.1)
                (Chained.bucketAt s1 (Chained.hash_code hashF s1 kv.1) ++ [kv]),
              m_number_of_elements := s1.m_number_of_elements + 1,
              comparisons := s1.comparisons +
                (Chained.chainFind
                  (Chained.bucketAt s1 (Chained.hash_code hashF s1 kv.1)) kv.1).2 }
            j = Chained.bucketAt s1 j from by
          simp [Chained.bucketAt, List.get?_eq_getElem?,
            List.getElem?_set_ne (fun h => hji h.symm)]]
        exact hnod1 _ hj
    · have hsum := ch_sum_length_set s1.m_table (Chained.hash_code hashF s1 kv.1)
        (Chained.bucketAt s1 (Chained.hash_code hashF s1 kv.1) ++ [kv]) hi
      simp only [List.length_append, List.length_singleton] at hsum
      show s1.m_number_of_elements + 1 = (List.map List.length
        (s1.m_table.set (Chained.hash_code hashF s1 kv.1)
          (Chained.bucketAt s1 (Chained.hash_code hashF s1 kv.1) ++ [kv]))).sum
      rw [ch_bucketAt_eq_getElem s1 _ hi] at hsum ⊢
      omega
    · rw [hcnt1, hatkv]
      simp
    · intro k2
      show (Chained.chainFind (Chained.bucketAt _
          (Chained.hash_code hashF s1 k2)) k2).1 = _
      by_cases hj : Chained.hash_code hashF s1 k2 = Chained.hash_code hashF s1 kv.1
      · rw [hj]
        rw [show Chained.bucketAt
            { s1 with
              m_table := s1.m_table.set (Chained.hash_code hashF s1 kv.1)
                (Chained.bucketAt s1 (Chained.hash_code hashF s1 kv.1) ++ [kv]),
              m_number_of_elements := s1.m_number_of_elements + 1,
              comparisons := s1.comparisons +
                (Chained.chainFind
                  (Chained.bucketAt s1 (Chained.hash_code hashF s1 kv.1)) kv.1).2 }
            (Chained.hash_code hashF s1 kv.1) =
            Chained.bucketAt s1 (Chained.hash_code hashF s1 kv.1) ++ [kv] from by
          simp [Chained.bucketAt, List.get?_eq_getElem?,
            List.getElem?_set_eq hi]]
        by_cases hk2 : k2 = kv.1
        · subst hk2
          rw [ch_chainFind_append_none _ _ _ hfind]
          rw [if_pos ⟨rfl, by rw [hatkv]; rfl⟩]
          simp [Chained.chainFind]
        · rw [if_neg (fun hcon => hk2 hcon.1), ← hat1 k2]
          rcases hfk2 : (Chained.chainFind
              (Chained.bucketAt s1 (Chained.hash_code hashF s1 kv.1)) k2).1 with _ | v2
          · rw [ch_chainFind_append_none _ _ _ hfk2]
            have : (Chained.chainFind [kv] k2).1 = none := by
              simp [Chained.chainFind, Ne.symm hk2]
            rw [this]
            show _ = (Chained.chainFind (Chained.bucketAt s1
              (Chained.hash_code hashF s1 k2)) k2).1
            rw [hj, hfk2]
          · rw [ch_chainFind_append_some _ _ _ _ hfk2]
            show _ = (Chained.chainFind (Chained.bucketAt s1
              (Chained.hash_code hashF s1 k2)) k2).1
            rw [hj, hfk2]
      · rw [show Chained.bucketAt
            { s1 with
              m_table := s1.m_table.set (Chained.hash_code hashF s1 kv.1)
                (Chained.bucketAt s1 (Chained.hash_code hashF s1 kv.1) ++ [kv]),
              m_number_of_elements := s1.m_number_of_elements + 1,
              comparisons := s1.comparisons +
                (Chained.chainFind
                  (Chained.bucketAt s1 (Chained.hash_code hashF s1 kv.1)) kv.1).2 }
            (Chained.hash_code hashF s1 k2) = Chained.bucketAt s1
              (Chained.hash_code hashF s1 k2) from by
          simp [Chained.bucketAt, List.get?_eq_getElem?,
            List.getElem?_set_ne (Ne.symm hj)]]
        rw [if_neg (fun hcon => hj (by rw [hcon.1]))]
        exact hat1 k2
  · -- key present: only the comparison counter moves
    rw [hfind] at hatkv
    refine ⟨hwf1, ?_, ?_⟩
    · rw [hcnt1, hatkv]
      simp
    · intro k2
      rw [if_neg (fun hcon => by rw [hatkv] at hcon; simp at hcon)]
      exact hat1 k2

/-- Refilling a table by folding an insert that meets the insert contract
over a list of fresh keys: all pairs land in the table, lookups favour the
reinserted pairs, and the count grows by the list length. -/
theorem ch_foldl_ins_spec {K V : Type} [DecidableEq K] [Inhabited V]
    (hashF : K → Nat) (ins : Chained.Table K V → K × V → Chained.Table K V)
    (f : Nat)
    (hins : ∀ t kv2, Chained.WF hashF t → t.m_number_of_elements + 1 ≤ f →
      Chained.InsSpec hashF t (ins t kv2) kv2) :
    ∀ (E : List (K × V)) (acc : Chained.Table K V),
      Chained.WF hashF acc → (E.map Prod.fst).Nodup →
      (∀ p ∈ E, Chained.atDict hashF acc p.1 = none) →
      acc.m_number_of_elements + E.length ≤ f →
      Chained.WF hashF (E.foldl ins acc) ∧
      (E.foldl ins acc).m_number_of_elements =
        acc.m_number_of_elements + E.length ∧
      ∀ k2, Chained.atDict hashF (E.foldl ins acc) k2 =
        ((Chained.chainFind E k2).1).elim (Chained.atDict hashF acc k2) some := by
  intro E
  induction E with
  | nil =>
      intro acc hw hnd habs hfuel
      refine ⟨hw, by simp, fun k2 => by simp [Chained.chainFind]⟩
  | cons p E ih =>
      intro acc hw hnd habs hfuel
      obtain ⟨hw1, hc1, hat1⟩ := hins acc p hw (by simp at hfuel; omega)
      have habs_p : Chained.atDict hashF acc p.1 = none :=
        habs p (List.mem_cons_self p E)
      have hcnt : (ins acc p).m_number_of_elements =
          acc.m_number_of_elements + 1 := by
        rw [hc1, habs_p]
        rfl
      have hnd2 : (p.1 :: E.map Prod.fst).Nodup := by simpa using hnd
      have hkey : p.1 ∉ E.map Prod.fst := (List.nodup_cons.mp hnd2).1
      have habs2 : ∀ q ∈ E, Chained.atDict hashF (ins acc p) q.1 = none := by
        intro q hq
        rw [hat1 q.1, if_neg]
        · exact habs q (List.mem_cons_of_mem p hq)
        · intro hcon
          exact hkey (hcon.1 ▸ List.mem_map_of_mem Prod.fst hq)
      obtain ⟨hwr, hcr, hatr⟩ := ih (ins acc p) hw1
        ((List.nodup_cons.mp hnd2).2) habs2
        (by simp at hfuel; omega)
      refine ⟨by simpa using hwr, ?_, ?_⟩
      · simp only [List.foldl_cons, List.length_cons]
        rw [hcr, hcnt]
        omega
      · intro k2
        simp only [List.foldl_cons]
        rw [hatr k2]
        by_cases hp : p.1 = k2
        · have hE : (Chained.chainFind E k2).1 = none := by
            rw [ch_chainFind_eq_none]
            intro q hq hqk
            exact hkey (hp ▸ hqk ▸ List.mem_map_of_mem Prod.fst hq)
          rw [hE]
          simp only [Option.elim]
          rw [hat1 k2, if_pos ⟨hp.symm, by rw [habs_p]; rfl⟩]
          simp [Chained.chainFind, hp]
        · have hcons : (Chained.chainFind (p :: E) k2).1 =
              (Chained.chainFind E k2).1 := by
            simp [Chained.chainFind, hp]
          rw [hcons]
          rcases hE : (Chained.chainFind E k2).1 with _ | v
          · simp only [Option.elim]
            rw [hat1 k2, if_neg (fun hcon => hp hcon.1.symm)]
          · simp [Option.elim]

/-- ChainedHashTable::rehash, driven by an insert meeting the insert
contract: the element count and all lookups are preserved, and the result
is well-formed. -/
theorem ch_rehashGo_spec {K V : Type} [DecidableEq K] [Inhabited V]
    (hashF : K → Nat) (ins : Chained.Table K V → K × V → Chained.Table K V)
    (f : Nat)
    (hins : ∀ t kv2, Chained.WF hashF t → t.m_number_of_elements + 1 ≤ f →
      Chained.InsSpec hashF t (ins t kv2) kv2)
    (s : Chained.Table K V) (m : Nat) (hwf : Chained.WF hashF s)
    (hfuel : s.m_number_of_elements ≤ f) :
    Chained.WF hashF (Chained.rehashGo ins s m) ∧
    (Chained.rehashGo ins s m).m_number_of_elements = s.m_number_of_elements ∧
    ∀ k2, Chained.atDict hashF (Chained.rehashGo ins s m) k2 =
      Chained.atDict hashF s k2 := by
  simp only [Chained.rehashGo]
  by_cases hg : s.m_table_size < get_next_prime m
  · rw [if_pos hg]
    rw [← List.foldl_flatten ins _ s.m_table]
    have hbT0 : ∀ i, Chained.bucketAt
        (⟨0, get_next_prime m, s.m_max_load_factor,
          List.replicate (get_next_prime m) [], s.comparisons⟩ :
          Chained.Table K V) i = [] := by
      intro i
      simp only [Chained.bucketAt, List.get?_eq_getElem?, List.getElem?_replicate]
      split <;> rfl
    have hwT0 : Chained.WF hashF
        (⟨0, get_next_prime m, s.m_max_load_factor,
          List.replicate (get_next_prime m) [], s.comparisons⟩ :
          Chained.Table K V) := by
      refine ⟨by simp, ?_, ?_, ?_, by simp⟩
      · show 0 < get_next_prime m
        have := hwf.2.1
        omega
      · intro i hi p hp
        rw [hbT0 i] at hp
        simp at hp
      · intro i hi
        rw [hbT0 i]
        simp
    have habsT0 : ∀ p ∈ s.m_table.flatten, Chained.atDict hashF
        (⟨0, get_next_prime m, s.m_max_load_factor,
          List.replicate (get_next_prime m) [], s.comparisons⟩ :
          Chained.Table K V) p.1 = none := by
      intro p hp
      show (Chained.chainFind (Chained.bucketAt _ _) p.1).1 = none
      rw [hbT0]
      rfl
    have hlenE : s.m_table.flatten.length = s.m_number_of_elements := by
      rw [List.length_join]
      exact hwf.2.2.2.2.symm
    obtain ⟨hw2, hc2, hat2⟩ := ch_foldl_ins_spec hashF ins f hins
      s.m_table.flatten _ hwT0 (ch_flatten_keys_nodup hashF s hwf) habsT0
      (by rw [hlenE]; simpa using hfuel)
    refine ⟨hw2, ?_, ?_⟩
    · rw [hc2]
      show 0 + _ = _
      rw [hlenE]
      omega
    · intro k2
      rw [hat2 k2, ch_atDict_eq_flatten hashF s hwf k2]
      rcases hE : (Chained.chainFind s.m_table.flatten k2).1 with _ | v
      · simp only [Option.elim]
        show (Chained.chainFind (Chained.bucketAt _ _) k2).1 = none
        rw [hbT0]
        rfl
      · simp [Option.elim]
  · rw [if_neg hg]
    exact ⟨hwf, rfl, fun _ => rfl⟩

/-- ChainedHashTable::insert with enough fuel meets the insert contract on
every well-formed table. -/
theorem ch_insertFuel_spec {K V : Type} [DecidableEq K] [Inhabited V]
    (hashF : K → Nat) :
    ∀ (f : Nat) (s : Chained.Table K V) (kv : K × V), Chained.WF hashF s →
      s.m_number_of_elements + 1 ≤ f →
      Chained.InsSpec hashF s (Chained.insertFuel hashF f s kv) kv := by
  intro f
  induction f with
  | zero =>
      intro s kv hw hf
      exact absurd hf (by omega)
  | succ f ih =>
      intro s kv hw hf
      have hunf : Chained.insertFuel hashF (f + 1) s kv =
          Chained.insertCore hashF
            (fun s1 => Chained.rehashGo (Chained.insertFuel hashF f) s1
              (s1.m_table_size * 2)) s kv := rfl
      rw [hunf]
      refine ch_insertCore_spec hashF _ s kv hw ?_
      intro htrig
      exact ch_rehashGo_spec hashF (Chained.insertFuel hashF f) f
        (fun t kv2 htw htf => ih t kv2 htw htf) s (s.m_table_size * 2) hw
        (by omega)

/-- ChainedHashTable::insert (public entry) meets the insert contract on
every well-formed table. -/
theorem ch_insertDict_spec {K V : Type} [DecidableEq K] [Inhabited V]
    (hashF : K → Nat) (s : Chained.Table K V) (kv : K × V)
    (hwf : Chained.WF hashF s) :
    Chained.InsSpec hashF s (Chained.insertDict hashF s kv) kv :=
  ch_insertFuel_spec hashF (s.m_number_of_elements + 2) s kv hwf (by omega)

/-- The descending loop of RedBlackTree::insert reports no attachment
point (and hence the insert leaves the tree unchanged) exactly when the
key is already stored. -/
theorem rb_descendLoop_found {K V : Type} [LinearOrder K] (t : RB.Tree K V)
    (k : K) (v1 v2 : V) (hfound : (RB.atT t k).1 = some v1) :
    ∀ path, (RB.descendLoop t (k, v2) path).1 = none := by
  induction t with
  | nil => simp [RB.atT] at hfound
  | node pkv c l r ihl ihr =>
      intro path
      by_cases hk : k = pkv.1
      · simp [RB.descendLoop, hk]
      · by_cases hlt : k < pkv.1
        · have hfl : (RB.atT l k).1 = some v1 := by
            simpa [RB.atT, hk, hlt] using hfound
          simp only [RB.descendLoop]
          rw [if_pos (show ((k, v2) : K × V).1 < pkv.1 from hlt)]
          exact ihl hfl _
        · have hgt : pkv.1 < k := lt_of_le_of_ne (not_lt.mp hlt) (Ne.symm hk)
          have hfr : (RB.atT r k).1 = some v1 := by
            simpa [RB.atT, hk, hlt] using hfound
          simp only [RB.descendLoop]
          rw [if_neg (show ¬((k, v2) : K × V).1 < pkv.1 from hlt),
            if_pos (show pkv.1 < ((k, v2) : K × V).1 from hgt)]
          exact ihr hfr _

/-- What a successful upward scan returns: a position in range satisfying
the predicate, with every earlier position failing it. -/
theorem firstIdx_some (p : Nat → Bool) :
    ∀ (rem i t : Nat), firstIdx p i rem = some t →
      i ≤ t ∧ t < i + rem ∧ p t = true ∧ ∀ u, i ≤ u → u < t → p u = false := by
  intro rem
  induction rem with
  | zero => intro i t h; simp [firstIdx] at h
  | succ rem ih =>
      intro i t h
      rw [firstIdx] at h
      by_cases hp : p i
      · rw [if_pos hp] at h
        injection h with h2
        subst h2
        exact ⟨le_refl i, by omega, hp,
          fun u hu1 hu2 => absurd (lt_of_lt_of_le hu2 hu1) (lt_irrefl u)⟩
      · rw [if_neg hp] at h
        obtain ⟨h1, h2, h3, h4⟩ := ih (i + 1) t h
        refine ⟨by omega, by omega, h3, ?_⟩
        intro u hu1 hu2
        rcases Nat.eq_or_lt_of_le hu1 with rfl | hgt
        · exact Bool.eq_false_iff.mpr hp
        · exact h4 u hgt hu2

/-- A failed upward scan means no position in range satisfies the
predicate. -/
theorem firstIdx_none (p : Nat → Bool) :
    ∀ (rem i : Nat), firstIdx p i rem = none →
      ∀ u, i ≤ u → u < i + rem → p u = false := by
  intro rem
  induction rem with
  | zero => intro i h u hu1 hu2; omega
  | succ rem ih =>
      intro i h u hu1 hu2
      rw [firstIdx] at h
      by_cases hp : p i
      · rw [if_pos hp] at h
        cases h
      · rw [if_neg hp] at h
        rcases Nat.eq_or_lt_of_le hu1 with rfl | hgt
        · exact Bool.eq_false_iff.mpr hp
        · exact ih (i + 1) h u hgt (by omega)

/-- Conversely, a position satisfying the predicate with an all-failing
prefix is what the scan returns. -/
theorem firstIdx_eq_some (p : Nat → Bool) :
    ∀ (rem i t : Nat), i ≤ t → t < i + rem → p t = true →
      (∀ u, i ≤ u → u < t → p u = false) → firstIdx p i rem = some t := by
  intro rem
  induction rem with
  | zero => intro i t h1 h2; omega
  | succ rem ih =>
      intro i t h1 h2 h3 h4
      rw [firstIdx]
      rcases Nat.eq_or_lt_of_le h1 with rfl | hgt
      · rw [if_pos h3]
      · rw [if_neg (by rw [h4 i (le_refl i) hgt]; exact Bool.false_ne_true)]
        exact ih (i + 1) t hgt (by omega) h3 (fun u hu1 hu2 => h4 u (by omega) hu2)

/-- A scan over an all-failing range returns nothing. -/
theorem firstIdx_eq_none (p : Nat → Bool) :
    ∀ (rem i : Nat), (∀ u, i ≤ u → u < i + rem → p u = false) →
      firstIdx p i rem = none := by
  intro rem
  induction rem with
  | zero => intro i h; rfl
  | succ rem ih =>
      intro i h
      rw [firstIdx, if_neg (by rw [h i (le_refl i) (by omega)]; exact Bool.false_ne_true)]
      exact ih (i + 1) (fun u hu1 hu2 => h u (by omega) (by omega))


/-- Window bookkeeping for the scanned-prefix scans: moving the start one
step right when the start position fails the predicate. -/
theorem firstIdx_window_shift (p : Nat → Bool) (i rem : Nat)
    (hp : p i = false) (X : Option Nat) (hb : ∀ t, X = some t → i + 1 ≤ t) :
    firstIdx p i (X.elim (rem + 1) (fun t => t - i)) =
      firstIdx p (i + 1) (X.elim rem (fun t => t - (i + 1))) := by
  cases X with
  | none =>
      simp only [Option.elim]
      rw [firstIdx, if_neg (by rw [hp]; exact Bool.false_ne_true)]
  | some t =>
      simp only [Option.elim]
      have := hb t rfl
      rw [show t - i = (t - (i + 1)) + 1 from by omega, firstIdx,
        if_neg (by rw [hp]; exact Bool.false_ne_true)]

/-- A scanned-prefix scan that succeeds at its start position. -/
theorem firstIdx_window_pos (p : Nat → Bool) (i rem : Nat)
    (hp : p i = true) (X : Option Nat) (hb : ∀ t, X = some t → i + 1 ≤ t) :
    firstIdx p i (X.elim (rem + 1) (fun t => t - i)) = some i := by
  cases X with
  | none =>
      simp only [Option.elim]
      rw [firstIdx, if_pos hp]
  | some t =>
      simp only [Option.elim]
      have := hb t rfl
      rw [show t - i = (t - (i + 1)) + 1 from by omega, firstIdx, if_pos hp]

/-- Complete characterisation of the probing for-loop of
OpenHashTable::insert: the loop stops at the first EMPTY-or-matching probe
attempt; `found` reports whether that attempt was a key match, `hashIndex`
is the slot of the stopping EMPTY attempt, and `firstDeleted` keeps an
incoming tombstone or else records the slot of the first DELETED attempt
in the scanned prefix. -/
theorem oh_probeLoop_char {K V : Type} [DecidableEq K] [Inhabited K]
    [Inhabited V] (hashF : K → Nat) (s : OpenHT.Table K V) (k : K) :
    ∀ (rem i : Nat) (fd : Option Nat),
      ((OpenHT.probeLoop hashF s k i rem fd).found =
        ((firstIdx (fun u => OpenHT.probeEmpty hashF s k u ||
            OpenHT.probeMatch hashF s k u) i rem).elim false
          (OpenHT.probeMatch hashF s k))) ∧
      ((OpenHT.probeLoop hashF s k i rem fd).hashIndex =
        ((firstIdx (fun u => OpenHT.probeEmpty hashF s k u ||
            OpenHT.probeMatch hashF s k u) i rem).elim none (fun t =>
          if OpenHT.probeMatch hashF s k t then none
          else some (OpenHT.hash_code hashF s k t)))) ∧
      ((OpenHT.probeLoop hashF s k i rem fd).firstDeleted =
        fd.elim ((firstIdx (OpenHT.probeDeleted hashF s k) i
            ((firstIdx (fun u => OpenHT.probeEmpty hashF s k u ||
              OpenHT.probeMatch hashF s k u) i rem).elim rem
              (fun t => t - i))).map (OpenHT.hash_code hashF s k)) some) := by
  intro rem
  induction rem with
  | zero =>
      intro i fd
      refine ⟨rfl, rfl, ?_⟩
      cases fd <;> rfl
  | succ rem ih =>
      intro i fd
      cases hst : (OpenHT.slotAt s (OpenHT.hash_code hashF s k i)).status with
      | EMPTY =>
          have hpe : OpenHT.probeEmpty hashF s k i = true := by
            simp [OpenHT.probeEmpty, hst]
          have hpm : OpenHT.probeMatch hashF s k i = false := by
            simp [OpenHT.probeMatch, hst]
          have hloop : OpenHT.probeLoop hashF s k i (rem + 1) fd =
              ⟨false, some (OpenHT.hash_code hashF s k i), fd, 0, 0⟩ := by
            simp only [OpenHT.probeLoop, hst]
          have hfirst : firstIdx (fun u => OpenHT.probeEmpty hashF s k u ||
              OpenHT.probeMatch hashF s k u) i (rem + 1) = some i := by
            rw [firstIdx, if_pos (by simp [hpe])]
          rw [hloop, hfirst]
          refine ⟨?_, ?_, ?_⟩
          · simp only [Option.elim]
            rw [hpm]
          · simp only [Option.elim]
            rw [hpm]
            simp
          · cases fd with
            | some d => rfl
            | none => simp [Option.elim, Nat.sub_self, firstIdx]
      | ACTIVE =>
          by_cases hk : (OpenHT.slotAt s (OpenHT.hash_code hashF s k i)).data.1 = k
          · have hpm : OpenHT.probeMatch hashF s k i = true := by
              simp [OpenHT.probeMatch, hst, hk]
            have hloop : OpenHT.probeLoop hashF s k i (rem + 1) fd =
                ⟨true, none, fd, 1, 0⟩ := by
              simp only [OpenHT.probeLoop, hst]
              rw [if_pos hk]
            have hfirst : firstIdx (fun u => OpenHT.probeEmpty hashF s k u ||
                OpenHT.probeMatch hashF s k u) i (rem + 1) = some i := by
              rw [firstIdx, if_pos (by simp [hpm])]
            rw [hloop, hfirst]
            refine ⟨?_, ?_, ?_⟩
            · simp only [Option.elim]
              rw [hpm]
            · simp only [Option.elim]
              rw [hpm]
              simp
            · cases fd with
              | some d => rfl
              | none => simp [Option.elim, Nat.sub_self, firstIdx]
          · have hpe : OpenHT.probeEmpty hashF s k i = false := by
              simp [OpenHT.probeEmpty, hst]
            have hpm : OpenHT.probeMatch hashF s k i = false := by
              simp [OpenHT.probeMatch, hst, hk]
            have hpd : OpenHT.probeDeleted hashF s k i = false := by
              simp [OpenHT.probeDeleted, hst]
            have hl1 : (OpenHT.probeLoop hashF s k i (rem + 1) fd).found =
                (OpenHT.probeLoop hashF s k (i + 1) rem fd).found := by
              simp only [OpenHT.probeLoop, hst]
              rw [if_neg hk]
            have hl2 : (OpenHT.probeLoop hashF s k i (rem + 1) fd).hashIndex =
                (OpenHT.probeLoop hashF s k (i + 1) rem fd).hashIndex := by
              simp only [OpenHT.probeLoop, hst]
              rw [if_neg hk]
            have hl3 : (OpenHT.probeLoop hashF s k i (rem + 1) fd).firstDeleted =
                (OpenHT.probeLoop hashF s k (i + 1) rem fd).firstDeleted := by
              simp only [OpenHT.probeLoop, hst]
              rw [if_neg hk]
            have hshift : firstIdx (fun u => OpenHT.probeEmpty hashF s k u ||
                OpenHT.probeMatch hashF s k u) i (rem + 1) =
                firstIdx (fun u => OpenHT.probeEmpty hashF s k u ||
                  OpenHT.probeMatch hashF s k u) (i + 1) rem := by
              rw [firstIdx, if_neg (by simp [hpe, hpm])]
            obtain ⟨ih1, ih2, ih3⟩ := ih (i + 1) fd
            refine ⟨?_, ?_, ?_⟩
            · rw [hl1, ih1, hshift]
            · rw [hl2, ih2, hshift]
            · rw [hl3, ih3, hshift]
              cases fd with
              | some d => rfl
              | none =>
                  rw [firstIdx_window_shift _ i rem hpd _
                    (fun t ht => (firstIdx_some _ rem (i + 1) t ht).1)]
      | DELETED =>
          have hpe : OpenHT.probeEmpty hashF s k i = false := by
            simp [OpenHT.probeEmpty, hst]
          have hpm : OpenHT.probeMatch hashF s k i = false := by
            simp [OpenHT.probeMatch, hst]
          have hpd : OpenHT.probeDeleted hashF s k i = true := by
            simp [OpenHT.probeDeleted, hst]
          have hshift : firstIdx (fun u => OpenHT.probeEmpty hashF s k u ||
              OpenHT.probeMatch hashF s k u) i (rem + 1) =
              firstIdx (fun u => OpenHT.probeEmpty hashF s k u ||
                OpenHT.probeMatch hashF s k u) (i + 1) rem := by
            rw [firstIdx, if_neg (by simp [hpe, hpm])]
          cases fd with
          | some d =>
              have hl : OpenHT.probeLoop hashF s k i (rem + 1) (some d) =
                  OpenHT.probeLoop hashF s k (i + 1) rem (some d) := by
                simp only [OpenHT.probeLoop, hst]
              obtain ⟨ih1, ih2, ih3⟩ := ih (i + 1) (some d)
              refine ⟨?_, ?_, ?_⟩
              · rw [hl, ih1, hshift]
              · rw [hl, ih2, hshift]
              · rw [hl, ih3]
                rfl
          | none =>
              have hl : OpenHT.probeLoop hashF s k i (rem + 1) none =
                  OpenHT.probeLoop hashF s k (i + 1) rem
                    (some (OpenHT.hash_code hashF s k i)) := by
                simp only [OpenHT.probeLoop, hst]
              obtain ⟨ih1, ih2, ih3⟩ := ih (i + 1)
                (some (OpenHT.hash_code hashF s k i))
              refine ⟨?_, ?_, ?_⟩
              · rw [hl, ih1, hshift]
              · rw [hl, ih2, hshift]
              · rw [hl, ih3, hshift]
                rw [firstIdx_window_pos _ i rem hpd _
                  (fun t ht => (firstIdx_some _ rem (i + 1) t ht).1)]
                rfl

/-- The probe loop of OpenHashTable::insert, started from attempt 0 over
the full table, reports a key match exactly when the spec-side scanned
prefix contains one; on a miss it returns the slot of the first EMPTY
attempt and the slot of the first DELETED attempt of the scanned prefix. -/
theorem oh_probe_top {K V : Type} [DecidableEq K] [Inhabited K] [Inhabited V]
    (hashF : K → Nat) (s : OpenHT.Table K V) (k : K) :
    ((OpenHT.probeLoop hashF s k 0 s.m_table_size none).found = true ↔
      (OpenHT.specMatch hashF s k).isSome = true) ∧
    ((OpenHT.probeLoop hashF s k 0 s.m_table_size none).found = false →
      (OpenHT.probeLoop hashF s k 0 s.m_table_size none).hashIndex =
        (OpenHT.specFirstEmpty hashF s k).map (OpenHT.hash_code hashF s k) ∧
      (OpenHT.probeLoop hashF s k 0 s.m_table_size none).firstDeleted =
        (OpenHT.specFirstDeleted hashF s k).map (OpenHT.hash_code hashF s k)) := by
  obtain ⟨hf, hh, hd⟩ := oh_probeLoop_char hashF s k s.m_table_size 0 none
  rcases hX : firstIdx (fun u => OpenHT.probeEmpty hashF s k u ||
      OpenHT.probeMatch hashF s k u) 0 s.m_table_size with _ | t
  · have hall := firstIdx_none _ s.m_table_size 0 hX
    have hpe : ∀ u, u < s.m_table_size → OpenHT.probeEmpty hashF s k u = false := by
      intro u hu
      have := hall u (Nat.zero_le u) (by omega)
      exact (Bool.or_eq_false_iff.mp this).1
    have hpm : ∀ u, u < s.m_table_size → OpenHT.probeMatch hashF s k u = false := by
      intro u hu
      have := hall u (Nat.zero_le u) (by omega)
      exact (Bool.or_eq_false_iff.mp this).2
    have hFE : OpenHT.specFirstEmpty hashF s k = none := by
      rw [OpenHT.specFirstEmpty]
      exact firstIdx_eq_none _ _ _ (fun u hu1 hu2 => hpe u (by omega))
    have hSM : OpenHT.specMatch hashF s k = none := by
      rw [OpenHT.specMatch, OpenHT.specStop, hFE]
      exact firstIdx_eq_none _ _ _ (fun u hu1 hu2 => hpm u (by simpa using hu2))
    rw [hX] at hf hh hd
    constructor
    · rw [hf, hSM]
      simp [Option.elim]
    · intro hmiss
      constructor
      · rw [hh, hFE]
        rfl
      · rw [hd, OpenHT.specFirstDeleted, OpenHT.specStop, hFE]
        rfl
  · obtain ⟨ht0, htlt, htp, htpre⟩ := firstIdx_some _ s.m_table_size 0 t hX
    have hpe_pre : ∀ u, u < t → OpenHT.probeEmpty hashF s k u = false := by
      intro u hu
      exact (Bool.or_eq_false_iff.mp (htpre u (Nat.zero_le u) hu)).1
    have hpm_pre : ∀ u, u < t → OpenHT.probeMatch hashF s k u = false := by
      intro u hu
      exact (Bool.or_eq_false_iff.mp (htpre u (Nat.zero_le u) hu)).2
    rw [hX] at hf hh hd
    by_cases hmt : OpenHT.probeMatch hashF s k t = true
    · have hpet : OpenHT.probeEmpty hashF s k t = false := by
        simp only [OpenHT.probeMatch, Bool.and_eq_true, decide_eq_true_eq] at hmt
        simp [OpenHT.probeEmpty, hmt.1]
      have hstop : t < (OpenHT.specFirstEmpty hashF s k).getD s.m_table_size := by
        rcases he : OpenHT.specFirstEmpty hashF s k with _ | e
        · simpa using htlt
        · rw [OpenHT.specFirstEmpty] at he
          obtain ⟨he0, helt, hep, hepre⟩ := firstIdx_some _ _ _ e he
          simp only [Option.getD]
          rcases Nat.lt_trichotomy t e with h | h | h
          · exact h
          · rw [← h] at hep
            rw [hep] at hpet
            cases hpet
          · rw [hpe_pre e h] at hep
            cases hep
      have hSM : OpenHT.specMatch hashF s k = some t := by
        rw [OpenHT.specMatch, OpenHT.specStop]
        exact firstIdx_eq_some _ _ _ _ (Nat.zero_le t) (by simpa using hstop) hmt
          (fun u hu1 hu2 => hpm_pre u hu2)
      constructor
      · rw [hf, hSM]
        simp [Option.elim, hmt]
      · intro hmiss
        rw [hf] at hmiss
        simp only [Option.elim] at hmiss
        rw [hmt] at hmiss
        cases hmiss
    · have hmt2 : OpenHT.probeMatch hashF s k t = false := by
        exact Bool.eq_false_iff.mpr hmt
      have hpet : OpenHT.probeEmpty hashF s k t = true := by
        rcases Bool.or_eq_true_iff.mp htp with h | h
        · exact h
        · rw [hmt2] at h
          cases h
      have hFE : OpenHT.specFirstEmpty hashF s k = some t := by
        rw [OpenHT.specFirstEmpty]
        exact firstIdx_eq_some _ _ _ _ (Nat.zero_le t) (by omega) hpet
          (fun u hu1 hu2 => hpe_pre u hu2)
      have hSM : OpenHT.specMatch hashF s k = none := by
        rw [OpenHT.specMatch, OpenHT.specStop, hFE]
        exact firstIdx_eq_none _ _ _ (fun u hu1 hu2 => hpm_pre u (by simpa using hu2))
      constructor
      · rw [hf, hSM]
        simp [Option.elim, hmt2]
      · intro hmiss
        constructor
        · rw [hh, hFE]
          simp [Option.elim, hmt2]
        · rw [hd, OpenHT.specFirstDeleted, OpenHT.specStop, hFE]
          simp [Option.elim]

/-- When no ACTIVE slot holds the key, the findIndex loop misses. -/
theorem oh_findIndexLoop_none {K V : Type} [DecidableEq K] [Inhabited K]
    [Inhabited V] (hashF : K → Nat) (s : OpenHT.Table K V) (k : K)
    (hno : ∀ j, (OpenHT.slotAt s j).status = .ACTIVE →
      (OpenHT.slotAt s j).data.1 ≠ k) :
    ∀ (rem i : Nat), (OpenHT.findIndexLoop hashF s k i rem).1 = none := by
  intro rem
  induction rem with
  | zero => intro i; rfl
  | succ rem ih =>
      intro i
      cases hst : (OpenHT.slotAt s (OpenHT.hash_code hashF s k i)).status with
      | EMPTY => simp only [OpenHT.findIndexLoop, hst]
      | ACTIVE =>
          simp only [OpenHT.findIndexLoop, hst]
          rw [if_neg (hno _ hst)]
          exact ih (i + 1)
      | DELETED =>
          simp only [OpenHT.findIndexLoop, hst]
          exact ih (i + 1)

/-- When a matching ACTIVE probe attempt exists with no EMPTY attempt
before it, the findIndex loop lands on an ACTIVE slot holding the key. -/
theorem oh_findIndexLoop_some {K V : Type} [DecidableEq K] [Inhabited K]
    [Inhabited V] (hashF : K → Nat) (s : OpenHT.Table K V) (k : K) :
    ∀ (rem i it : Nat), i ≤ it → it < i + rem →
      OpenHT.probeMatch hashF s k it = true →
      (∀ u, i ≤ u → u < it → OpenHT.probeEmpty hashF s k u = false) →
      ∃ j, (OpenHT.findIndexLoop hashF s k i rem).1 = some j ∧
        (OpenHT.slotAt s j).status = .ACTIVE ∧
        (OpenHT.slotAt s j).data.1 = k ∧ ∃ u, j = OpenHT.hash_code hashF s k u := by
  intro rem
  induction rem with
  | zero => intro i it h1 h2 h3 h4; exact absurd h2 (by omega)
  | succ rem ih =>
      intro i it h1 h2 h3 h4
      rcases Nat.eq_or_lt_of_le h1 with rfl | hgt
      · have hm := h3
        simp only [OpenHT.probeMatch, Bool.and_eq_true, decide_eq_true_eq] at hm
        refine ⟨OpenHT.hash_code hashF s k i, ?_, hm.1, hm.2, i, rfl⟩
        simp only [OpenHT.findIndexLoop, hm.1]
        rw [if_pos hm.2]
      · cases hst : (OpenHT.slotAt s (OpenHT.hash_code hashF s k i)).status with
        | EMPTY =>
            exfalso
            have := h4 i (le_refl i) hgt
            rw [show OpenHT.probeEmpty hashF s k i = true from by
              simp [OpenHT.probeEmpty, hst]] at this
            cases this
        | ACTIVE =>
            by_cases hk : (OpenHT.slotAt s (OpenHT.hash_code hashF s k i)).data.1 = k
            · refine ⟨OpenHT.hash_code hashF s k i, ?_, hst, hk, i, rfl⟩
              simp only [OpenHT.findIndexLoop, hst]
              rw [if_pos hk]
            · obtain ⟨j, hj1, hj2, hj3, hj4⟩ := ih (i + 1) it hgt (by omega) h3
                (fun u hu1 hu2 => h4 u (by omega) hu2)
              refine ⟨j, ?_, hj2, hj3, hj4⟩
              simp only [OpenHT.findIndexLoop, hst]
              rw [if_neg hk]
              exact hj1
        | DELETED =>
            obtain ⟨j, hj1, hj2, hj3, hj4⟩ := ih (i + 1) it hgt (by omega) h3
              (fun u hu1 hu2 => h4 u (by omega) hu2)
            refine ⟨j, ?_, hj2, hj3, hj4⟩
            simp only [OpenHT.findIndexLoop, hst]
            exact hj1

/-- Whatever slot the findIndex loop returns is an ACTIVE slot holding the
key, reached by some probe attempt. -/
theorem oh_findIndexLoop_mem {K V : Type} [DecidableEq K] [Inhabited K]
    [Inhabited V] (hashF : K → Nat) (s : OpenHT.Table K V) (k : K) :
    ∀ (rem i j : Nat), (OpenHT.findIndexLoop hashF s k i rem).1 = some j →
      (OpenHT.slotAt s j).status = .ACTIVE ∧ (OpenHT.slotAt s j).data.1 = k ∧
      ∃ u, j = OpenHT.hash_code hashF s k u := by
  intro rem
  induction rem with
  | zero => intro i j h; cases h
  | succ rem ih =>
      intro i j h
      cases hst : (OpenHT.slotAt s (OpenHT.hash_code hashF s k i)).status with
      | EMPTY =>
          rw [show (OpenHT.findIndexLoop hashF s k i (rem + 1)).1 = none from by
            simp only [OpenHT.findIndexLoop, hst]] at h
          cases h
      | ACTIVE =>
          by_cases hk : (OpenHT.slotAt s (OpenHT.hash_code hashF s k i)).data.1 = k
          · rw [show (OpenHT.findIndexLoop hashF s k i (rem + 1)).1 =
                some (OpenHT.hash_code hashF s k i) from by
              simp only [OpenHT.findIndexLoop, hst]
              rw [if_pos hk]] at h
            injection h with h2
            subst h2
            exact ⟨hst, hk, i, rfl⟩
          · rw [show (OpenHT.findIndexLoop hashF s k i (rem + 1)).1 =
                (OpenHT.findIndexLoop hashF s k (i + 1) rem).1 from by
              simp only [OpenHT.findIndexLoop, hst]
              rw [if_neg hk]] at h
            exact ih (i + 1) j h
      | DELETED =>
          rw [show (OpenHT.findIndexLoop hashF s k i (rem + 1)).1 =
              (OpenHT.findIndexLoop hashF s k (i + 1) rem).1 from by
            simp only [OpenHT.findIndexLoop, hst]] at h
          exact ih (i + 1) j h

/-- OpenHashTable::at misses when no ACTIVE in-range slot holds the key. -/
theorem oh_atDict_none_of_no {K V : Type} [DecidableEq K] [Inhabited K]
    [Inhabited V] (hashF : K → Nat) (s : OpenHT.Table K V) (k : K)
    (hlen : s.m_table.length = s.m_table_size)
    (hno : ∀ j, j < s.m_table_size → (OpenHT.slotAt s j).status = .ACTIVE →
      (OpenHT.slotAt s j).data.1 ≠ k) :
    OpenHT.atDict hashF s k = none := by
  have hno2 : ∀ j, (OpenHT.slotAt s j).status = .ACTIVE →
      (OpenHT.slotAt s j).data.1 ≠ k := by
    intro j hact
    by_cases hj : j < s.m_table_size
    · exact hno j hj hact
    · exfalso
      rw [show OpenHT.slotAt s j = OpenHT.emptySlot from by
        rw [OpenHT.slotAt,
          List.get?_eq_none.mpr (show s.m_table.length ≤ j by omega)]
        rfl] at hact
      simp [OpenHT.emptySlot] at hact
  rw [OpenHT.atDict, OpenHT.findIndex, oh_findIndexLoop_none hashF s k hno2]
  rfl

/-- On a well-formed table, OpenHashTable::at finds the value of the (by
uniqueness unique) ACTIVE slot holding the key. -/
theorem oh_atDict_of_active {K V : Type} [DecidableEq K] [Inhabited K]
    [Inhabited V] (hashF : K → Nat) (s : OpenHT.Table K V) (k : K)
    (hwf : OpenHT.WF hashF s) (j : Nat) (hj : j < s.m_table_size)
    (hact : (OpenHT.slotAt s j).status = .ACTIVE)
    (hkey : (OpenHT.slotAt s j).data.1 = k) :
    OpenHT.atDict hashF s k = some ((OpenHT.slotAt s j).data.2) := by
  obtain ⟨hlen, hpos, hreach, huniq, hcnt⟩ := hwf
  obtain ⟨i, hi, hhash, hnoE⟩ := hreach j hj hact
  rw [hkey] at hhash hnoE
  have hm : OpenHT.probeMatch hashF s k i = true := by
    simp only [OpenHT.probeMatch, hhash]
    simp [hact, hkey]
  have hnoE2 : ∀ u, 0 ≤ u → u < i → OpenHT.probeEmpty hashF s k u = false :=
    fun u _ hu => Bool.eq_false_iff.mpr (hnoE u hu)
  obtain ⟨j2, hj2eq, hj2act, hj2key, u, rfl⟩ := oh_findIndexLoop_some hashF s k
    s.m_table_size 0 i (Nat.zero_le i) (by omega) hm hnoE2
  have hj2lt : OpenHT.hash_code hashF s k u < s.m_table_size :=
    Nat.mod_lt _ hpos
  have hj2j : OpenHT.hash_code hashF s k u = j :=
    huniq _ j hj2lt hj hj2act hact (hj2key.trans hkey.symm)
  rw [OpenHT.atDict, OpenHT.findIndex, hj2eq, hj2j]
  rfl

/-- Whatever OpenHashTable::at returns is stored in some in-range ACTIVE
slot holding the key. -/
theorem oh_atDict_some_inv {K V : Type} [DecidableEq K] [Inhabited K]
    [Inhabited V] (hashF : K → Nat) (s : OpenHT.Table K V) (k : K)
    (hpos : 0 < s.m_table_size) (v : V)
    (h : OpenHT.atDict hashF s k = some v) :
    ∃ j, j < s.m_table_size ∧ (OpenHT.slotAt s j).status = .ACTIVE ∧
      (OpenHT.slotAt s j).data.1 = k ∧ (OpenHT.slotAt s j).data.2 = v := by
  rw [OpenHT.atDict, OpenHT.findIndex] at h
  rcases hfi : (OpenHT.findIndexLoop hashF s k 0 s.m_table_size).1 with _ | j
  · rw [hfi] at h
    cases h
  · rw [hfi] at h
    obtain ⟨hact, hkey, u, rfl⟩ := oh_findIndexLoop_mem hashF s k _ 0 j hfi
    refine ⟨_, Nat.mod_lt _ hpos, hact, hkey, ?_⟩
    simpa using h

/-- An ACTIVE slot holding the key forces the spec-side scanned prefix to
contain a match. -/
theorem oh_specMatch_of_active {K V : Type} [DecidableEq K] [Inhabited K]
    [Inhabited V] (hashF : K → Nat) (s : OpenHT.Table K V) (k : K)
    (hwf : OpenHT.WF hashF s) (j : Nat) (hj : j < s.m_table_size)
    (hact : (OpenHT.slotAt s j).status = .ACTIVE)
    (hkey : (OpenHT.slotAt s j).data.1 = k) :
    (OpenHT.specMatch hashF s k).isSome = true := by
  obtain ⟨hlen, hpos, hreach, huniq, hcnt⟩ := hwf
  obtain ⟨i, hi, hhash, hnoE⟩ := hreach j hj hact
  rw [hkey] at hhash hnoE
  have hm : OpenHT.probeMatch hashF s k i = true := by
    simp only [OpenHT.probeMatch, hhash]
    simp [hact, hkey]
  rcases hsm : OpenHT.specMatch hashF s k with _ | t
  · exfalso
    rw [OpenHT.specMatch] at hsm
    have hstop : i < OpenHT.specStop hashF s k := by
      rw [OpenHT.specStop]
      rcases he : OpenHT.specFirstEmpty hashF s k with _ | e
      · simpa using hi
      · simp only [Option.getD]
        rw [OpenHT.specFirstEmpty] at he
        obtain ⟨he0, helt, hep, hepre⟩ := firstIdx_some _ _ _ e he
        by_contra hcon
        push_neg at hcon
        rcases Nat.eq_or_lt_of_le hcon with rfl | helt2
        · simp only [OpenHT.probeEmpty, decide_eq_true_eq] at hep
          rw [hhash] at hep
          simp only [OpenHT.probeMatch, hhash, Bool.and_eq_true,
            decide_eq_true_eq] at hm
          rw [hm.1] at hep
          cases hep
        · exact (hnoE e helt2) hep
    have := firstIdx_none _ _ _ hsm i (Nat.zero_le i) (by simpa using hstop)
    rw [hm] at this
    cases this
  · rfl

/-- Flipping one in-range position of a Boolean predicate from false to
true adds exactly one to the count over a range. -/
theorem filter_range_flip (p p2 : Nat → Bool) :
    ∀ (n idx : Nat), idx < n → (∀ x, x ≠ idx → p2 x = p x) → p idx = false →
      p2 idx = true →
      ((List.range n).filter p2).length = ((List.range n).filter p).length + 1 := by
  intro n
  induction n with
  | zero => intro idx h; omega
  | succ n ih =>
      intro idx hidx hsame hold hnew
      rw [List.range_succ, List.filter_append, List.filter_append,
        List.length_append, List.length_append]
      by_cases hn : idx = n
      · subst hn
        have hpre : (List.range idx).filter p2 = (List.range idx).filter p := by
          apply List.filter_congr
          intro x hx
          exact hsame x (by have := List.mem_range.mp hx; omega)
        rw [hpre, show List.filter p2 [idx] = [idx] from by simp [List.filter, hnew],
          show List.filter p [idx] = [] from by simp [List.filter, hold]]
        simp
      · have hlast : List.filter p2 [n] = List.filter p [n] :=
          List.filter_congr (fun a ha => by
            rw [List.mem_singleton.mp ha]
            exact hsame n (by omega))
        rw [hlast, ih idx (by omega) hsame hold hnew]
        omega

/-- The findIndex loop depends only on the slot array and the table size. -/
theorem oh_findIndexLoop_congr {K V : Type} [DecidableEq K] [Inhabited K]
    [Inhabited V] (hashF : K → Nat) (s t : OpenHT.Table K V) (k : K)
    (htab : s.m_table = t.m_table) (hsz : s.m_table_size = t.m_table_size) :
    ∀ (rem i : Nat),
      OpenHT.findIndexLoop hashF s k i rem = OpenHT.findIndexLoop hashF t k i rem := by
  intro rem
  induction rem with
  | zero => intro i; rfl
  | succ rem ih =>
      intro i
      have hhc : OpenHT.hash_code hashF s k i = OpenHT.hash_code hashF t k i := by
        rw [OpenHT.hash_code, OpenHT.hash_code, hsz]
      have hsl : OpenHT.slotAt s (OpenHT.hash_code hashF t k i) =
          OpenHT.slotAt t (OpenHT.hash_code hashF t k i) := by
        rw [OpenHT.slotAt, OpenHT.slotAt, htab]
      cases hst : (OpenHT.slotAt t (OpenHT.hash_code hashF t k i)).status with
      | EMPTY => simp only [OpenHT.findIndexLoop, hsl, hhc, hst]
      | ACTIVE =>
          simp only [OpenHT.findIndexLoop, hsl, hhc, hst]
          rw [ih (i + 1)]
      | DELETED =>
          simp only [OpenHT.findIndexLoop, hsl, hhc, hst]
          rw [ih (i + 1)]

/-- OpenHashTable::at depends only on the slot array and the table size
(in particular the instrumentation counters do not affect it). -/
theorem oh_atDict_congr {K V : Type} [DecidableEq K] [Inhabited K]
    [Inhabited V] (hashF : K → Nat) (s t : OpenHT.Table K V)
    (htab : s.m_table = t.m_table) (hsz : s.m_table_size = t.m_table_size)
    (k : K) : OpenHT.atDict hashF s k = OpenHT.atDict hashF t k := by
  have hfun : (fun idx => (OpenHT.slotAt s idx).data.2) =
      (fun idx => (OpenHT.slotAt t idx).data.2) := by
    funext idx
    rw [OpenHT.slotAt, OpenHT.slotAt, htab]
  rw [OpenHT.atDict, OpenHT.atDict, OpenHT.findIndex, OpenHT.findIndex, hsz,
    oh_findIndexLoop_congr hashF s t k htab hsz, hfun]

/-- Unfolding of the EMPTY probe test. -/
theorem oh_probeEmpty_iff {K V : Type} [DecidableEq K] [Inhabited K]
    [Inhabited V] (hashF : K → Nat) (s : OpenHT.Table K V) (k : K) (u : Nat) :
    OpenHT.probeEmpty hashF s k u = true ↔
      (OpenHT.slotAt s (OpenHT.hash_code hashF s k u)).status =
        HashTableStatus.EMPTY := by
  simp [OpenHT.probeEmpty]

/-- The probing-and-placement part of OpenHashTable::insert (everything
after the load-factor check), run on a well-formed table s1 that preserves
the observations of a reference table s0: a successful return meets the
insert contract relative to s0. -/
theorem oh_insertCore_body_spec {K V : Type} [DecidableEq K] [Inhabited K]
    [Inhabited V] (hashF : K → Nat) (s0 s1 : OpenHT.Table K V) (kv : K × V)
    (hwf1 : OpenHT.WF hashF s1)
    (hcnt1 : s1.m_number_of_elements = s0.m_number_of_elements)
    (hat1 : ∀ k2, OpenHT.atDict hashF s1 k2 = OpenHT.atDict hashF s0 k2) :
    ∀ s2 : OpenHT.Table K V,
      (if (OpenHT.probeLoop hashF s1 kv.1 0 s1.m_table_size none).found = true then
        Except.ok { s1 with
          comparisons := s1.comparisons +
            (OpenHT.probeLoop hashF s1 kv.1 0 s1.m_table_size none).dcomp,
          collisions := s1.collisions +
            (OpenHT.probeLoop hashF s1 kv.1 0 s1.m_table_size none).dcoll }
      else
        (((OpenHT.probeLoop hashF s1 kv.1 0 s1.m_table_size
            none).firstDeleted).elim
          (OpenHT.probeLoop hashF s1 kv.1 0 s1.m_table_size none).hashIndex
          some).elim (Except.error ()) (fun idx => Except.ok { s1 with
            m_table := s1.m_table.set idx ⟨kv, HashTableStatus.ACTIVE⟩,
            m_number_of_elements := s1.m_number_of_elements + 1,
            comparisons := s1.comparisons +
              (OpenHT.probeLoop hashF s1 kv.1 0 s1.m_table_size none).dcomp,
            collisions := s1.collisions +
              (OpenHT.probeLoop hashF s1 kv.1 0 s1.m_table_size none).dcoll })) =
        Except.ok s2 →
      OpenHT.InsSpec hashF s0 s2 kv := by
  intro s2 hok
  obtain ⟨htop1, htop2⟩ := oh_probe_top hashF s1 kv.1
  have hwf1c := hwf1
  obtain ⟨hlen1, hpos1, hreach1, huniq1, hcount1⟩ := hwf1c
  by_cases hfound : (OpenHT.probeLoop hashF s1 kv.1 0 s1.m_table_size none).found
      = true
  · -- duplicate key: only the counters move
    rw [if_pos hfound] at hok
    injection hok with h2
    subst h2
    have hsm := htop1.mp hfound
    rcases hsmv : OpenHT.specMatch hashF s1 kv.1 with _ | t
    · rw [hsmv] at hsm
      cases hsm
    · have hsmi := hsmv
      rw [OpenHT.specMatch] at hsmi
      obtain ⟨-, -, hpmt, -⟩ := firstIdx_some _ _ _ t hsmi
      simp only [OpenHT.probeMatch, Bool.and_eq_true, decide_eq_true_eq] at hpmt
      have hat_s1 : OpenHT.atDict hashF s1 kv.1 =
          some ((OpenHT.slotAt s1 (OpenHT.hash_code hashF s1 kv.1 t)).data.2) :=
        oh_atDict_of_active hashF s1 kv.1 hwf1 _ (Nat.mod_lt _ hpos1)
          hpmt.1 hpmt.2
      have hat_s0 : OpenHT.atDict hashF s0 kv.1 =
          some ((OpenHT.slotAt s1 (OpenHT.hash_code hashF s1 kv.1 t)).data.2) := by
        rw [← hat1 kv.1]
        exact hat_s1
      refine ⟨hwf1, ?_, ?_⟩
      · rw [show ({ s1 with
            comparisons := s1.comparisons +
              (OpenHT.probeLoop hashF s1 kv.1 0 s1.m_table_size none).dcomp,
            collisions := s1.collisions +
              (OpenHT.probeLoop hashF s1 kv.1 0 s1.m_table_size none).dcoll } :
            OpenHT.Table K V).m_number_of_elements =
            s1.m_number_of_elements from rfl, hcnt1, hat_s0]
        rfl
      · intro k2
        rw [if_neg (fun hcon => by rw [hat_s0] at hcon; simp at hcon)]
        rw [oh_atDict_congr hashF ({ s1 with
            comparisons := s1.comparisons +
              (OpenHT.probeLoop hashF s1 kv.1 0 s1.m_table_size none).dcomp,
            collisions := s1.collisions +
              (OpenHT.probeLoop hashF s1 kv.1 0 s1.m_table_size none).dcoll } :
            OpenHT.Table K V) s1 rfl rfl k2]
        exact hat1 k2
  · -- new key: placed at the chosen slot
    rw [if_neg hfound] at hok
    have hfoundF : (OpenHT.probeLoop hashF s1 kv.1 0 s1.m_table_size none).found
        = false := Bool.eq_false_iff.mpr hfound
    obtain ⟨hhI, hfD⟩ := htop2 hfoundF
    have hnoact : ∀ j, j < s1.m_table_size →
        (OpenHT.slotAt s1 j).status = .ACTIVE →
        (OpenHT.slotAt s1 j).data.1 ≠ kv.1 := by
      intro j hj hact hkey
      exact hfound (htop1.mpr
        (oh_specMatch_of_active hashF s1 kv.1 hwf1 j hj hact hkey))
    have hat_none1 : OpenHT.atDict hashF s1 kv.1 = none :=
      oh_atDict_none_of_no hashF s1 kv.1 hlen1 hnoact
    have hat_none : OpenHT.atDict hashF s0 kv.1 = none := by
      rw [← hat1 kv.1]
      exact hat_none1
    have hsm_none : OpenHT.specMatch hashF s1 kv.1 = none := by
      rcases hsmv : OpenHT.specMatch hashF s1 kv.1 with _ | t
      · rfl
      · exfalso
        exact hfound (htop1.mpr (by rw [hsmv]; rfl))
    have hpm_stop : ∀ u, u < OpenHT.specStop hashF s1 kv.1 →
        OpenHT.probeMatch hashF s1 kv.1 u = false := by
      intro u hu
      have := hsm_none
      rw [OpenHT.specMatch] at this
      exact firstIdx_none _ _ _ this u (Nat.zero_le u) (by simpa using hu)
    have hpe_stop : ∀ u, u < OpenHT.specStop hashF s1 kv.1 →
        OpenHT.probeEmpty hashF s1 kv.1 u = false := by
      intro u hu
      rw [OpenHT.specStop] at hu
      rcases he : OpenHT.specFirstEmpty hashF s1 kv.1 with _ | e
      · rw [he] at hu
        rw [OpenHT.specFirstEmpty] at he
        exact firstIdx_none _ _ _ he u (Nat.zero_le u) (by simpa using hu)
      · rw [he] at hu
        simp only [Option.getD] at hu
        rw [OpenHT.specFirstEmpty] at he
        exact (firstIdx_some _ _ _ e he).2.2.2 u (Nat.zero_le u) hu
    have hstop_le : OpenHT.specStop hashF s1 kv.1 ≤ s1.m_table_size := by
      rw [OpenHT.specStop]
      rcases he : OpenHT.specFirstEmpty hashF s1 kv.1 with _ | e
      · simp
      · rw [OpenHT.specFirstEmpty] at he
        have := (firstIdx_some _ _ _ e he).2.1
        simp only [Option.getD]
        omega
    rcases hplace : ((OpenHT.probeLoop hashF s1 kv.1 0 s1.m_table_size
        none).firstDeleted).elim
        (OpenHT.probeLoop hashF s1 kv.1 0 s1.m_table_size none).hashIndex
        some with _ | idx
    · rw [hplace] at hok
      simp [Option.elim] at hok
    · rw [hplace] at hok
      have hok2 : Except.ok ({ s1 with
          m_table := s1.m_table.set idx ⟨kv, HashTableStatus.ACTIVE⟩,
          m_number_of_elements := s1.m_number_of_elements + 1,
          comparisons := s1.comparisons +
            (OpenHT.probeLoop hashF s1 kv.1 0 s1.m_table_size none).dcomp,
          collisions := s1.collisions +
            (OpenHT.probeLoop hashF s1 kv.1 0 s1.m_table_size none).dcoll } :
          OpenHT.Table K V) = Except.ok s2 := hok
      injection hok2 with h2
      subst h2
      -- the placement attempt
      have hplaceinfo : ∃ a, a < s1.m_table_size ∧
          idx = OpenHT.hash_code hashF s1 kv.1 a ∧
          (OpenHT.slotAt s1 idx).status ≠ .ACTIVE ∧
          ∀ u, u < a →
            (OpenHT.slotAt s1 (OpenHT.hash_code hashF s1 kv.1 u)).status =
              .ACTIVE ∧
            (OpenHT.slotAt s1 (OpenHT.hash_code hashF s1 kv.1 u)).data.1 ≠
              kv.1 := by
        rcases hfd : (OpenHT.probeLoop hashF s1 kv.1 0 s1.m_table_size
            none).firstDeleted with _ | d
        · -- no tombstone seen: placed at the first EMPTY attempt
          rw [hfd] at hplace
          have hplace2 : (OpenHT.probeLoop hashF s1 kv.1 0 s1.m_table_size
              none).hashIndex = some idx := hplace
          rw [hfd] at hfD
          rw [hplace2] at hhI
          rcases hfe : OpenHT.specFirstEmpty hashF s1 kv.1 with _ | e
          · rw [hfe] at hhI
            cases hhI
          · rw [hfe] at hhI
            have hidx_e : idx = OpenHT.hash_code hashF s1 kv.1 e := by
              simpa using hhI
            rw [OpenHT.specFirstEmpty] at hfe
            obtain ⟨-, helt, hep, -⟩ := firstIdx_some _ _ _ e hfe
            have hstop_e : OpenHT.specStop hashF s1 kv.1 = e := by
              rw [OpenHT.specStop, OpenHT.specFirstEmpty, hfe]
              rfl
            have hfd_none : OpenHT.specFirstDeleted hashF s1 kv.1 = none := by
              rcases hfdv : OpenHT.specFirstDeleted hashF s1 kv.1 with _ | d2
              · rfl
              · rw [hfdv] at hfD
                cases hfD
            have hpd_pre : ∀ u, u < e →
                OpenHT.probeDeleted hashF s1 kv.1 u = false := by
              intro u hu
              have := hfd_none
              rw [OpenHT.specFirstDeleted] at this
              exact firstIdx_none _ _ _ this u (Nat.zero_le u)
                (by rw [hstop_e] at *; simpa using hu)
            refine ⟨e, by simpa using helt, hidx_e, ?_, ?_⟩
            · rw [hidx_e]
              simp only [OpenHT.probeEmpty, decide_eq_true_eq] at hep
              rw [hep]
              intro hcon
              cases hcon
            · intro u hu
              have hpe_u := hpe_stop u (by omega)
              have hpd_u := hpd_pre u hu
              have hpm_u := hpm_stop u (by omega)
              simp only [OpenHT.probeEmpty, decide_eq_true_eq,
                decide_eq_false_iff_not] at hpe_u
              simp only [OpenHT.probeDeleted, decide_eq_true_eq,
                decide_eq_false_iff_not] at hpd_u
              cases hsu : (OpenHT.slotAt s1
                  (OpenHT.hash_code hashF s1 kv.1 u)).status with
              | EMPTY => exact absurd hsu hpe_u
              | DELETED => exact absurd hsu hpd_u
              | ACTIVE =>
                  refine ⟨rfl, ?_⟩
                  intro hkcon
                  rw [show OpenHT.probeMatch hashF s1 kv.1 u = true from by
                    simp [OpenHT.probeMatch, hsu, hkcon]] at hpm_u
                  cases hpm_u
        · -- placed at the remembered first tombstone
          rw [hfd] at hplace
          have hd_idx : d = idx := by
            have h2 : some d = some idx := hplace
            injection h2
          rw [hd_idx] at hfd
          rw [hfd] at hfD
          rcases hfdv : OpenHT.specFirstDeleted hashF s1 kv.1 with _ | a
          · rw [hfdv] at hfD
            cases hfD
          · rw [hfdv] at hfD
            have hidx_a : idx = OpenHT.hash_code hashF s1 kv.1 a := by
              simpa using hfD
            have hfda := hfdv
            rw [OpenHT.specFirstDeleted] at hfda
            obtain ⟨-, halt, hap, hapre⟩ := firstIdx_some _ _ _ a hfda
            have halt2 : a < OpenHT.specStop hashF s1 kv.1 := by simpa using halt
            refine ⟨a, by omega, hidx_a, ?_, ?_⟩
            · rw [hidx_a]
              simp only [OpenHT.probeDeleted, decide_eq_true_eq] at hap
              rw [hap]
              intro hcon
              cases hcon
            · intro u hu
              have hpe_u := hpe_stop u (by omega)
              have hpd_u := hapre u (Nat.zero_le u) hu
              have hpm_u := hpm_stop u (by omega)
              simp only [OpenHT.probeEmpty, decide_eq_true_eq,
                decide_eq_false_iff_not] at hpe_u
              simp only [OpenHT.probeDeleted, decide_eq_true_eq,
                decide_eq_false_iff_not] at hpd_u
              cases hsu : (OpenHT.slotAt s1
                  (OpenHT.hash_code hashF s1 kv.1 u)).status with
              | EMPTY => exact absurd hsu hpe_u
              | DELETED => exact absurd hsu hpd_u
              | ACTIVE =>
                  refine ⟨rfl, ?_⟩
                  intro hkcon
                  rw [show OpenHT.probeMatch hashF s1 kv.1 u = true from by
                    simp [OpenHT.probeMatch, hsu, hkcon]] at hpm_u
                  cases hpm_u
      obtain ⟨a, ha_lt, ha_idx, ha_stat, ha_pre⟩ := hplaceinfo
      have hidxlt : idx < s1.m_table_size := by
        rw [ha_idx]
        exact Nat.mod_lt _ hpos1
      have hidxlen : idx < s1.m_table.length := by omega
      have hslot : ∀ x, OpenHT.slotAt ({ s1 with
          m_table := s1.m_table.set idx ⟨kv, HashTableStatus.ACTIVE⟩,
          m_number_of_elements := s1.m_number_of_elements + 1,
          comparisons := s1.comparisons +
            (OpenHT.probeLoop hashF s1 kv.1 0 s1.m_table_size none).dcomp,
          collisions := s1.collisions +
            (OpenHT.probeLoop hashF s1 kv.1 0 s1.m_table_size none).dcoll } :
          OpenHT.Table K V) x =
          if x = idx then ⟨kv, HashTableStatus.ACTIVE⟩ else OpenHT.slotAt s1 x := by
        intro x
        by_cases hx : x = idx
        · subst hx
          rw [if_pos rfl]
          simp [OpenHT.slotAt, List.get?_eq_getElem?, List.getElem?_set_eq hidxlen]
        · rw [if_neg hx]
          simp [OpenHT.slotAt, List.get?_eq_getElem?,
            List.getElem?_set_ne (fun hcon => hx hcon.symm)]
      have hwf2 : OpenHT.WF hashF ({ s1 with
          m_table := s1.m_table.set idx ⟨kv, HashTableStatus.ACTIVE⟩,
          m_number_of_elements := s1.m_number_of_elements + 1,
          comparisons := s1.comparisons +
            (OpenHT.probeLoop hashF s1 kv.1 0 s1.m_table_size none).dcomp,
          collisions := s1.collisions +
            (OpenHT.probeLoop hashF s1 kv.1 0 s1.m_table_size none).dcoll } :
          OpenHT.Table K V) := by
        refine ⟨by simpa [List.length_set] using hlen1, hpos1, ?_, ?_, ?_⟩
        · -- reachability
          intro j hj hact2
          rw [hslot j] at hact2 ⊢
          by_cases hji : j = idx
          · rw [if_pos hji] at hact2 ⊢
            subst hji
            refine ⟨a, ha_lt, ?_, ?_⟩
            · show OpenHT.hash_code hashF s1 kv.1 a = j
              exact ha_idx.symm
            · intro i2 hi2
              intro hcon
              have hcon2 : (OpenHT.slotAt ({ s1 with
                  m_table := s1.m_table.set j ⟨kv, HashTableStatus.ACTIVE⟩,
                  m_number_of_elements := s1.m_number_of_elements + 1,
                  comparisons := s1.comparisons +
                    (OpenHT.probeLoop hashF s1 kv.1 0 s1.m_table_size none).dcomp,
                  collisions := s1.collisions +
                    (OpenHT.probeLoop hashF s1 kv.1 0 s1.m_table_size
                      none).dcoll } : OpenHT.Table K V)
                  (OpenHT.hash_code hashF s1 kv.1 i2)).status =
                  HashTableStatus.EMPTY :=
                (oh_probeEmpty_iff hashF _ kv.1 i2).mp hcon
              rw [hslot] at hcon2
              obtain ⟨hpre1, -⟩ := ha_pre i2 hi2
              rw [if_neg (fun hcon3 => by
                rw [hcon3] at hpre1
                exact ha_stat hpre1)] at hcon2
              rw [hpre1] at hcon2
              cases hcon2
          · rw [if_neg hji] at hact2 ⊢
            obtain ⟨i2, hi2, hhash2, hnoE2⟩ := hreach1 j hj hact2
            refine ⟨i2, hi2, hhash2, ?_⟩
            intro i3 hi3
            intro hcon
            apply hnoE2 i3 hi3
            rw [oh_probeEmpty_iff]
            have hcon2 : (OpenHT.slotAt ({ s1 with
                m_table := s1.m_table.set idx ⟨kv, HashTableStatus.ACTIVE⟩,
                m_number_of_elements := s1.m_number_of_elements + 1,
                comparisons := s1.comparisons +
                  (OpenHT.probeLoop hashF s1 kv.1 0 s1.m_table_size none).dcomp,
                collisions := s1.collisions +
                  (OpenHT.probeLoop hashF s1 kv.1 0 s1.m_table_size
                    none).dcoll } : OpenHT.Table K V)
                (OpenHT.hash_code hashF s1 (OpenHT.slotAt s1 j).data.1
                  i3)).status = HashTableStatus.EMPTY :=
              (oh_probeEmpty_iff hashF _ _ i3).mp hcon
            rw [hslot] at hcon2
            by_cases hci : OpenHT.hash_code hashF s1 (OpenHT.slotAt s1 j).data.1
                i3 = idx
            · rw [if_pos hci] at hcon2
              cases hcon2
            · rw [if_neg hci] at hcon2
              exact hcon2
        · -- uniqueness
          intro j1 j2 hj1 hj2 hact1 hact2 hkeq
          rw [hslot j1] at hact1 hkeq
          rw [hslot j2] at hact2 hkeq
          by_cases h1i : j1 = idx <;> by_cases h2i : j2 = idx
          · rw [h1i, h2i]
          · exfalso
            rw [if_pos h1i] at hkeq
            rw [if_neg h2i] at hact2 hkeq
            exact hnoact j2 (by simpa using hj2) hact2 (by simpa using hkeq.symm)
          · exfalso
            rw [if_neg h1i] at hact1 hkeq
            rw [if_pos h2i] at hkeq
            exact hnoact j1 (by simpa using hj1) hact1 (by simpa using hkeq)
          · rw [if_neg h1i] at hact1 hkeq
            rw [if_neg h2i] at hact2 hkeq
            exact huniq1 j1 j2 (by simpa using hj1) (by simpa using hj2)
              hact1 hact2 hkeq
        · -- counting
          have hsame2 : ∀ x, x ≠ idx →
              (decide ((OpenHT.slotAt ({ s1 with
                m_table := s1.m_table.set idx ⟨kv, HashTableStatus.ACTIVE⟩,
                m_number_of_elements := s1.m_number_of_elements + 1,
                comparisons := s1.comparisons +
                  (OpenHT.probeLoop hashF s1 kv.1 0 s1.m_table_size none).dcomp,
                collisions := s1.collisions +
                  (OpenHT.probeLoop hashF s1 kv.1 0 s1.m_table_size none).dcoll } :
                OpenHT.Table K V) x).status = HashTableStatus.ACTIVE) : Bool) =
              decide ((OpenHT.slotAt s1 x).status = HashTableStatus.ACTIVE) := by
            intro x hx
            rw [hslot x, if_neg hx]
          have hold2 : (decide ((OpenHT.slotAt s1 idx).status =
              HashTableStatus.ACTIVE) : Bool) = false := by
            simp only [decide_eq_false_iff_not]
            exact fun hcon => ha_stat hcon
          have hnew2 : (decide ((OpenHT.slotAt ({ s1 with
              m_table := s1.m_table.set idx ⟨kv, HashTableStatus.ACTIVE⟩,
              m_number_of_elements := s1.m_number_of_elements + 1,
              comparisons := s1.comparisons +
                (OpenHT.probeLoop hashF s1 kv.1 0 s1.m_table_size none).dcomp,
              collisions := s1.collisions +
                (OpenHT.probeLoop hashF s1 kv.1 0 s1.m_table_size none).dcoll } :
              OpenHT.Table K V) idx).status = HashTableStatus.ACTIVE) : Bool) =
              true := by
            rw [hslot idx, if_pos rfl]
            simp
          show s1.m_number_of_elements + 1 =
            ((List.range s1.m_table_size).filter
              (fun j => decide ((OpenHT.slotAt ({ s1 with
                m_table := s1.m_table.set idx ⟨kv, HashTableStatus.ACTIVE⟩,
                m_number_of_elements := s1.m_number_of_elements + 1,
                comparisons := s1.comparisons +
                  (OpenHT.probeLoop hashF s1 kv.1 0 s1.m_table_size none).dcomp,
                collisions := s1.collisions +
                  (OpenHT.probeLoop hashF s1 kv.1 0 s1.m_table_size none).dcoll } :
                OpenHT.Table K V) j).status = HashTableStatus.ACTIVE))).length
          rw [filter_range_flip
            (fun j => decide ((OpenHT.slotAt s1 j).status = HashTableStatus.ACTIVE))
            (fun j => decide ((OpenHT.slotAt ({ s1 with
              m_table := s1.m_table.set idx ⟨kv, HashTableStatus.ACTIVE⟩,
              m_number_of_elements := s1.m_number_of_elements + 1,
              comparisons := s1.comparisons +
                (OpenHT.probeLoop hashF s1 kv.1 0 s1.m_table_size none).dcomp,
              collisions := s1.collisions +
                (OpenHT.probeLoop hashF s1 kv.1 0 s1.m_table_size none).dcoll } :
              OpenHT.Table K V) j).status = HashTableStatus.ACTIVE))
            s1.m_table_size idx hidxlt hsame2 hold2 hnew2]
          rw [hcount1]
      refine ⟨hwf2, ?_, ?_⟩
      · show s1.m_number_of_elements + 1 = _
        rw [hcnt1, hat_none]
        rfl
      · intro k2
        by_cases hk2 : k2 = kv.1
        · subst hk2
          rw [if_pos ⟨rfl, by rw [hat_none]; rfl⟩]
          have h2 : OpenHT.atDict hashF ({ s1 with
              m_table := s1.m_table.set idx ⟨kv, HashTableStatus.ACTIVE⟩,
              m_number_of_elements := s1.m_number_of_elements + 1,
              comparisons := s1.comparisons +
                (OpenHT.probeLoop hashF s1 kv.1 0 s1.m_table_size none).dcomp,
              collisions := s1.collisions +
                (OpenHT.probeLoop hashF s1 kv.1 0 s1.m_table_size none).dcoll } :
              OpenHT.Table K V) kv.1 = some ((OpenHT.slotAt ({ s1 with
              m_table := s1.m_table.set idx ⟨kv, HashTableStatus.ACTIVE⟩,
              m_number_of_elements := s1.m_number_of_elements + 1,
              comparisons := s1.comparisons +
                (OpenHT.probeLoop hashF s1 kv.1 0 s1.m_table_size none).dcomp,
              collisions := s1.collisions +
                (OpenHT.probeLoop hashF s1 kv.1 0 s1.m_table_size none).dcoll } :
              OpenHT.Table K V) idx).data.2) :=
            oh_atDict_of_active hashF _ kv.1 hwf2 idx hidxlt
              (by rw [hslot idx, if_pos rfl]) (by rw [hslot idx, if_pos rfl])
          rw [h2, hslot idx, if_pos rfl]
        · rw [if_neg (fun hcon => hk2 hcon.1)]
          rw [← hat1 k2]
          rcases hv : OpenHT.atDict hashF s1 k2 with _ | v
          · rw [oh_atDict_none_of_no hashF _ k2
              (by simpa [List.length_set] using hlen1) ?_]
            · intro j hj hact2 hkey2
              rw [hslot j] at hact2 hkey2
              by_cases hji : j = idx
              · rw [if_pos hji] at hkey2
                exact hk2 hkey2.symm
              · rw [if_neg hji] at hact2 hkey2
                have := oh_atDict_of_active hashF s1 k2 hwf1 j
                  (by simpa using hj) hact2 hkey2
                rw [hv] at this
                cases this
          · obtain ⟨j, hjlt, hact3, hkey3, hval3⟩ :=
              oh_atDict_some_inv hashF s1 k2 hpos1 v hv
            have hji : j ≠ idx := fun hcon => by
              rw [hcon] at hact3
              exact ha_stat hact3
            have h4 : OpenHT.atDict hashF ({ s1 with
                m_table := s1.m_table.set idx ⟨kv, HashTableStatus.ACTIVE⟩,
                m_number_of_elements := s1.m_number_of_elements + 1,
                comparisons := s1.comparisons +
                  (OpenHT.probeLoop hashF s1 kv.1 0 s1.m_table_size none).dcomp,
                collisions := s1.collisions +
                  (OpenHT.probeLoop hashF s1 kv.1 0 s1.m_table_size none).dcoll } :
                OpenHT.Table K V) k2 = some ((OpenHT.slotAt ({ s1 with
                m_table := s1.m_table.set idx ⟨kv, HashTableStatus.ACTIVE⟩,
                m_number_of_elements := s1.m_number_of_elements + 1,
                comparisons := s1.comparisons +
                  (OpenHT.probeLoop hashF s1 kv.1 0 s1.m_table_size none).dcomp,
                collisions := s1.collisions +
                  (OpenHT.probeLoop hashF s1 kv.1 0 s1.m_table_size none).dcoll } :
                OpenHT.Table K V) j).data.2) :=
              oh_atDict_of_active hashF _ k2 hwf2 j (by simpa using hjlt)
                (by rw [hslot j, if_neg hji]; exact hact3)
                (by rw [hslot j, if_neg hji]; exact hkey3)
            rw [h4, hslot j, if_neg hji, hval3]

/-- OpenHashTable::insert meets the insert contract whenever the rehash it
may delegate to preserves well-formedness, the count and all lookups. -/
theorem oh_insertCore_spec {K V : Type} [DecidableEq K] [Inhabited K]
    [Inhabited V] (hashF : K → Nat)
    (doRehash : OpenHT.Table K V → Except Unit (OpenHT.Table K V))
    (s : OpenHT.Table K V) (kv : K × V) (hwf : OpenHT.WF hashF s)
    (hre : s.m_max_load_factor ≤ OpenHT.load_factor s →
      ∀ s1, doRehash s = .ok s1 →
        OpenHT.WF hashF s1 ∧ s1.m_number_of_elements = s.m_number_of_elements ∧
        ∀ k2, OpenHT.atDict hashF s1 k2 = OpenHT.atDict hashF s k2) :
    ∀ s2, OpenHT.insertCore hashF doRehash s kv = .ok s2 →
      OpenHT.InsSpec hashF s s2 kv := by
  intro s2 hok
  rw [OpenHT.insertCore] at hok
  by_cases htr : s.m_max_load_factor ≤ OpenHT.load_factor s
  · rw [if_pos htr] at hok
    rcases hdr : doRehash s with e | s1
    · rw [hdr] at hok
      have hok2 : (Except.error e : Except Unit (OpenHT.Table K V)) =
          Except.ok s2 := hok
      cases hok2
    · rw [hdr] at hok
      obtain ⟨hwf1, hcnt1, hat1⟩ := hre htr s1 hdr
      exact oh_insertCore_body_spec hashF s s1 kv hwf1 hcnt1 hat1 s2 hok
  · rw [if_neg htr] at hok
    exact oh_insertCore_body_spec hashF s s kv hwf rfl (fun _ => rfl) s2 hok

/-- Folding the refill step over any slots from an error accumulator stays
an error. -/
theorem oh_foldl_error {K V : Type} [DecidableEq K] [Inhabited K] [Inhabited V]
    (ins : OpenHT.Table K V → K × V → Except Unit (OpenHT.Table K V)) :
    ∀ (slots : List (OpenHT.Slot K V)) (e : Unit),
      slots.foldl (OpenHT.rehashStep ins) (.error e) = .error e := by
  intro slots
  induction slots with
  | nil => intro e; rfl
  | cons sl rest ih => intro e; exact ih e

/-- Refilling an open-addressing table by folding an insert that meets the
insert contract over slots holding fresh keys: if no step throws, all
ACTIVE pairs land in the table, lookups favour the reinserted pairs, and
the count grows by the number of ACTIVE slots. -/
theorem oh_foldl_ins_spec {K V : Type} [DecidableEq K] [Inhabited K]
    [Inhabited V] (hashF : K → Nat)
    (ins : OpenHT.Table K V → K × V → Except Unit (OpenHT.Table K V)) (f : Nat)
    (hins : ∀ t kv2, OpenHT.WF hashF t → t.m_number_of_elements + 1 ≤ f →
      ∀ t2, ins t kv2 = .ok t2 → OpenHT.InsSpec hashF t t2 kv2) :
    ∀ (slots : List (OpenHT.Slot K V)) (acc : OpenHT.Table K V),
      OpenHT.WF hashF acc →
      ((((slots.filter (fun sl => sl.status = .ACTIVE)).map OpenHT.Slot.data).map
        Prod.fst).Nodup) →
      (∀ p ∈ (slots.filter (fun sl => sl.status = .ACTIVE)).map OpenHT.Slot.data,
        OpenHT.atDict hashF acc p.1 = none) →
      acc.m_number_of_elements +
        (slots.filter (fun sl => sl.status = .ACTIVE)).length ≤ f →
      ∀ t2, slots.foldl (OpenHT.rehashStep ins) (.ok acc) = .ok t2 →
        OpenHT.WF hashF t2 ∧
        t2.m_number_of_elements = acc.m_number_of_elements +
          (slots.filter (fun sl => sl.status = .ACTIVE)).length ∧
        ∀ k2, OpenHT.atDict hashF t2 k2 =
          ((Chained.chainFind ((slots.filter (fun sl => sl.status = .ACTIVE)).map
            OpenHT.Slot.data) k2).1).elim (OpenHT.atDict hashF acc k2) some := by
  intro slots
  induction slots with
  | nil =>
      intro acc hw hnd habs hfuel t2 hfold
      have hfold2 : (Except.ok acc : Except Unit (OpenHT.Table K V)) =
          Except.ok t2 := hfold
      injection hfold2 with h2
      subst h2
      refine ⟨hw, by simp, fun k2 => by simp [Chained.chainFind]⟩
  | cons sl rest ih =>
      intro acc hw hnd habs hfuel t2 hfold
      rw [List.foldl_cons] at hfold
      by_cases hact : sl.status = HashTableStatus.ACTIVE
      · have hfc : (sl :: rest).filter
            (fun sl2 => decide (sl2.status = HashTableStatus.ACTIVE)) =
            sl :: rest.filter
              (fun sl2 => decide (sl2.status = HashTableStatus.ACTIVE)) :=
          List.filter_cons_of_pos (by simp [hact])
      -- the step is the inner insert
        rcases hins0 : ins acc sl.data with e | t1
        · rw [show OpenHT.rehashStep ins (Except.ok acc) sl = Except.error e from by
            rw [OpenHT.rehashStep, if_pos hact]
            exact hins0] at hfold
          rw [oh_foldl_error ins rest e] at hfold
          cases hfold
        · rw [show OpenHT.rehashStep ins (Except.ok acc) sl = Except.ok t1 from by
            rw [OpenHT.rehashStep, if_pos hact]
            exact hins0] at hfold
          rw [hfc] at hnd habs hfuel ⊢
          simp only [List.map_cons, List.length_cons] at hnd habs hfuel ⊢
          obtain ⟨hw1, hc1, hat1⟩ := hins acc sl.data hw (by omega) t1 hins0
          have habs_p : OpenHT.atDict hashF acc sl.data.1 = none :=
            habs sl.data (List.mem_cons_self _ _)
          have hcnt : t1.m_number_of_elements = acc.m_number_of_elements + 1 := by
            rw [hc1, habs_p]
            rfl
          have hnd2 : (sl.data.1 :: ((rest.filter
              (fun sl2 => decide (sl2.status = HashTableStatus.ACTIVE))).map
                OpenHT.Slot.data).map Prod.fst).Nodup := by
            simpa using hnd
          have hkey : sl.data.1 ∉ ((rest.filter
              (fun sl2 => decide (sl2.status = HashTableStatus.ACTIVE))).map
                OpenHT.Slot.data).map Prod.fst := (List.nodup_cons.mp hnd2).1
          have habs2 : ∀ p ∈ (rest.filter
              (fun sl2 => decide (sl2.status = HashTableStatus.ACTIVE))).map
                OpenHT.Slot.data, OpenHT.atDict hashF t1 p.1 = none := by
            intro q hq
            rw [hat1 q.1, if_neg]
            · exact habs q (List.mem_cons_of_mem _ hq)
            · intro hcon
              exact hkey (hcon.1 ▸ List.mem_map_of_mem Prod.fst hq)
          obtain ⟨hwr, hcr, hatr⟩ := ih t1 hw1 (List.nodup_cons.mp hnd2).2 habs2
            (by omega) t2 hfold
          refine ⟨hwr, ?_, ?_⟩
          · rw [hcr, hcnt]
            omega
          · intro k2
            rw [hatr k2]
            by_cases hp : sl.data.1 = k2
            · have hE : (Chained.chainFind ((rest.filter
                  (fun sl2 => decide (sl2.status = HashTableStatus.ACTIVE))).map
                  OpenHT.Slot.data) k2).1 = none := by
                rw [ch_chainFind_eq_none]
                intro q hq hqk
                exact hkey (hp ▸ hqk ▸ List.mem_map_of_mem Prod.fst hq)
              rw [hE]
              simp only [Option.elim]
              rw [hat1 k2, if_pos ⟨hp.symm, by rw [habs_p]; rfl⟩]
              simp [Chained.chainFind, hp]
            · have hcons : (Chained.chainFind (sl.data :: (rest.filter
                  (fun sl2 => decide (sl2.status = HashTableStatus.ACTIVE))).map
                  OpenHT.Slot.data) k2).1 =
                  (Chained.chainFind ((rest.filter
                    (fun sl2 => decide (sl2.status = HashTableStatus.ACTIVE))).map
                    OpenHT.Slot.data) k2).1 := by
                simp [Chained.chainFind, hp]
              rw [hcons]
              rcases hE : (Chained.chainFind ((rest.filter
                  (fun sl2 => decide (sl2.status = HashTableStatus.ACTIVE))).map
                  OpenHT.Slot.data) k2).1 with _ | v
              · rw [hE]
                simp only [Option.elim]
                rw [hat1 k2, if_neg (fun hcon => hp hcon.1.symm)]
              · rw [hE]
                simp [Option.elim]
      · have hfc : (sl :: rest).filter
            (fun sl2 => decide (sl2.status = HashTableStatus.ACTIVE)) =
            rest.filter (fun sl2 => decide (sl2.status = HashTableStatus.ACTIVE)) :=
          List.filter_cons_of_neg (by simp [hact])
        rw [show OpenHT.rehashStep ins (Except.ok acc) sl = Except.ok acc from by
          rw [OpenHT.rehashStep, if_neg hact]] at hfold
        rw [hfc] at hnd habs hfuel ⊢
        exact ih acc hw hnd habs hfuel t2 hfold

/-- Counting positions whose entry satisfies a predicate equals counting
the entries that satisfy it. -/
theorem filter_range_index {A : Type} (p : A → Bool) (d : A) :
    ∀ l : List A,
      ((List.range l.length).filter (fun j => p ((l.get? j).getD d))).length =
        (l.filter p).length := by
  intro l
  induction l with
  | nil => rfl
  | cons a rest ih =>
      rw [List.length_cons, List.range_succ_eq_map, List.filter_cons,
        List.filter_cons]
      rw [show (((a :: rest).get? 0).getD d) = a from rfl]
      have hcomp : ((fun j => p (((a :: rest).get? j).getD d)) ∘
          (fun n => n + 1)) = (fun j => p ((rest.get? j).getD d)) := rfl
      cases hpa : p a
      · simp only [Bool.false_eq_true, if_false]
        rw [List.filter_map, List.length_map, hcomp, ih]
      · simp only [if_true, List.length_cons]
        rw [List.filter_map, List.length_map, hcomp, ih]

/-- On a well-formed open-addressing table, the keys of the ACTIVE slots
are pairwise distinct. -/
theorem oh_actives_keys_nodup {K V : Type} [DecidableEq K] [Inhabited K]
    [Inhabited V] (hashF : K → Nat) (s : OpenHT.Table K V)
    (hwf : OpenHT.WF hashF s) :
    (((s.m_table.filter (fun sl => sl.status = .ACTIVE)).map
      OpenHT.Slot.data).map Prod.fst).Nodup := by
  obtain ⟨hlen, hpos, hreach, huniq, hcnt⟩ := hwf
  have hpw : s.m_table.Pairwise (fun a b =>
      a.status = .ACTIVE → b.status = .ACTIVE → a.data.1 ≠ b.data.1) := by
    rw [List.pairwise_iff_getElem]
    intro i j hi hj hij hai haj heq
    have hsi : OpenHT.slotAt s i = s.m_table[i] := by
      simp [OpenHT.slotAt, List.get?_eq_getElem?, List.getElem?_eq_getElem hi]
    have hsj : OpenHT.slotAt s j = s.m_table[j] := by
      simp [OpenHT.slotAt, List.get?_eq_getElem?, List.getElem?_eq_getElem hj]
    have := huniq i j (by omega) (by omega) (by rw [hsi]; exact hai)
      (by rw [hsj]; exact haj) (by rw [hsi, hsj]; exact heq)
    omega
  have hpw2 : (s.m_table.filter (fun sl => sl.status = .ACTIVE)).Pairwise
      (fun a b => a.data.1 ≠ b.data.1) := by
    have h3 := List.Pairwise.filter
      (fun sl => decide (sl.status = HashTableStatus.ACTIVE)) hpw
    refine List.Pairwise.imp_of_mem ?_ h3
    intro a b ha hb hr
    exact hr (by simpa using List.of_mem_filter ha)
      (by simpa using List.of_mem_filter hb)
  rw [List.map_map, List.Nodup, List.pairwise_map]
  exact hpw2

/-- OpenHashTable::rehash, driven by an insert meeting the insert
contract: when it returns normally, the element count and all lookups are
preserved, and the result is well-formed. -/
theorem oh_rehashGo_spec {K V : Type} [DecidableEq K] [Inhabited K]
    [Inhabited V] (hashF : K → Nat)
    (ins : OpenHT.Table K V → K × V → Except Unit (OpenHT.Table K V)) (f : Nat)
    (hins : ∀ t kv2, OpenHT.WF hashF t → t.m_number_of_elements + 1 ≤ f →
      ∀ t2, ins t kv2 = .ok t2 → OpenHT.InsSpec hashF t t2 kv2)
    (s : OpenHT.Table K V) (m : Nat) (hwf : OpenHT.WF hashF s)
    (hfuel : s.m_number_of_elements ≤ f) :
    ∀ t2, OpenHT.rehashGo ins s m = .ok t2 →
      OpenHT.WF hashF t2 ∧
      t2.m_number_of_elements = s.m_number_of_elements ∧
      ∀ k2, OpenHT.atDict hashF t2 k2 = OpenHT.atDict hashF s k2 := by
  obtain ⟨hlen, hpos, hreach, huniq, hcnt⟩ := hwf
  intro t2 hok
  rw [OpenHT.rehashGo] at hok
  by_cases hg : s.m_table_size < get_next_prime m
  · rw [if_pos hg] at hok
    have hsT0 : ∀ x, OpenHT.slotAt
        (⟨0, get_next_prime m, s.m_max_load_factor,
          List.replicate (get_next_prime m) OpenHT.emptySlot,
          s.comparisons, s.collisions⟩ : OpenHT.Table K V) x =
        OpenHT.emptySlot := by
      intro x
      simp only [OpenHT.slotAt, List.get?_eq_getElem?, List.getElem?_replicate]
      split <;> rfl
    have hwT0 : OpenHT.WF hashF
        (⟨0, get_next_prime m, s.m_max_load_factor,
          List.replicate (get_next_prime m) OpenHT.emptySlot,
          s.comparisons, s.collisions⟩ : OpenHT.Table K V) := by
      refine ⟨by simp, ?_, ?_, ?_, ?_⟩
      · show 0 < get_next_prime m
        omega
      · intro j hj hact
        rw [hsT0 j] at hact
        cases hact
      · intro j1 j2 hj1 hj2 hact1
        rw [hsT0 j1] at hact1
        cases hact1
      · show 0 = _
        rw [show ((List.range (get_next_prime m)).filter (fun j =>
            decide ((OpenHT.slotAt (⟨0, get_next_prime m, s.m_max_load_factor,
              List.replicate (get_next_prime m) OpenHT.emptySlot,
              s.comparisons, s.collisions⟩ : OpenHT.Table K V) j).status =
              HashTableStatus.ACTIVE))) = [] from ?_]
        · rfl
        · apply List.filter_eq_nil.mpr
          intro j hj
          rw [hsT0 j]
          simp [OpenHT.emptySlot]
    have habsT0 : ∀ p ∈ (s.m_table.filter
        (fun sl => sl.status = .ACTIVE)).map OpenHT.Slot.data,
        OpenHT.atDict hashF
          (⟨0, get_next_prime m, s.m_max_load_factor,
            List.replicate (get_next_prime m) OpenHT.emptySlot,
            s.comparisons, s.collisions⟩ : OpenHT.Table K V) p.1 = none := by
      intro p hp
      apply oh_atDict_none_of_no
      · simp
      · intro j hj hact
        rw [hsT0 j] at hact
        cases hact
    have hcntE : (s.m_table.filter (fun sl => sl.status = .ACTIVE)).length =
        s.m_number_of_elements := by
      rw [hcnt, ← hlen]
      exact (filter_range_index (fun sl => decide (sl.status =
        HashTableStatus.ACTIVE)) OpenHT.emptySlot s.m_table).symm
    obtain ⟨hw2, hc2, hat2⟩ := oh_foldl_ins_spec hashF ins f hins s.m_table _
      hwT0 (oh_actives_keys_nodup hashF s ⟨hlen, hpos, hreach, huniq, hcnt⟩)
      habsT0 (by rw [hcntE]; show 0 + _ ≤ f; omega) t2 hok
    refine ⟨hw2, ?_, ?_⟩
    · rw [hc2]
      show 0 + _ = _
      rw [hcntE]
      omega
    · intro k2
      rw [hat2 k2]
      rcases hv : OpenHT.atDict hashF s k2 with _ | v
      · have hnoact : ∀ q ∈ (s.m_table.filter
            (fun sl => sl.status = .ACTIVE)).map OpenHT.Slot.data, q.1 ≠ k2 := by
          intro q hq hqk
          rw [List.mem_map] at hq
          obtain ⟨sl, hsl, rfl⟩ := hq
          have hact := List.of_mem_filter hsl
          simp only [decide_eq_true_eq] at hact
          obtain ⟨j, hjl, rfl⟩ := List.mem_iff_getElem.mp (List.mem_of_mem_filter hsl)
          have hsj : OpenHT.slotAt s j = s.m_table[j] := by
            simp [OpenHT.slotAt, List.get?_eq_getElem?, List.getElem?_eq_getElem hjl]
          have := oh_atDict_of_active hashF s k2
            ⟨hlen, hpos, hreach, huniq, hcnt⟩ j (by omega)
            (by rw [hsj]; exact hact) (by rw [hsj]; exact hqk)
          rw [hv] at this
          cases this
        rw [(ch_chainFind_eq_none _ _).mpr hnoact]
        simp only [Option.elim]
        apply oh_atDict_none_of_no
        · simp
        · intro j hj hact
          rw [hsT0 j] at hact
          cases hact
      · obtain ⟨j, hjl, hact, hkey, hval⟩ :=
          oh_atDict_some_inv hashF s k2 hpos v hv
        have hjl2 : j < s.m_table.length := by omega
        have hsj : OpenHT.slotAt s j = s.m_table[j] := by
          simp [OpenHT.slotAt, List.get?_eq_getElem?,
            List.getElem?_eq_getElem hjl2]
        have hmem : OpenHT.slotAt s j ∈ s.m_table.filter
            (fun sl => sl.status = .ACTIVE) := by
          rw [hsj]
          apply List.mem_filter.mpr
          refine ⟨List.getElem_mem _, ?_⟩
          rw [← hsj]
          simpa using hact
        have hfind : (Chained.chainFind ((s.m_table.filter
            (fun sl => sl.status = .ACTIVE)).map OpenHT.Slot.data) k2).1 =
            some v := by
          have hpmem : ((OpenHT.slotAt s j).data.1, (OpenHT.slotAt s j).data.2) ∈
              (s.m_table.filter (fun sl => sl.status = .ACTIVE)).map
                OpenHT.Slot.data := by
            rw [List.mem_map]
            exact ⟨OpenHT.slotAt s j, hmem, rfl⟩
          rw [hkey, hval] at hpmem
          -- unique key: scan finds exactly this entry
          have hnodup := oh_actives_keys_nodup hashF s
            ⟨hlen, hpos, hreach, huniq, hcnt⟩
          clear hsj hmem
          generalize hE : (s.m_table.filter
            (fun sl => sl.status = .ACTIVE)).map OpenHT.Slot.data = E at hpmem hnodup
          clear hE
          induction E with
          | nil => cases hpmem
          | cons q rest ihE =>
              rcases List.mem_cons.mp hpmem with rfl | hmem2
              · simp [Chained.chainFind]
              · have hq1 : q.1 ≠ k2 := by
                  simp only [List.map_cons, List.nodup_cons] at hnodup
                  intro hq1
                  apply hnodup.1
                  rw [hq1]
                  exact List.mem_map_of_mem Prod.fst hmem2
                simp only [Chained.chainFind]
                rw [if_neg hq1]
                exact ihE hmem2 (by
                  simp only [List.map_cons, List.nodup_cons] at hnodup
                  exact hnodup.2)
        rw [hfind]
        simp [Option.elim]
  · rw [if_neg hg] at hok
    have hok2 : (Except.ok s : Except Unit (OpenHT.Table K V)) =
        Except.ok t2 := hok
    injection hok2 with h2
    subst h2
    exact ⟨⟨hlen, hpos, hreach, huniq, hcnt⟩, rfl, fun _ => rfl⟩

/-- OpenHashTable::insert with enough fuel meets the insert contract on
every well-formed table whenever it returns normally. -/
theorem oh_insertFuel_spec {K V : Type} [DecidableEq K] [Inhabited K]
    [Inhabited V] (hashF : K → Nat) :
    ∀ (f : Nat) (s : OpenHT.Table K V) (kv : K × V), OpenHT.WF hashF s →
      s.m_number_of_elements + 1 ≤ f →
      ∀ s2, OpenHT.insertFuel hashF f s kv = .ok s2 →
        OpenHT.InsSpec hashF s s2 kv := by
  intro f
  induction f with
  | zero =>
      intro s kv hw hf
      exact absurd hf (by omega)
  | succ f ih =>
      intro s kv hw hf s2 hok
      have hunf : OpenHT.insertFuel hashF (f + 1) s kv =
          OpenHT.insertCore hashF
            (fun s1 => OpenHT.rehashGo (OpenHT.insertFuel hashF f) s1
              (s1.m_table_size * 2)) s kv := rfl
      rw [hunf] at hok
      refine oh_insertCore_spec hashF _ s kv hw ?_ s2 hok
      intro htrig s1 hre
      exact oh_rehashGo_spec hashF (OpenHT.insertFuel hashF f) f
        (fun t kv2 htw htf => ih t kv2 htw htf) s (s.m_table_size * 2) hw
        (by omega) s1 hre

/-- OpenHashTable::insert (public entry) meets the insert contract on every
well-formed table whenever it returns normally. -/
theorem oh_insertDict_spec {K V : Type} [DecidableEq K] [Inhabited K]
    [Inhabited V] (hashF : K → Nat) (s : OpenHT.Table K V) (kv : K × V)
    (hwf : OpenHT.WF hashF s) :
    ∀ s2, OpenHT.insertDict hashF s kv = .ok s2 →
      OpenHT.InsSpec hashF s s2 kv :=
  oh_insertFuel_spec hashF (s.m_number_of_elements + 2) s kv hwf (by omega)

/-- C3 amended.  For a well-formed open-addressing table below its load
trigger, insert probes (hash(k) + i·i) mod table_size for i = 0, 1, 2, …;
an ACTIVE match within the prefix scanned up to the first EMPTY slot makes
the insert a no-op; otherwise the entry is placed in the FIRST DELETED
slot of that prefix whenever one exists — the tombstone overrides the
EMPTY slot found, it is not merely a fallback for an exhausted probe
sequence — and only when no tombstone was seen is the entry placed in the
first EMPTY slot; with no match, no tombstone and no EMPTY slot the insert
fails. -/
theorem C3_amended_tombstone_overrides_first_empty {K V : Type}
    [DecidableEq K] [Inhabited K] [Inhabited V] (hashF : K → Nat)
    (s : OpenHT.Table K V) (kv : K × V)
    (htr : OpenHT.load_factor s < s.m_max_load_factor) :
    (∀ i, OpenHT.hash_code hashF s kv.1 i =
      (hashF kv.1 + i * i) % s.m_table_size) ∧
    ((OpenHT.specMatch hashF s kv.1).isSome = true →
      ∃ s2, OpenHT.insertDict hashF s kv = .ok s2 ∧
        s2.m_table = s.m_table ∧
        s2.m_number_of_elements = s.m_number_of_elements) ∧
    (∀ d, OpenHT.specMatch hashF s kv.1 = none →
      OpenHT.specFirstDeleted hashF s kv.1 = some d →
      ∃ s2, OpenHT.insertDict hashF s kv = .ok s2 ∧
        s2.m_table = s.m_table.set (OpenHT.hash_code hashF s kv.1 d)
          ⟨kv, .ACTIVE⟩ ∧
        s2.m_number_of_elements = s.m_number_of_elements + 1) ∧
    (∀ e, OpenHT.specMatch hashF s kv.1 = none →
      OpenHT.specFirstDeleted hashF s kv.1 = none →
      OpenHT.specFirstEmpty hashF s kv.1 = some e →
      ∃ s2, OpenHT.insertDict hashF s kv = .ok s2 ∧
        s2.m_table = s.m_table.set (OpenHT.hash_code hashF s kv.1 e)
          ⟨kv, .ACTIVE⟩ ∧
        s2.m_number_of_elements = s.m_number_of_elements + 1) ∧
    (OpenHT.specMatch hashF s kv.1 = none →
      OpenHT.specFirstDeleted hashF s kv.1 = none →
      OpenHT.specFirstEmpty hashF s kv.1 = none →
      OpenHT.insertDict hashF s kv = .error ()) := by
  have htr' : ¬ (s.m_max_load_factor ≤ OpenHT.load_factor s) := not_le.mpr htr
  have hunf : OpenHT.insertDict hashF s kv =
      (if (OpenHT.probeLoop hashF s kv.1 0 s.m_table_size none).found = true then
        Except.ok { s with
          comparisons := s.comparisons +
            (OpenHT.probeLoop hashF s kv.1 0 s.m_table_size none).dcomp,
          collisions := s.collisions +
            (OpenHT.probeLoop hashF s kv.1 0 s.m_table_size none).dcoll }
      else
        (((OpenHT.probeLoop hashF s kv.1 0 s.m_table_size
            none).firstDeleted).elim
          (OpenHT.probeLoop hashF s kv.1 0 s.m_table_size none).hashIndex
          some).elim (Except.error ()) (fun idx => Except.ok { s with
            m_table := s.m_table.set idx ⟨kv, HashTableStatus.ACTIVE⟩,
            m_number_of_elements := s.m_number_of_elements + 1,
            comparisons := s.comparisons +
              (OpenHT.probeLoop hashF s kv.1 0 s.m_table_size none).dcomp,
            collisions := s.collisions +
              (OpenHT.probeLoop hashF s kv.1 0 s.m_table_size none).dcoll })) := by
    show OpenHT.insertCore hashF
      (fun s1 => OpenHT.rehashGo
        (OpenHT.insertFuel hashF (s.m_number_of_elements + 1)) s1
        (s1.m_table_size * 2)) s kv = _
    rw [OpenHT.insertCore, if_neg htr']
  refine ⟨fun i => rfl, ?_, ?_, ?_, ?_⟩
  · intro hsm
    obtain ⟨htop1, -⟩ := oh_probe_top hashF s kv.1
    have hfound : (OpenHT.probeLoop hashF s kv.1 0 s.m_table_size none).found
        = true := htop1.mpr hsm
    rw [hunf, if_pos hfound]
    exact ⟨_, rfl, rfl, rfl⟩
  · intro d hsm hd
    obtain ⟨htop1, htop2⟩ := oh_probe_top hashF s kv.1
    have hnf : (OpenHT.probeLoop hashF s kv.1 0 s.m_table_size none).found
        = false := by
      rw [hsm] at htop1
      simpa using htop1
    obtain ⟨-, hd2⟩ := htop2 hnf
    rw [hd] at hd2
    rw [hunf, if_neg (by rw [hnf]; exact Bool.false_ne_true)]
    rw [hd2]
    simp only [Option.map_some', Option.elim]
    exact ⟨_, rfl, rfl, rfl⟩
  · intro e hsm hd he
    obtain ⟨htop1, htop2⟩ := oh_probe_top hashF s kv.1
    have hnf : (OpenHT.probeLoop hashF s kv.1 0 s.m_table_size none).found
        = false := by
      rw [hsm] at htop1
      simpa using htop1
    obtain ⟨hh2, hd2⟩ := htop2 hnf
    rw [hd] at hd2
    rw [he] at hh2
    rw [hunf, if_neg (by rw [hnf]; exact Bool.false_ne_true)]
    rw [hd2, hh2]
    simp only [Option.map_none', Option.map_some', Option.elim]
    exact ⟨_, rfl, rfl, rfl⟩
  · intro hsm hd he
    obtain ⟨htop1, htop2⟩ := oh_probe_top hashF s kv.1
    have hnf : (OpenHT.probeLoop hashF s kv.1 0 s.m_table_size none).found
        = false := by
      rw [hsm] at htop1
      simpa using htop1
    obtain ⟨hh2, hd2⟩ := htop2 hnf
    rw [hd] at hd2
    rw [he] at hh2
    rw [hunf, if_neg (by rw [hnf]; exact Bool.false_ne_true)]
    rw [hd2, hh2]
    simp only [Option.map_none', Option.elim]

/-- Witness for C3 amended: in the concrete table ohTombstonePre the
absent key 10 has a tombstone at probe attempt 0 and its first EMPTY slot
at attempt 2, and the insert places the entry in the tombstone slot while
growing the count by one. -/
theorem C3_amended_witness :
    OpenHT.load_factor ohTombstonePre < ohTombstonePre.m_max_load_factor ∧
    OpenHT.specMatch natHash ohTombstonePre 10 = none ∧
    OpenHT.specFirstDeleted natHash ohTombstonePre 10 = some 0 ∧
    OpenHT.specFirstEmpty natHash ohTombstonePre 10 = some 2 ∧
    ∃ s2, OpenHT.insertDict natHash ohTombstonePre (10, 300) = .ok s2 ∧
      s2.m_table = ohTombstonePre.m_table.set
        (OpenHT.hash_code natHash ohTombstonePre 10 0) ⟨(10, 300), .ACTIVE⟩ ∧
      s2.m_number_of_elements = ohTombstonePre.m_number_of_elements + 1 :=
  ⟨by decide, by decide, by decide, by decide,
    (C3_amended_tombstone_overrides_first_empty natHash ohTombstonePre
      (10, 300) (by decide)).2.2.1 0 (by decide) (by decide)⟩

/-- C6.  For every engine, inserting {k, v2} when k is already stored with
value v1 is a no-op: the element count is unchanged and at(k) still
returns v1 (for the open-addressing engine, whenever the insert returns
normally — which it does on a well-formed table below its load trigger). -/
theorem C6_duplicate_insert_noop {K V : Type} [LinearOrder K] [DecidableEq K]
    [Inhabited K] [Inhabited V] (hashF : K → Nat) (k : K) (v1 v2 : V) :
    (∀ d : AVL.Dict K V, AVL.WF d.root → AVL.atDict d k = some v1 →
      (AVL.insertDict d (k, v2)).size_m = d.size_m ∧
      AVL.atDict (AVL.insertDict d (k, v2)) k = some v1) ∧
    (∀ d : RB.Dict K V, RB.atDict d k = some v1 →
      (RB.insertDict d (k, v2)).size_m = d.size_m ∧
      RB.atDict (RB.insertDict d (k, v2)) k = some v1) ∧
    (∀ s : Chained.Table K V, Chained.WF hashF s →
      Chained.atDict hashF s k = some v1 →
      (Chained.insertDict hashF s (k, v2)).m_number_of_elements =
        s.m_number_of_elements ∧
      Chained.atDict hashF (Chained.insertDict hashF s (k, v2)) k = some v1) ∧
    (∀ s : OpenHT.Table K V, OpenHT.WF hashF s →
      OpenHT.atDict hashF s k = some v1 →
      ∀ s2, OpenHT.insertDict hashF s (k, v2) = .ok s2 →
        s2.m_number_of_elements = s.m_number_of_elements ∧
        OpenHT.atDict hashF s2 k = some v1) := by
  refine ⟨?_, ?_, ?_, ?_⟩
  · intro d hW hfound
    obtain ⟨h1, h2⟩ := avl_insertT_found d.root k v1 v2 hW.1 hW.2 hfound
    constructor
    · show d.size_m + (AVL.insertT d.root (k, v2)).dsize = d.size_m
      rw [h2]
      omega
    · show (AVL.atT (AVL.insertT d.root (k, v2)).tree k).1 = some v1
      rw [h1]
      exact hfound
  · intro d hfound
    have hq := rb_descendLoop_found d.root k v1 v2 hfound []
    have hstep : RB.insertDict d (k, v2) = { d with comparisons :=
        d.comparisons + (RB.descendLoop d.root (k, v2) []).2 } := by
      simp only [RB.insertDict, hq]
    rw [hstep]
    exact ⟨rfl, hfound⟩
  · intro s hwf hfound
    have hfound2 : Chained.atDict hashF s ((k, v2) : K × V).1 = some v1 :=
      hfound
    obtain ⟨hw2, hc2, hat2⟩ := ch_insertDict_spec hashF s (k, v2) hwf
    constructor
    · rw [hc2, hfound2]
      simp
    · rw [hat2 k, if_neg (fun hcon => by
        rw [hfound2] at hcon
        simp at hcon)]
      exact hfound
  · intro s hwf hfound s2 hok
    have hfound2 : OpenHT.atDict hashF s ((k, v2) : K × V).1 = some v1 :=
      hfound
    obtain ⟨hw2, hc2, hat2⟩ := oh_insertDict_spec hashF s (k, v2) hwf s2 hok
    constructor
    · rw [hc2, hfound2]
      simp
    · rw [hat2 k, if_neg (fun hcon => by
        rw [hfound2] at hcon
        simp at hcon)]
      exact hfound

/-- Witness for C6: duplicate inserts of key 7 into concrete one-element
instances of all four engines leave the count and the stored value 1
unchanged. -/
theorem C6_duplicate_insert_noop_witness :
    ((AVL.insertDict (AVL.insertDict AVL.emptyDict (7, 1)) (7, 2)).size_m =
        (AVL.insertDict AVL.emptyDict (7, 1) : AVL.Dict Nat Nat).size_m ∧
      AVL.atDict (AVL.insertDict (AVL.insertDict AVL.emptyDict (7, 1)) (7, 2))
        7 = some 1) ∧
    ((RB.insertDict (RB.insertDict RB.emptyDict (7, 1)) (7, 2)).size_m =
        (RB.insertDict RB.emptyDict (7, 1) : RB.Dict Nat Nat).size_m ∧
      RB.atDict (RB.insertDict (RB.insertDict RB.emptyDict (7, 1)) (7, 2))
        7 = some 1) ∧
    ((Chained.insertDict natHash
        (Chained.insertDict natHash (Chained.ctor 19 1) (7, 1))
        (7, 2)).m_number_of_elements =
      (Chained.insertDict natHash (Chained.ctor 19 1) (7, 1) :
        Chained.Table Nat Nat).m_number_of_elements ∧
      Chained.atDict natHash (Chained.insertDict natHash
        (Chained.insertDict natHash (Chained.ctor 19 1) (7, 1)) (7, 2))
        7 = some 1) ∧
    ((OpenHT.insertOr natHash
        (OpenHT.insertOr natHash (OpenHT.ctor 19 (mkRat 1 2)) (7, 1))
        (7, 2)).m_number_of_elements =
      (OpenHT.insertOr natHash (OpenHT.ctor 19 (mkRat 1 2)) (7, 1) :
        OpenHT.Table Nat Nat).m_number_of_elements ∧
      OpenHT.atDict natHash (OpenHT.insertOr natHash
        (OpenHT.insertOr natHash (OpenHT.ctor 19 (mkRat 1 2)) (7, 1)) (7, 2))
        7 = some 1) :=
  ⟨(C6_duplicate_insert_noop natHash 7 1 2).1
      (AVL.insertDict AVL.emptyDict (7, 1))
      ⟨⟨rfl, trivial, trivial⟩, ⟨⟨by decide, by decide⟩, trivial, trivial⟩⟩
      (by decide),
    (C6_duplicate_insert_noop natHash 7 1 2).2.1
      (RB.insertDict RB.emptyDict (7, 1)) (by decide),
    (C6_duplicate_insert_noop natHash 7 1 2).2.2.1
      (Chained.insertDict natHash (Chained.ctor 19 1) (7, 1))
      (by unfold Chained.WF; decide) (by decide),
    (C6_duplicate_insert_noop natHash 7 1 2).2.2.2
      (OpenHT.insertOr natHash (OpenHT.ctor 19 (mkRat 1 2)) (7, 1))
      (by
        unfold OpenHT.WF
        refine ⟨by decide, by decide, by decide, ?_, by decide⟩
        intro j1 j2 h1 h2
        revert h2
        revert j2
        revert h1
        revert j1
        decide) (by decide)
      (OpenHT.insertOr natHash
        (OpenHT.insertOr natHash (OpenHT.ctor 19 (mkRat 1 2)) (7, 1)) (7, 2))
      (by rfl)⟩
